import Mathlib

/-!
# File-Zipper: a static Huffman compressor

Shallow embedding of `src/FileZipper.cpp` and the properties of its
specification.

Conventions of the embedding.

* A file is the finite list of its bytes; a byte (`char`, `uint8_t`) is a
  `Fin 256`.
* `uint64_t` arithmetic is arithmetic on `Nat` reduced modulo `2 ^ 64`.
* Target platform: little-endian with `sizeof(int) = 4`, so that
  `out.write((char*)&x, sizeof(x))` emits the little-endian bytes of `x`.
* `std::priority_queue<Node*, vector<Node*>, CompareNode>` is the adaptor of the
  C++ standard: `push` is `push_back` followed by `std::push_heap`, `pop` is
  `std::pop_heap` followed by `pop_back`, `top` is `front`.  The two heap
  algorithms belong to the standard library, not to the program; they are a
  parameter (`HeapAlgo`) constrained by the contract the standard gives them
  (`HeapAlgo.Lawful`).
* A `Node*` that the program dereferences is the tree it points to: nodes are
  never mutated after construction and every node the program builds has either
  no child (`Node(i, freq[i])`) or two children (`Node(-1, a+b, a, b)`).
* Undefined behaviour (null dereference, `top()` of an empty queue, use of a
  variable that a failed `read` left uninitialised) is the outcome `undefined`.
-/

set_option maxRecDepth 1000000

namespace FileZipper

/-! ## Data model -/

/-- A byte of a file. -/
abbrev Byte := Fin 256

/-- Modulus of `uint64_t`. -/
def W64 : Nat := 2 ^ 64

/-- The struct `Node`: a leaf `Node(s, f)` (both children null) or an internal
node `Node(-1, f, l, r)` (both children non-null). -/
inductive Node where
  | leaf (symbol : Byte) (freq : Nat)
  | internal (freq : Nat) (left right : Node)
  deriving DecidableEq, Repr

namespace Node

/-- Field `freq`. -/
def freq : Node → Nat
  | leaf _ f => f
  | internal f _ _ => f

/-- Field `symbol`: the byte value of a leaf, `-1` for an internal node. -/
def symbol : Node → Int
  | leaf s _ => (s.val : Int)
  | internal _ _ _ => -1

/-- The test `!left && !right`. -/
def isLeaf : Node → Bool
  | leaf _ _ => true
  | internal _ _ _ => false

/-- Leaves of a tree, left to right. -/
def leaves : Node → List (Byte × Nat)
  | leaf s f => [(s, f)]
  | internal _ l r => l.leaves ++ r.leaves

/-- Byte values at the leaves of a tree, left to right. -/
def symbols : Node → List Byte
  | leaf s _ => [s]
  | internal _ l r => l.symbols ++ r.symbols

/-- Number of internal nodes of a tree. -/
def internalCount : Node → Nat
  | leaf _ _ => 0
  | internal _ l r => l.internalCount + r.internalCount + 1

end Node

/-- The comparison `CompareNode::operator()`: `a->freq > b->freq`. -/
def compareNode (a b : Node) : Bool := decide (a.freq > b.freq)

/-! ## The heap algorithms of the standard library -/

/-- The function templates `std::push_heap` and `std::pop_heap` on a
`vector`, given the comparison object. -/
structure HeapAlgo where
  push_heap : {α : Type} → (α → α → Bool) → List α → List α
  pop_heap : {α : Type} → (α → α → Bool) → List α → List α

/-- The comparison object is a strict weak ordering. -/
structure StrictWeak {α : Type} (comp : α → α → Bool) : Prop where
  irrefl : ∀ a, comp a a = false
  trans : ∀ a b c, comp a b = true → comp b c = true → comp a c = true
  negTrans : ∀ a b c, comp a b = false → comp b c = false → comp a c = false

/-- The range is a heap with respect to `comp`: `comp(a[(i-1)/2], a[i])` is
false for every `0 < i < N`. -/
def IsHeap {α : Type} (comp : α → α → Bool) (l : List α) : Prop :=
  ∀ i (hi : 0 < i) (h : i < l.length),
    comp (l.get ⟨(i - 1) / 2, by omega⟩) (l.get ⟨i, h⟩) = false

/-- Contract of the standard for the two heap algorithms.

* `push_heap`: if `[first, last - 1)` is a heap, the result is a heap holding
  the same elements.
* `pop_heap`: if the non-empty range is a heap, the value at `first` is moved
  to `last - 1` and `[first, last - 1)` is made a heap of the other elements.
* Both use their elements only through `comp`, so they commute with every
  map that preserves the comparison. -/
structure HeapAlgo.Lawful (H : HeapAlgo) : Prop where
  push_perm : ∀ {α : Type} (comp : α → α → Bool) (l : List α) (x : α),
    StrictWeak comp → IsHeap comp l → List.Perm (H.push_heap comp (l ++ [x])) (l ++ [x])
  push_heap : ∀ {α : Type} (comp : α → α → Bool) (l : List α) (x : α),
    StrictWeak comp → IsHeap comp l → IsHeap comp (H.push_heap comp (l ++ [x]))
  pop_spec : ∀ {α : Type} (comp : α → α → Bool) (x : α) (l : List α),
    StrictWeak comp → IsHeap comp (x :: l) →
      ∃ rest, H.pop_heap comp (x :: l) = rest ++ [x] ∧ List.Perm rest l ∧ IsHeap comp rest
  push_natural : ∀ {α β : Type} (f : α → β) (ca : α → α → Bool) (cb : β → β → Bool) (l : List α),
    (∀ a b, cb (f a) (f b) = ca a b) →
      H.push_heap cb (l.map f) = (H.push_heap ca l).map f
  pop_natural : ∀ {α β : Type} (f : α → β) (ca : α → α → Bool) (cb : β → β → Bool) (l : List α),
    (∀ a b, cb (f a) (f b) = ca a b) →
      H.pop_heap cb (l.map f) = (H.pop_heap ca l).map f

/-- Insertion of `x` before the first element that `comp` ranks below it. -/
def insertDesc {α : Type} (comp : α → α → Bool) (x : α) : List α → List α
  | [] => [x]
  | y :: ys => if comp y x then x :: y :: ys else y :: insertDesc comp x ys

/-- Insertion sort: no element is ranked by `comp` below a later one. -/
def sortDesc {α : Type} (comp : α → α → Bool) : List α → List α
  | [] => []
  | x :: xs => insertDesc comp x (sortDesc comp xs)

/-- A reference implementation of the heap algorithms: the heap is kept
sorted (a sorted range is a heap). -/
def sortingHeap : HeapAlgo where
  push_heap := fun comp l => sortDesc comp l
  pop_heap := fun comp l =>
    match l with
    | [] => []
    | x :: xs => sortDesc comp xs ++ [x]

/-! ## `std::priority_queue` -/

/-- The member `priority_queue::push`. -/
def pqPush (H : HeapAlgo) (c : List Node) (x : Node) : List Node :=
  H.push_heap compareNode (c ++ [x])

/-- The member `priority_queue::pop`. -/
def pqPop (H : HeapAlgo) (c : List Node) : List Node :=
  (H.pop_heap compareNode c).dropLast

/-- The member `priority_queue::top`; `none` on an empty queue (undefined behaviour). -/
def pqTop (c : List Node) : Option Node := c.head?

/-! ## Frequency analysis (`compress`, lines 88-95) -/

/-- The local variables `freq` and `totalBytes` of `compress`. -/
structure Counts where
  freq : Byte → Nat
  totalBytes : Nat

/-- Body of the counting loop: `freq[(uint8_t)c]++; totalBytes++;`. -/
def countStep (s : Counts) (c : Byte) : Counts :=
  { freq := Function.update s.freq c ((s.freq c + 1) % W64)
    totalBytes := (s.totalBytes + 1) % W64 }

/-- The counting loop `while (in.get(c))` over the whole input. -/
def countFrequencies (X : List Byte) : Counts :=
  X.foldl countStep { freq := fun _ => 0, totalBytes := 0 }

/-! ## Tree construction (`compress` lines 99-108, `decompress` lines 157-165) -/

/-- The byte values below `n` in ascending order, in front of `acc`. -/
def bytesBelow : Nat → List Byte → List Byte
  | 0, acc => acc
  | n + 1, acc => bytesBelow n (⟨n % 256, Nat.mod_lt _ (by decide)⟩ :: acc)

/-- The byte values `0, 1, ..., 255` in the order of `for (int i = 0; i < 256; i++)`. -/
def allBytes : List Byte := bytesBelow 256 []

/-- The loop `for (i...) if (freq[i] > 0) pq.push(new Node(i, freq[i]))`, run
over the byte values `is` from the queue `c`. -/
def pushLeaves (H : HeapAlgo) (freq : Byte → Nat) (is : List Byte) (c : List Node) : List Node :=
  is.foldl (fun q i => if freq i > 0 then pqPush H q (Node.leaf i (freq i)) else q) c

/-- The queue after the initialisation loop. -/
def initialQueue (H : HeapAlgo) (freq : Byte → Nat) : List Node :=
  pushLeaves H freq allBytes []

/-- The leaves that the initialisation loop creates over the byte values `is`. -/
def leafList (freq : Byte → Nat) (is : List Byte) : List Node :=
  (is.filter (fun i => decide (freq i > 0))).map (fun i => Node.leaf i (freq i))

/-- The loop `while (pq.size() > 1) { a = top; pop; b = top; pop; push(new Node(-1, a+b, a, b)); }`.
The first argument bounds the number of iterations; `none` is `top()` on an
empty queue (undefined behaviour) or an exhausted bound. -/
def combineLoop (H : HeapAlgo) : Nat → List Node → Option (List Node)
  | 0, c => if c.length > 1 then none else some c
  | fuel + 1, c =>
    if c.length > 1 then
      match pqTop c with
      | none => none
      | some a =>
        let c1 := pqPop H c
        match pqTop c1 with
        | none => none
        | some b =>
          let c2 := pqPop H c1
          combineLoop H fuel (pqPush H c2 (Node.internal ((a.freq + b.freq) % W64) a b))
    else some c

/-- The tree construction: the combine loop followed by `Node* root = pq.top()`.
Every iteration on a lawful heap shortens the queue by one, so the bound
`pq.size()` is never exhausted (`combineLoop_spec`, `buildTree_spec`). -/
def buildTree (H : HeapAlgo) (freq : Byte → Nat) : Option Node :=
  match combineLoop H (initialQueue H freq).length (initialQueue H freq) with
  | none => none
  | some c => pqTop c

/-! ## Code table (`buildCodes`, lines 73-81) -/

/-- A `std::string` of the code table. -/
abbrev Code := List Char

/-- The function `buildCodes(root, code, table)`; the table is passed by
reference in the source and returned here.  The guard `if (!root) return;`
has no counterpart: no node of the tree has a null child. -/
def buildCodes : Node → Code → (Byte → Code) → (Byte → Code)
  | Node.leaf s _, code, table => Function.update table s (if code.isEmpty then ['0'] else code)
  | Node.internal _ l r, code, table =>
    buildCodes r (code ++ ['1']) (buildCodes l (code ++ ['0']) table)

/-- The table `vector<string> codes(256)` after `buildCodes(root, "", codes)`. -/
def codeTable (root : Node) : Byte → Code :=
  buildCodes root [] (fun _ => [])

/-! ## `BitWriter` (lines 27-49) -/

/-- The class `BitWriter`; `out` is the content of the stream written so far. -/
structure BitWriter where
  out : List Byte
  buffer : Nat
  bitCount : Nat
  deriving DecidableEq, Repr

/-- A truncation to `uint8_t` as a byte. -/
def toByte (n : Nat) : Byte := ⟨n % 256, Nat.mod_lt _ (by decide)⟩

namespace BitWriter

/-- The constructor `BitWriter(ofstream& o)`. -/
def new (out : List Byte) : BitWriter := { out := out, buffer := 0, bitCount := 0 }

/-- The method `flush()`. -/
def flush (w : BitWriter) : BitWriter :=
  if w.bitCount > 0 then
    { out := w.out ++ [toByte (w.buffer <<< (8 - w.bitCount))], buffer := 0, bitCount := 0 }
  else w

/-- The method `writeBit(int bit)`. -/
def writeBit (w : BitWriter) (bit : Nat) : BitWriter :=
  let w1 : BitWriter :=
    { out := w.out, buffer := ((w.buffer <<< 1) ||| bit) % 256, bitCount := w.bitCount + 1 }
  if w1.bitCount = 8 then w1.flush else w1

/-- The method `writeCode(const string& code)`. -/
def writeCode (w : BitWriter) (code : Code) : BitWriter :=
  code.foldl (fun w c => w.writeBit (if c = '1' then 1 else 0)) w

end BitWriter

/-! ## `BitReader` (lines 52-70) -/

/-- The class `BitReader`; `inp` is the part of the stream not yet consumed. -/
structure BitReader where
  inp : List Byte
  buffer : Nat
  bitCount : Nat
  deriving DecidableEq, Repr

namespace BitReader

/-- The constructor `BitReader(ifstream& i)`. -/
def new (inp : List Byte) : BitReader := { inp := inp, buffer := 0, bitCount := 0 }

/-- The tail of `readBit()`, once the buffer holds a bit. -/
def takeBit (r : BitReader) : Int × BitReader :=
  (((r.buffer >>> 7) &&& 1 : Nat),
   { inp := r.inp, buffer := (r.buffer <<< 1) % 256, bitCount := r.bitCount - 1 })

/-- The method `readBit()`: the bit read, or `-1` at the end of the stream. -/
def readBit (r : BitReader) : Int × BitReader :=
  if r.bitCount = 0 then
    match r.inp with
    | [] => (-1, r)
    | c :: rest => takeBit { inp := rest, buffer := c.val, bitCount := 8 }
  else takeBit r

end BitReader

/-! ## Container header -/

/-- The `w` bytes of the object representation of an unsigned integer,
lowest address first (little-endian). -/
def leBytes : Nat → Nat → List Byte
  | 0, _ => []
  | w + 1, n => toByte n :: leBytes w (n / 256)

/-- The value of an object representation (little-endian). -/
def leValue : List Byte → Nat
  | [] => 0
  | b :: bs => b.val + 256 * leValue bs

/-- The value of a 4-byte object representation read as `int`. -/
def toInt32 (n : Nat) : Int := if n < 2 ^ 31 then (n : Int) else (n : Int) - 2 ^ 32

/-- The count `for (auto f : freq) if (f > 0) unique++;`. -/
def uniqueCount (freq : Byte → Nat) : Nat :=
  (allBytes.filter (fun i => decide (freq i > 0))).length

/-- The loop writing one `(sym, freq[i])` record per byte value with a non-zero count. -/
def headerEntries (freq : Byte → Nat) : List Byte :=
  (allBytes.filter (fun i => decide (freq i > 0))).flatMap (fun i => i :: leBytes 8 (freq i))

/-- The header written by `compress` (lines 116-126). -/
def header (s : Counts) : List Byte :=
  leBytes 8 s.totalBytes ++ leBytes 4 (uniqueCount s.freq) ++ headerEntries s.freq

/-! ## Outcomes -/

/-- What a run of `compress` or `decompress` on a readable input file does:
it returns `ok`, having left `sink` in the output file (`none` when the
output stream was never constructed), or it reaches undefined behaviour. -/
inductive Outcome where
  | returned (ok : Bool) (sink : Option (List Byte))
  | undefined
  deriving DecidableEq, Repr

/-! ## `compress` (lines 84-136) -/

/-- The encoding loop `while (in.get(c)) bw.writeCode(codes[(uint8_t)c]);`. -/
def encodeAll (codes : Byte → Code) (X : List Byte) (w : BitWriter) : BitWriter :=
  X.foldl (fun w c => w.writeCode (codes c)) w

/-- The function `compress` on an input file with content `X`. -/
def compress (H : HeapAlgo) (X : List Byte) : Outcome :=
  let s := countFrequencies X
  if (initialQueue H s.freq).isEmpty then Outcome.returned false none
  else
    match buildTree H s.freq with
    | none => Outcome.undefined
    | some root =>
      let codes := codeTable root
      let bw := BitWriter.new (header s)
      Outcome.returned true (some ((encodeAll codes X bw).flush).out)

/-! ## `decompress` (lines 139-183) -/

/-- A call `in.read(buf, n)`: the `n` bytes read and the rest of the stream, or
`none` when the stream is too short (the variable keeps an indeterminate value). -/
def readBytes (n : Nat) (inp : List Byte) : Option (List Byte × List Byte) :=
  if n ≤ inp.length then some (inp.take n, inp.drop n) else none

/-- The loop `for (int i = 0; i < unique; i++) { read sym; read f; freq[sym] = f; }`
with `n` iterations left. -/
def readEntries : Nat → List Byte → (Byte → Nat) → Option ((Byte → Nat) × List Byte)
  | 0, inp, freq => some (freq, inp)
  | n + 1, inp, freq =>
    match inp with
    | [] => none
    | sym :: inp1 =>
      match readBytes 8 inp1 with
      | none => none
      | some (f, inp2) => readEntries n inp2 (Function.update freq sym (leValue f))

/-- The decoder's walk once `cur` has been assigned the node `cur`: the test
`if (!cur->left && !cur->right)` emits the symbol of a leaf; otherwise the
next iteration reads a bit and assigns `cur->left` (bit `0`) or `cur->right`
(any other value, the end-of-data value `-1` included). -/
def walk : Node → BitReader → Byte × BitReader
  | Node.leaf s _, br => (s, br)
  | Node.internal _ l r, br =>
    if (br.readBit).1 = 0 then walk l (br.readBit).2 else walk r (br.readBit).2

/-- The iterations of the decoding loop from `cur = root` up to and including
the next `out.put`.  When the root is a leaf both its children are null: the
assignment makes `cur` null and the test `!cur->left` dereferences it. -/
def decodeSymbol (root : Node) (br : BitReader) : Option (Byte × BitReader) :=
  match root with
  | Node.leaf _ _ => none
  | Node.internal _ l r =>
    some (if (br.readBit).1 = 0 then walk l (br.readBit).2 else walk r (br.readBit).2)

/-- The loop `while (written < originalSize)`, with `originalSize - written`
symbols still to produce and `out` written so far, `none` being the null
dereference (`decodeIterate_eq_decodeLoop` relates it to the loop run
iteration by iteration). -/
def decodeLoop (root : Node) : Nat → BitReader → List Byte → Option (List Byte)
  | 0, _, out => some out
  | n + 1, br, out =>
    match decodeSymbol root br with
    | none => none
    | some (s, br1) => decodeLoop root n br1 (out ++ [s])

/-- The function `decompress` on an input file with content `file`. -/
def decompress (H : HeapAlgo) (file : List Byte) : Outcome :=
  match readBytes 8 file with
  | none => Outcome.undefined
  | some (szBytes, inp1) =>
    match readBytes 4 inp1 with
    | none => Outcome.undefined
    | some (uBytes, inp2) =>
      let originalSize := leValue szBytes
      let unique := toInt32 (leValue uBytes)
      match readEntries unique.toNat inp2 (fun _ => 0) with
      | none => Outcome.undefined
      | some (freq, body) =>
        match buildTree H freq with
        | none => Outcome.undefined
        | some root =>
          match decodeLoop root originalSize (BitReader.new body) [] with
          | none => Outcome.undefined
          | some out => Outcome.returned true (some out)

/-! ## The decoding loop, iteration by iteration -/

/-- The local variables of the decoding loop of `decompress`: `written`, `cur`,
the bit reader and the content of the output stream. -/
structure DecodeState where
  written : Nat
  cur : Node
  br : BitReader
  out : List Byte

/-- One execution of the body of `while (written < originalSize)` (lines
173-179).  The result is `none` when `cur` is a leaf: both its children are
null, the assignment makes `cur` null and the test `!cur->left` dereferences it.
The counter `written` stays below `originalSize`, a `uint64_t`, and cannot wrap. -/
def decodeIter (root : Node) (st : DecodeState) : Option DecodeState :=
  match st.cur with
  | Node.leaf _ _ => none
  | Node.internal _ l r =>
    match (if (st.br.readBit).1 = 0 then l else r) with
    | Node.leaf s _ =>
      some { written := st.written + 1, cur := root, br := (st.br.readBit).2, out := st.out ++ [s] }
    | Node.internal f1 l1 r1 =>
      some { written := st.written, cur := Node.internal f1 l1 r1, br := (st.br.readBit).2,
             out := st.out }

/-- The loop `while (written < originalSize)` run for at most `fuel` iterations:
`none` when the bound is exhausted, `some none` when an iteration dereferences a
null pointer, `some (some out)` when the loop ends with `out` written. -/
def decodeIterate (root : Node) (originalSize : Nat) :
    Nat → DecodeState → Option (Option (List Byte))
  | 0, st => if st.written < originalSize then none else some (some st.out)
  | fuel + 1, st =>
    if st.written < originalSize then
      match decodeIter root st with
      | none => some none
      | some st1 => decodeIterate root originalSize fuel st1
    else some (some st.out)

/-! ## Notions used to state the properties -/

/-- Root-to-leaf path of the leaf holding `s`, `'0'` for a step to the left
child and `'1'` for a step to the right child.  The right subtree is looked up
first: `buildCodes` writes its codes last. -/
def Node.path : Node → Byte → Code
  | Node.leaf _ _, _ => []
  | Node.internal _ l r, s => if s ∈ r.symbols then '1' :: r.path s else '0' :: l.path s

/-- The bit `c == '1'` that `writeCode` passes to `writeBit`. -/
def bitOfChar (c : Char) : Bool := decide (c = '1')

/-- The bits that encoding the input `X` with the table `codes` sends to the writer. -/
def codeBits (codes : Byte → Code) (X : List Byte) : List Bool :=
  X.flatMap (fun x => (codes x).map bitOfChar)

/-- A sequence of calls `writeBit`. -/
def writeBits (w : BitWriter) (bs : List Bool) : BitWriter :=
  bs.foldl (fun w b => w.writeBit (if b then 1 else 0)) w

/-- Binary value of a bit sequence, most significant bit first. -/
def bitsValue (bs : List Bool) : Nat :=
  bs.foldl (fun acc b => 2 * acc + (if b then 1 else 0)) 0

/-- At most eight bits packed into a byte from the most significant bit down,
the unused low bits being zero. -/
def packByte (bs : List Bool) : Byte := toByte (bitsValue bs * 2 ^ (8 - bs.length))

/-- Bits packed eight per byte into at most `n` bytes. -/
def packChunks : Nat → List Bool → List Byte
  | 0, _ => []
  | n + 1, bs => if bs.isEmpty then [] else packByte (bs.take 8) :: packChunks n (bs.drop 8)

/-- A bit sequence packed eight bits per byte, most significant bit first, the
last byte padded with zero bits on the low side. -/
def packBits (bs : List Bool) : List Byte := packChunks bs.length bs

/-- The next `k` bits that `readBit` takes out of the buffer value `buf`. -/
def topBits : Nat → Nat → List Bool
  | 0, _ => []
  | k + 1, buf => decide ((buf >>> 7) &&& 1 = 1) :: topBits k ((buf <<< 1) % 256)

/-- The bits that a reader still delivers before the end of its stream. -/
def BitReader.bits (r : BitReader) : List Bool :=
  topBits r.bitCount r.buffer ++ r.inp.flatMap (fun c => topBits 8 c.val)

/-- A writer with the bytes `pre` put in front of its output. -/
def BitWriter.frame (pre : List Byte) (w : BitWriter) : BitWriter :=
  { out := pre ++ w.out, buffer := w.buffer, bitCount := w.bitCount }

/-- All bit sequences of length `k`. -/
def allBitLists : Nat → List (List Bool)
  | 0 => [[]]
  | k + 1 => (allBitLists k).flatMap (fun l => [false :: l, true :: l])

/-- The bits of a byte sequence in reading order. -/
def unpackBits (bytes : List Byte) : List Bool := bytes.flatMap (fun c => topBits 8 c.val)

/-- What `decompress` does after the header: the tree construction and the
decoding loop. -/
def decodeBody (H : HeapAlgo) (freq : Byte → Nat) (originalSize : Nat) (body : List Byte) :
    Outcome :=
  match buildTree H freq with
  | none => Outcome.undefined
  | some root =>
    match decodeLoop root originalSize (BitReader.new body) [] with
    | none => Outcome.undefined
    | some out => Outcome.returned true (some out)

/-- The input `"aab"`. -/
def aab : List Byte := [97, 97, 98]

/-- The input `"aaab"`. -/
def aaab : List Byte := [97, 97, 97, 98]

/-- The header that `compress` writes for the input `"aab"`: size 3, two
records, `('a', 2)` and `('b', 1)`. -/
def aabHeader : List Byte :=
  [3, 0, 0, 0, 0, 0, 0, 0, 2, 0, 0, 0, 97, 2, 0, 0, 0, 0, 0, 0, 0, 98, 1, 0, 0, 0, 0, 0, 0, 0]

/-- The `w` bytes of the unsigned little-endian representation of `n`: byte `k`
holds the digit of weight `256 ^ k`. -/
def littleEndian (w n : Nat) : List Byte := (List.range w).map (fun k => toByte (n / 256 ^ k))

/-- The container layout of the specification for the input `X` encoded with
the table `code`: size, number of distinct byte values, one record per byte
value that occurs, in ascending order, and the packed code bits. -/
def specContainer (X : List Byte) (code : Byte → Code) : List Byte :=
  littleEndian 8 X.length ++ littleEndian 4 X.dedup.length
    ++ (allBytes.filter (fun s => decide (0 < X.count s))).flatMap
        (fun s => s :: littleEndian 8 (X.count s))
    ++ packBits (X.flatMap (fun x => (code x).map bitOfChar))

/-! ## Allocation addresses -/

/-- A value of type `Node*`: the address that `new` returned and the node
stored at that address. -/
structure NodePtr where
  addr : Nat
  node : Node
  deriving DecidableEq, Repr

/-- The comparison `CompareNode::operator()` on the pointers held by the queue: it reads
`a->freq` and `b->freq` and nothing else. -/
def comparePtr (a b : NodePtr) : Bool := compareNode a.node b.node

/-- The initialisation loop of a run whose `k`-th call of `new` returns the
address `alloc k`; the state is the queue and the number of allocations. -/
def pushLeavesAt (H : HeapAlgo) (alloc : Nat → Nat) (freq : Byte → Nat) (is : List Byte)
    (st : List NodePtr × Nat) : List NodePtr × Nat :=
  is.foldl (fun st i =>
    if freq i > 0 then
      (H.push_heap comparePtr (st.1 ++ [NodePtr.mk (alloc st.2) (Node.leaf i (freq i))]),
        st.2 + 1)
    else st) st

/-- The combine loop of a run whose `k`-th call of `new` returns `alloc k`. -/
def combineLoopAt (H : HeapAlgo) (alloc : Nat → Nat) :
    Nat → List NodePtr × Nat → Option (List NodePtr)
  | 0, st => if st.1.length > 1 then none else some st.1
  | fuel + 1, st =>
    if st.1.length > 1 then
      match st.1.head? with
      | none => none
      | some a =>
        let c1 := (H.pop_heap comparePtr st.1).dropLast
        match c1.head? with
        | none => none
        | some b =>
          let c2 := (H.pop_heap comparePtr c1).dropLast
          combineLoopAt H alloc fuel
            (H.push_heap comparePtr (c2 ++ [NodePtr.mk (alloc st.2)
                (Node.internal ((a.node.freq + b.node.freq) % W64) a.node b.node)]),
              st.2 + 1)
    else some st.1

/-- The tree that `root` points to in a run whose `k`-th call of `new` returns `alloc k`. -/
def buildTreeAt (H : HeapAlgo) (alloc : Nat → Nat) (freq : Byte → Nat) : Option Node :=
  match combineLoopAt H alloc (pushLeavesAt H alloc freq allBytes ([], 0)).1.length
      (pushLeavesAt H alloc freq allBytes ([], 0)) with
  | none => none
  | some c => c.head?.map NodePtr.node

/-- The function `compress` in a run whose `k`-th call of `new` returns the address `alloc k`. -/
def compressAt (H : HeapAlgo) (alloc : Nat → Nat) (X : List Byte) : Outcome :=
  let s := countFrequencies X
  if (pushLeavesAt H alloc s.freq allBytes ([], 0)).1.isEmpty then Outcome.returned false none
  else
    match buildTreeAt H alloc s.freq with
    | none => Outcome.undefined
    | some root =>
      let codes := codeTable root
      let bw := BitWriter.new (header s)
      Outcome.returned true (some ((encodeAll codes X bw).flush).out)

/-! ## Header parsing, paths to leaves, successive calls of `readBit` -/

/-- The header part of `decompress` (lines 143-154): `originalSize`, the
frequency table filled from the stored records, and the rest of the stream;
`none` when a `read` falls short. -/
def parseHeader (file : List Byte) : Option (Nat × (Byte → Nat) × List Byte) :=
  match readBytes 8 file with
  | none => none
  | some (szBytes, inp1) =>
    match readBytes 4 inp1 with
    | none => none
    | some (uBytes, inp2) =>
      match readEntries (toInt32 (leValue uBytes)).toNat inp2 (fun _ => 0) with
      | none => none
      | some (freq, body) => some (leValue szBytes, freq, body)

/-- The bit-string `p` leads from the root of the tree to a leaf that holds the
byte value `s`: `'0'` is a step to the left child, `'1'` a step to the right
child. -/
def Node.leadsTo : Node → Code → Byte → Bool
  | Node.leaf s1 _, [], s => decide (s = s1)
  | Node.leaf _ _, _ :: _, _ => false
  | Node.internal _ _ _, [], _ => false
  | Node.internal _ l r, c :: p, s =>
    if c = '0' then l.leadsTo p s else if c = '1' then r.leadsTo p s else false

/-- The result of call number `i` (counted from 0) of `readBit` on a reader. -/
def nthReadBit : BitReader → Nat → Int
  | r, 0 => (r.readBit).1
  | r, i + 1 => nthReadBit (r.readBit).2 i

/-! ## Weights and costs of trees -/

/-- Sum of the frequencies at the leaves of a tree. -/
def Node.weight : Node → Nat
  | Node.leaf _ f => f
  | Node.internal _ l r => l.weight + r.weight

/-- Every internal node carries the sum of the frequencies of its two children. -/
def Node.sumsOk : Node → Bool
  | Node.leaf _ _ => true
  | Node.internal f l r => decide (f = l.freq + r.freq) && l.sumsOk && r.sumsOk

/-- Weighted path length of a tree: the sum over its leaves of frequency times depth. -/
def Node.cost : Node → Nat
  | Node.leaf _ _ => 0
  | Node.internal _ l r => l.cost + r.cost + l.weight + r.weight

/-! ## Code lengths and Kraft's inequality -/

/-- Total length of an assignment of lengths to weights: the sum of weight times length. -/
def pairCost (P : List (Nat × Nat)) : Nat := (P.map (fun p => p.1 * p.2)).sum

/-- The Kraft sum of a list of code lengths, scaled by `2 ^ D`. -/
def kraftSum (D : Nat) (ls : List Nat) : Nat := (ls.map (fun l => 2 ^ (D - l))).sum

/-- The Kraft inequality for a list of code lengths that are at most `D`. -/
def KraftL (D : Nat) (ls : List Nat) : Prop := (∀ l ∈ ls, l ≤ D) ∧ kraftSum D ls ≤ 2 ^ D

/-- The words that start with the bit `b`, without that bit. -/
def tailsOf (b : Bool) (ws : List (List Bool)) : List (List Bool) :=
  ws.filterMap (fun w => match w with
    | [] => none
    | c :: t => if c = b then some t else none)

/-- Neither word is a prefix of the other. -/
def Incomparable (a b : List Bool) : Prop := ¬ a <+: b ∧ ¬ b <+: a

/-! ## A second implementation of the heap algorithms -/

/-- Insertion of `x` before the first element that `comp` does not rank above it. -/
def insertFront {α : Type} (comp : α → α → Bool) (x : α) : List α → List α
  | [] => [x]
  | y :: ys => if comp x y then y :: insertFront comp x ys else x :: y :: ys

/-- Insertion sort with `insertFront`. -/
def sortFront {α : Type} (comp : α → α → Bool) : List α → List α
  | [] => []
  | x :: xs => insertFront comp x (sortFront comp xs)

/-- A second implementation of the heap algorithms, which differs from
`sortingHeap` in the order of elements that `comp` ranks equal. -/
def frontHeap : HeapAlgo where
  push_heap := fun comp l => sortFront comp l
  pop_heap := fun comp l =>
    match l with
    | [] => []
    | x :: xs => sortFront comp xs ++ [x]

/-! # Properties -/

/-! ## The byte values -/

theorem allBytes_eq_finRange : allBytes = List.finRange 256 := by decide

theorem allBytes_nodup : allBytes.Nodup := by
  rw [allBytes_eq_finRange]
  exact List.nodup_finRange 256

theorem mem_allBytes (b : Byte) : b ∈ allBytes := by
  rw [allBytes_eq_finRange]
  exact List.mem_finRange b

theorem allBytes_length : allBytes.length = 256 := by
  rw [allBytes_eq_finRange]
  exact List.length_finRange 256

theorem allBytes_ascending : allBytes.Pairwise (fun a b => a < b) := by
  rw [allBytes_eq_finRange]
  exact List.pairwise_lt_finRange 256


/-! ## The reference heap satisfies the contract -/

theorem insertDesc_perm {α : Type} (comp : α → α → Bool) (x : α) (l : List α) :
    List.Perm (insertDesc comp x l) (x :: l) := by
  induction l with
  | nil => exact List.Perm.refl _
  | cons y ys ih =>
    unfold insertDesc
    split
    · exact List.Perm.refl _
    · exact (List.Perm.cons y ih).trans (List.Perm.swap x y ys)

theorem sortDesc_perm {α : Type} (comp : α → α → Bool) (l : List α) :
    List.Perm (sortDesc comp l) l := by
  induction l with
  | nil => exact List.Perm.refl _
  | cons x xs ih =>
    exact (insertDesc_perm comp x (sortDesc comp xs)).trans (List.Perm.cons x ih)

theorem StrictWeak.asymm {α : Type} {comp : α → α → Bool} (sw : StrictWeak comp) (a b : α)
    (h : comp a b = true) : comp b a = false := by
  cases hba : comp b a with
  | false => rfl
  | true =>
    have := sw.trans a b a h hba
    rw [sw.irrefl a] at this
    exact this.symm

theorem insertDesc_sorted {α : Type} {comp : α → α → Bool} (sw : StrictWeak comp) (x : α)
    (l : List α) (hl : l.Pairwise (fun a b => comp a b = false)) :
    (insertDesc comp x l).Pairwise (fun a b => comp a b = false) := by
  induction l with
  | nil => simp [insertDesc]
  | cons y ys ih =>
    rw [List.pairwise_cons] at hl
    unfold insertDesc
    split
    · rename_i hyx
      have hxy : comp x y = false := sw.asymm y x hyx
      refine List.pairwise_cons.mpr ⟨?_, List.pairwise_cons.mpr hl⟩
      intro z hz
      rcases List.mem_cons.mp hz with rfl | hz
      · exact hxy
      · exact sw.negTrans x y z hxy (hl.1 z hz)
    · rename_i hyx
      have hyx2 : comp y x = false := by simpa using hyx
      refine List.pairwise_cons.mpr ⟨?_, ih hl.2⟩
      intro z hz
      rcases List.mem_cons.mp ((insertDesc_perm comp x ys).mem_iff.mp hz) with rfl | hz
      · exact hyx2
      · exact hl.1 z hz

theorem sortDesc_sorted {α : Type} {comp : α → α → Bool} (sw : StrictWeak comp) (l : List α) :
    (sortDesc comp l).Pairwise (fun a b => comp a b = false) := by
  induction l with
  | nil => simp [sortDesc]
  | cons x xs ih => exact insertDesc_sorted sw x _ ih

theorem isHeap_of_sorted {α : Type} {comp : α → α → Bool} {l : List α}
    (hl : l.Pairwise (fun a b => comp a b = false)) : IsHeap comp l := by
  intro i hi h
  exact (List.pairwise_iff_get.mp hl) ⟨(i - 1) / 2, by omega⟩ ⟨i, h⟩
    (by show (i - 1) / 2 < i; omega)

theorem insertDesc_map {α β : Type} (f : α → β) (ca : α → α → Bool) (cb : β → β → Bool)
    (h : ∀ a b, cb (f a) (f b) = ca a b) (x : α) (l : List α) :
    insertDesc cb (f x) (l.map f) = (insertDesc ca x l).map f := by
  induction l with
  | nil => rfl
  | cons y ys ih =>
    simp only [List.map_cons, insertDesc, h]
    split
    · rfl
    · simp [ih]

theorem sortDesc_map {α β : Type} (f : α → β) (ca : α → α → Bool) (cb : β → β → Bool)
    (h : ∀ a b, cb (f a) (f b) = ca a b) (l : List α) :
    sortDesc cb (l.map f) = (sortDesc ca l).map f := by
  induction l with
  | nil => rfl
  | cons x xs ih =>
    simp only [List.map_cons, sortDesc, ih]
    exact insertDesc_map f ca cb h x _

theorem sortingHeap_lawful : sortingHeap.Lawful where
  push_perm := fun comp l x _ _ => sortDesc_perm comp (l ++ [x])
  push_heap := fun comp l x sw _ => isHeap_of_sorted (sortDesc_sorted sw (l ++ [x]))
  pop_spec := fun comp x l sw _ =>
    ⟨sortDesc comp l, rfl, sortDesc_perm comp l, isHeap_of_sorted (sortDesc_sorted sw l)⟩
  push_natural := fun f ca cb l h => sortDesc_map f ca cb h l
  pop_natural := fun f ca cb l h => by
    cases l with
    | nil => rfl
    | cons x xs =>
      show sortDesc cb (xs.map f) ++ [f x] = (sortDesc ca xs ++ [x]).map f
      rw [sortDesc_map f ca cb h xs]
      simp

/-! ## The priority queue on a lawful heap -/

theorem compareNode_strictWeak : StrictWeak compareNode where
  irrefl := fun a => by simp [compareNode]
  trans := fun a b c h1 h2 => by
    simp only [compareNode, decide_eq_true_eq] at *
    omega
  negTrans := fun a b c h1 h2 => by
    simp only [compareNode, decide_eq_false_iff_not] at *
    omega

theorem isHeap_nil {α : Type} (comp : α → α → Bool) : IsHeap comp ([] : List α) := by
  intro i _ h
  simp at h

theorem pqPush_perm {H : HeapAlgo} (hH : H.Lawful) {c : List Node} (hc : IsHeap compareNode c)
    (x : Node) : List.Perm (pqPush H c x) (c ++ [x]) :=
  hH.push_perm compareNode c x compareNode_strictWeak hc

theorem pqPush_isHeap {H : HeapAlgo} (hH : H.Lawful) {c : List Node}
    (hc : IsHeap compareNode c) (x : Node) : IsHeap compareNode (pqPush H c x) :=
  hH.push_heap compareNode c x compareNode_strictWeak hc

theorem pqPop_spec {H : HeapAlgo} (hH : H.Lawful) {x : Node} {l : List Node}
    (hc : IsHeap compareNode (x :: l)) :
    List.Perm (pqPop H (x :: l)) l ∧ IsHeap compareNode (pqPop H (x :: l)) := by
  obtain ⟨rest, h1, h2, h3⟩ := hH.pop_spec compareNode x l compareNode_strictWeak hc
  have : pqPop H (x :: l) = rest := by simp [pqPop, h1]
  rw [this]
  exact ⟨h2, h3⟩

theorem pushLeaves_spec {H : HeapAlgo} (hH : H.Lawful) (freq : Byte → Nat) (is : List Byte) :
    ∀ c : List Node, IsHeap compareNode c →
      IsHeap compareNode (pushLeaves H freq is c) ∧
        List.Perm (pushLeaves H freq is c) (c ++ leafList freq is) := by
  induction is with
  | nil =>
    intro c hc
    simpa [pushLeaves, leafList] using hc
  | cons i is ih =>
    intro c hc
    by_cases hi : freq i > 0
    · have h1 := ih (pqPush H c (Node.leaf i (freq i))) (pqPush_isHeap hH hc _)
      have e : pushLeaves H freq (i :: is) c
          = pushLeaves H freq is (pqPush H c (Node.leaf i (freq i))) := by
        simp [pushLeaves, hi]
      rw [e]
      refine ⟨h1.1, h1.2.trans ?_⟩
      have e2 : leafList freq (i :: is) = Node.leaf i (freq i) :: leafList freq is := by
        simp [leafList, List.filter_cons, hi]
      rw [e2]
      have := (pqPush_perm hH hc (Node.leaf i (freq i))).append_right (leafList freq is)
      simpa using this
    · have e : pushLeaves H freq (i :: is) c = pushLeaves H freq is c := by
        simp [pushLeaves, hi]
      have e2 : leafList freq (i :: is) = leafList freq is := by
        simp [leafList, List.filter_cons, hi]
      rw [e, e2]
      exact ih c hc

theorem initialQueue_spec {H : HeapAlgo} (hH : H.Lawful) (freq : Byte → Nat) :
    IsHeap compareNode (initialQueue H freq) ∧
      List.Perm (initialQueue H freq) (leafList freq allBytes) := by
  have := pushLeaves_spec hH freq allBytes [] (isHeap_nil _)
  simpa [initialQueue] using this

/-- One iteration of the combine loop on a heap with at least two nodes. -/
theorem combine_step {H : HeapAlgo} (hH : H.Lawful) {a : Node} {l : List Node}
    (hc : IsHeap compareNode (a :: l)) (hl : l ≠ []) :
    ∃ b c2, pqTop (pqPop H (a :: l)) = some b ∧
      List.Perm l (b :: c2) ∧
      c2 = pqPop H (pqPop H (a :: l)) ∧
      IsHeap compareNode (pqPush H c2 (Node.internal ((a.freq + b.freq) % W64) a b)) ∧
      List.Perm (pqPush H c2 (Node.internal ((a.freq + b.freq) % W64) a b))
        (c2 ++ [Node.internal ((a.freq + b.freq) % W64) a b]) := by
  obtain ⟨p1, h1⟩ := pqPop_spec hH hc
  cases hc1 : pqPop H (a :: l) with
  | nil =>
    rw [hc1] at p1
    exact absurd (List.Perm.eq_nil (p1.symm)) hl
  | cons b l2 =>
    rw [hc1] at p1 h1
    obtain ⟨p2, h2⟩ := pqPop_spec hH h1
    refine ⟨b, pqPop H (b :: l2), rfl, ?_, rfl, pqPush_isHeap hH h2 _, pqPush_perm hH h2 _⟩
    exact p1.symm.trans (List.Perm.cons b p2.symm)

theorem combineLoop_spec {H : HeapAlgo} (hH : H.Lawful) :
    ∀ (fuel : Nat) (c : List Node), IsHeap compareNode c → c ≠ [] → c.length ≤ fuel + 1 →
      ∃ t, combineLoop H fuel c = some [t] ∧
        List.Perm t.leaves (c.flatMap Node.leaves) ∧
        t.internalCount + 1 = (c.map Node.internalCount).sum + c.length ∧
        (2 ≤ c.length → t.isLeaf = false) ∧
        (c.length = 1 → [t] = c) := by
  intro fuel
  induction fuel with
  | zero =>
    intro c hc hne hlen
    match c, hne, hlen with
    | [t], _, _ =>
      exact ⟨t, by simp [combineLoop], by simp, by simp, by simp, by simp⟩
    | _ :: _ :: _, _, hlen => simp at hlen
  | succ fuel ih =>
    intro c hc hne hlen
    match c, hc, hne, hlen with
    | [t], _, _, _ =>
      exact ⟨t, by simp [combineLoop], by simp, by simp, by simp, by simp⟩
    | a :: x :: l, hc, _, hlen =>
      obtain ⟨b, c2, hb, hp, hc2, hheap, hperm⟩ := combine_step hH hc (by simp)
      have hlen2 : c2.length = l.length := by
        have := hp.length_eq
        simp at this
        omega
      have hqlen : (pqPush H c2 (Node.internal ((a.freq + b.freq) % W64) a b)).length
          = l.length + 1 := by
        rw [hperm.length_eq]
        simp [hlen2]
      have hqne : pqPush H c2 (Node.internal ((a.freq + b.freq) % W64) a b) ≠ [] := by
        intro h
        rw [h] at hqlen
        simp at hqlen
      obtain ⟨t, ht, hleaves, hcount, hleaf, hone⟩ := ih _ hheap hqne (by
        rw [hqlen]
        simp at hlen
        omega)
      refine ⟨t, ?_, ?_, ?_, ?_, ?_⟩
      · have e : combineLoop H (fuel + 1) (a :: x :: l)
            = combineLoop H fuel (pqPush H (pqPop H (pqPop H (a :: x :: l)))
                (Node.internal ((a.freq + b.freq) % W64) a b)) := by
          have hb2 : (pqPop H (a :: x :: l)).head? = some b := hb
          simp [combineLoop, pqTop, hb2]
        rw [e, ← hc2]
        exact ht
      · refine hleaves.trans ((hperm.flatMap_right Node.leaves).trans ?_)
        have h3 := hp.flatMap_right Node.leaves
        simp only [List.flatMap_append, List.flatMap_cons, List.flatMap_nil, List.append_nil,
          Node.leaves] at h3 ⊢
        refine List.Perm.trans ?_ (List.Perm.append_left a.leaves h3.symm)
        rw [← List.append_assoc a.leaves]
        exact List.perm_append_comm
      · have h3 := (hp.map Node.internalCount).sum_eq
        have h4 := (hperm.map Node.internalCount).sum_eq
        simp only [List.map_append, List.map_cons, List.sum_append, List.sum_cons, List.map_nil,
          List.sum_nil, Node.internalCount] at h3 h4
        simp only [List.map_cons, List.sum_cons, List.length_cons]
        rw [hqlen, h4] at hcount
        omega
      · intro _
        by_cases h2 : 2 ≤ l.length + 1
        · exact hleaf (by rw [hqlen]; exact h2)
        · have hl0 : l.length = 0 := by omega
          have hc20 : c2 = [] := List.length_eq_zero.mp (by omega)
          have h1 : (pqPush H c2 (Node.internal ((a.freq + b.freq) % W64) a b)).length = 1 := by
            rw [hqlen, hl0]
          have := hone h1
          rw [hc20] at hperm this
          have hq := List.Perm.eq_singleton (by simpa using hperm)
          rw [hq] at this
          simp only [List.cons.injEq, and_true] at this
          rw [this]
          rfl
      · intro h
        simp at h

theorem leafList_leaves (freq : Byte → Nat) (is : List Byte) :
    (leafList freq is).flatMap Node.leaves
      = (is.filter (fun i => decide (freq i > 0))).map (fun i => (i, freq i)) := by
  unfold leafList
  induction is.filter (fun i => decide (freq i > 0)) with
  | nil => rfl
  | cons i is ih => simp [Node.leaves, ih]

theorem leafList_internalCount (freq : Byte → Nat) (is : List Byte) :
    ((leafList freq is).map Node.internalCount).sum = 0 := by
  unfold leafList
  induction is.filter (fun i => decide (freq i > 0)) with
  | nil => rfl
  | cons i is ih => simpa [Node.internalCount] using ih

theorem leafList_length (freq : Byte → Nat) : (leafList freq allBytes).length = uniqueCount freq := by
  simp [leafList, uniqueCount]

theorem symbols_eq_leaves (t : Node) : t.symbols = t.leaves.map Prod.fst := by
  induction t with
  | leaf s f => rfl
  | internal f l r ihl ihr => simp [Node.symbols, Node.leaves, ihl, ihr]

/-- The tree construction on a lawful heap: the loop ends within its bound and
leaves one tree whose leaves are the byte values with a non-zero count. -/
theorem buildTree_spec {H : HeapAlgo} (hH : H.Lawful) (freq : Byte → Nat)
    (hu : 0 < uniqueCount freq) :
    ∃ t, buildTree H freq = some t ∧
      List.Perm t.leaves ((allBytes.filter (fun i => decide (freq i > 0))).map (fun i => (i, freq i))) ∧
      t.internalCount + 1 = uniqueCount freq ∧
      (2 ≤ uniqueCount freq → t.isLeaf = false) ∧
      (uniqueCount freq = 1 → t.isLeaf = true) := by
  obtain ⟨hheap, hperm⟩ := initialQueue_spec hH freq
  have hlen : (initialQueue H freq).length = uniqueCount freq := by
    rw [hperm.length_eq, leafList_length]
  have hne : initialQueue H freq ≠ [] := by
    intro h
    rw [h] at hlen
    simp at hlen
    omega
  obtain ⟨t, ht, hleaves, hcount, hleaf, hone⟩ :=
    combineLoop_spec hH (initialQueue H freq).length (initialQueue H freq) hheap hne (by omega)
  refine ⟨t, by unfold buildTree; rw [ht]; rfl, ?_, ?_, ?_, ?_⟩
  · rw [← leafList_leaves]
    exact hleaves.trans (hperm.flatMap_right Node.leaves)
  · have := (hperm.map Node.internalCount).sum_eq
    rw [leafList_internalCount] at this
    rw [this, hlen] at hcount
    omega
  · intro h
    exact hleaf (by omega)
  · intro h
    have h1 := hone (by omega)
    have h2 : List.Perm [t] (leafList freq allBytes) := h1 ▸ hperm
    have h3 : t ∈ leafList freq allBytes := h2.mem_iff.mp (List.mem_singleton.mpr rfl)
    simp only [leafList, List.mem_map] at h3
    obtain ⟨i, _, hi⟩ := h3
    rw [← hi]
    rfl

theorem buildTree_symbols {H : HeapAlgo} (hH : H.Lawful) (freq : Byte → Nat) (t : Node)
    (ht : buildTree H freq = some t) (hu : 0 < uniqueCount freq) (s : Byte) :
    s ∈ t.symbols ↔ 0 < freq s := by
  obtain ⟨t2, ht2, hleaves, _⟩ := buildTree_spec hH freq hu
  rw [ht] at ht2
  cases ht2
  rw [symbols_eq_leaves, (hleaves.map Prod.fst).mem_iff]
  simp [mem_allBytes]

/-! ## Frequency analysis -/

theorem countFrequencies_append (X : List Byte) (c : Byte) :
    countFrequencies (X ++ [c]) = countStep (countFrequencies X) c := by
  simp [countFrequencies, List.foldl_append]

/-- On an input shorter than `2 ^ 64` bytes no counter wraps around. -/
theorem countFrequencies_spec (X : List Byte) (hX : X.length < W64) :
    (∀ b, (countFrequencies X).freq b = X.count b) ∧ (countFrequencies X).totalBytes = X.length := by
  induction X using List.reverseRecOn with
  | nil => exact ⟨fun b => by simp [countFrequencies], by simp [countFrequencies]⟩
  | append_singleton X c ih =>
    have hlen : X.length + 1 < W64 := by simpa using hX
    obtain ⟨ih1, ih2⟩ := ih (by omega)
    rw [countFrequencies_append]
    constructor
    · intro b
      have hc : X.count c ≤ X.length := List.count_le_length c X
      by_cases hb : b = c
      · subst hb
        simp only [countStep, Function.update_same, ih1, List.count_append, List.count_singleton_self]
        exact Nat.mod_eq_of_lt (by omega)
      · simp only [countStep, Function.update_noteq hb, ih1, List.count_append]
        rw [List.count_eq_zero_of_not_mem (l := [c]) (by rw [List.mem_singleton]; exact hb)]
        rfl
    · simp only [countStep, ih2, List.length_append, List.length_singleton]
      exact Nat.mod_eq_of_lt hlen

theorem uniqueCount_pos_iff (freq : Byte → Nat) : 0 < uniqueCount freq ↔ ∃ b, 0 < freq b := by
  unfold uniqueCount
  rw [List.length_pos_iff_exists_mem]
  simp [mem_allBytes]

/-! ## Code table -/

theorem buildCodes_spec (t : Node) : ∀ (pre : Code) (table : Byte → Code) (s : Byte),
    buildCodes t pre table s =
      if s ∈ t.symbols then (if (pre ++ t.path s).isEmpty then ['0'] else pre ++ t.path s)
      else table s := by
  induction t with
  | leaf s1 f =>
    intro pre table s
    by_cases h : s = s1
    · subst h
      simp [buildCodes, Node.symbols, Node.path]
    · simp [buildCodes, Node.symbols, Node.path, Function.update_noteq h, h]
  | internal f l r ihl ihr =>
    intro pre table s
    simp only [buildCodes, ihr, ihl, Node.symbols, Node.path, List.mem_append]
    by_cases hr : s ∈ r.symbols
    · simp [hr]
    · by_cases hl : s ∈ l.symbols
      · simp [hr, hl]
      · simp [hr, hl]

theorem codeTable_internal (f : Nat) (l r : Node) (s : Byte)
    (hs : s ∈ (Node.internal f l r).symbols) :
    codeTable (Node.internal f l r) s = (Node.internal f l r).path s := by
  unfold codeTable
  rw [buildCodes_spec, if_pos hs]
  unfold Node.path
  split <;> simp

theorem codeTable_leaf (s : Byte) (f : Nat) : codeTable (Node.leaf s f) s = ['0'] := by
  simp [codeTable, buildCodes]

theorem codeTable_not_mem (t : Node) (s : Byte) (hs : s ∉ t.symbols) : codeTable t s = [] := by
  unfold codeTable
  rw [buildCodes_spec, if_neg hs]

/-! ## Reading bits -/

theorem takeBit_fst (r : BitReader) :
    (r.takeBit).1 = if decide ((r.buffer >>> 7) &&& 1 = 1) then 1 else 0 := by
  simp only [BitReader.takeBit, Nat.and_one_is_mod, decide_eq_true_eq]
  rcases Nat.mod_two_eq_zero_or_one (r.buffer >>> 7) with h | h <;> simp [h]

theorem topBits_succ (k buf : Nat) :
    topBits (k + 1) buf = decide ((buf >>> 7) &&& 1 = 1) :: topBits k ((buf <<< 1) % 256) := rfl

theorem readBit_bits (r : BitReader) (b : Bool) (bs : List Bool) (h : r.bits = b :: bs) :
    (r.readBit).1 = (if b then 1 else 0) ∧ (r.readBit).2.bits = bs := by
  obtain ⟨inp, buffer, bitCount⟩ := r
  cases bitCount with
  | zero =>
    cases inp with
    | nil => simp [BitReader.bits, topBits] at h
    | cons c rest =>
      have h0 : topBits 8 c.val ++ rest.flatMap (fun c => topBits 8 c.val) = b :: bs := by
        simpa only [BitReader.bits, topBits, List.flatMap_cons, List.nil_append] using h
      rw [topBits_succ, List.cons_append, List.cons.injEq] at h0
      obtain ⟨h1, h2⟩ := h0
      simp only [BitReader.readBit, if_true]
      refine ⟨?_, ?_⟩
      · rw [takeBit_fst, ← h1]
      · exact h2
  | succ k =>
    have h0 : topBits (k + 1) buffer ++ inp.flatMap (fun c => topBits 8 c.val) = b :: bs := h
    rw [topBits_succ, List.cons_append, List.cons.injEq] at h0
    obtain ⟨h1, h2⟩ := h0
    simp only [BitReader.readBit, Nat.add_one_ne_zero, if_false]
    refine ⟨?_, ?_⟩
    · rw [takeBit_fst, ← h1]
    · exact h2

theorem walk_path (t : Node) : ∀ (s : Byte) (br : BitReader) (rest : List Bool),
    s ∈ t.symbols → br.bits = (t.path s).map bitOfChar ++ rest →
      ∃ br1, walk t br = (s, br1) ∧ br1.bits = rest := by
  induction t with
  | leaf s1 f =>
    intro s br rest hs hb
    simp only [Node.symbols, List.mem_singleton] at hs
    subst hs
    exact ⟨br, rfl, by simpa [Node.path] using hb⟩
  | internal f l r ihl ihr =>
    intro s br rest hs hb
    simp only [Node.symbols, List.mem_append] at hs
    by_cases hr : s ∈ r.symbols
    · simp only [Node.path, if_pos hr, List.map_cons, List.cons_append] at hb
      obtain ⟨h1, h2⟩ := readBit_bits br _ _ hb
      obtain ⟨br1, hw, hb1⟩ := ihr s (br.readBit).2 rest hr h2
      refine ⟨br1, ?_, hb1⟩
      simp only [walk, h1, bitOfChar]
      simpa using hw
    · have hl : s ∈ l.symbols := hs.resolve_right hr
      simp only [Node.path, if_neg hr, List.map_cons, List.cons_append] at hb
      obtain ⟨h1, h2⟩ := readBit_bits br _ _ hb
      obtain ⟨br1, hw, hb1⟩ := ihl s (br.readBit).2 rest hl h2
      refine ⟨br1, ?_, hb1⟩
      simp only [walk, h1, bitOfChar]
      simpa using hw

theorem decodeSymbol_internal (f : Nat) (l r : Node) (br : BitReader) :
    decodeSymbol (Node.internal f l r) br = some (walk (Node.internal f l r) br) := rfl

/-- The decoding loop on the bits of an encoded input gives the input back. -/
theorem decodeLoop_spec (f : Nat) (l r : Node) : ∀ (X : List Byte) (br : BitReader)
    (out : List Byte) (rest : List Bool),
    (∀ x ∈ X, x ∈ (Node.internal f l r).symbols) →
    br.bits = codeBits (codeTable (Node.internal f l r)) X ++ rest →
      decodeLoop (Node.internal f l r) X.length br out = some (out ++ X) := by
  intro X
  induction X with
  | nil =>
    intro br out rest _ _
    simp [decodeLoop]
  | cons x X ih =>
    intro br out rest hX hb
    have hx := hX x (List.mem_cons_self x X)
    have hb2 : br.bits = ((Node.internal f l r).path x).map bitOfChar
        ++ (codeBits (codeTable (Node.internal f l r)) X ++ rest) := by
      rw [hb, ← codeTable_internal f l r x hx]
      simp [codeBits]
    obtain ⟨br1, hw, hb1⟩ := walk_path (Node.internal f l r) x br _ hx hb2
    have := ih br1 (out ++ [x]) rest (fun y hy => hX y (List.mem_cons_of_mem x hy)) hb1
    simp only [List.length_cons, decodeLoop, decodeSymbol_internal, hw]
    simpa using this

/-! ## The decoding loop, iteration by iteration -/

theorem decodeIterate_walk (root : Node) (size : Nat) (c : Node) :
    ∀ (f : Nat) (l r : Node), c = Node.internal f l r →
    ∀ (written : Nat) (br : BitReader) (out : List Byte), written < size →
      ∃ k, ∀ fuel, decodeIterate root size (fuel + k)
          { written := written, cur := c, br := br, out := out }
        = decodeIterate root size fuel
          { written := written + 1, cur := root, br := (walk c br).2,
            out := out ++ [(walk c br).1] } := by
  induction c with
  | leaf s f0 => intro f l r h; cases h
  | internal f0 l0 r0 ihl ihr =>
    intro f l r _ written br out hw
    by_cases hbit : (br.readBit).1 = 0
    · cases hl : l0 with
      | leaf s fs =>
        refine ⟨1, fun fuel => ?_⟩
        simp [decodeIterate, decodeIter, hw, hbit, walk]
      | internal f1 l1 r1 =>
        obtain ⟨k, hk⟩ := ihl f1 l1 r1 hl written (br.readBit).2 out hw
        refine ⟨k + 1, fun fuel => ?_⟩
        rw [hl] at hk
        rw [← Nat.add_assoc]
        simp only [decodeIterate, decodeIter, hw, hbit, if_true]
        rw [hk]
        simp [walk, hbit]
    · cases hr : r0 with
      | leaf s fs =>
        refine ⟨1, fun fuel => ?_⟩
        simp [decodeIterate, decodeIter, hw, hbit, walk]
      | internal f1 l1 r1 =>
        obtain ⟨k, hk⟩ := ihr f1 l1 r1 hr written (br.readBit).2 out hw
        refine ⟨k + 1, fun fuel => ?_⟩
        rw [hr] at hk
        rw [← Nat.add_assoc]
        simp only [decodeIterate, decodeIter, hw, hbit, if_false]
        rw [hk]
        simp [walk, hbit]

/-- The decoding loop of the source, iterated long enough, ends with the result
of `decodeLoop`. -/
theorem decodeIterate_eq_decodeLoop (root : Node) :
    ∀ (n written : Nat) (br : BitReader) (out : List Byte),
      ∃ N, ∀ fuel, N ≤ fuel →
        decodeIterate root (written + n) fuel
            { written := written, cur := root, br := br, out := out }
          = some (decodeLoop root n br out) := by
  intro n
  induction n with
  | zero =>
    intro written br out
    refine ⟨0, fun fuel _ => ?_⟩
    cases fuel <;> simp [decodeIterate, decodeLoop]
  | succ n ih =>
    intro written br out
    cases hroot : root with
    | leaf s f =>
      refine ⟨1, fun fuel hf => ?_⟩
      obtain ⟨fuel, rfl⟩ : ∃ k, fuel = k + 1 := ⟨fuel - 1, by omega⟩
      simp [decodeIterate, decodeIter, decodeLoop, decodeSymbol]
    | internal f l r =>
      obtain ⟨k, hk⟩ := decodeIterate_walk root (written + (n + 1)) root f l r hroot
        written br out (by omega)
      obtain ⟨N, hN⟩ := ih (written + 1) (walk root br).2 (out ++ [(walk root br).1])
      refine ⟨N + k, fun fuel hf => ?_⟩
      obtain ⟨fuel, rfl⟩ : ∃ j, fuel = j + k := ⟨fuel - k, by omega⟩
      rw [← hroot, hk fuel]
      have e : written + (n + 1) = written + 1 + n := by omega
      rw [e, hN fuel (by omega), hroot]
      simp [decodeLoop, decodeSymbol_internal]

/-! ## Writing bits -/

theorem writeBits_append (w : BitWriter) (as bs : List Bool) :
    writeBits w (as ++ bs) = writeBits (writeBits w as) bs := by
  simp [writeBits, List.foldl_append]

theorem writeCode_eq (w : BitWriter) (code : Code) :
    w.writeCode code = writeBits w (code.map bitOfChar) := by
  simp only [BitWriter.writeCode, writeBits, List.foldl_map, bitOfChar]
  congr 1
  funext w c
  by_cases h : c = '1' <;> simp [h]

theorem encodeAll_eq (codes : Byte → Code) (X : List Byte) :
    ∀ w : BitWriter, encodeAll codes X w = writeBits w (codeBits codes X) := by
  induction X with
  | nil => intro w; rfl
  | cons x X ih =>
    intro w
    have e : encodeAll codes (x :: X) w = encodeAll codes X (w.writeCode (codes x)) := rfl
    rw [e, ih, writeCode_eq]
    have e2 : codeBits codes (x :: X) = (codes x).map bitOfChar ++ codeBits codes X := by
      simp [codeBits]
    rw [e2, writeBits_append]

theorem flush_frame (pre : List Byte) (w : BitWriter) :
    (w.frame pre).flush = (w.flush).frame pre := by
  unfold BitWriter.flush BitWriter.frame
  split <;> simp

theorem writeBit_frame (pre : List Byte) (w : BitWriter) (bit : Nat) :
    (w.frame pre).writeBit bit = (w.writeBit bit).frame pre := by
  by_cases h : w.bitCount + 1 = 8
  · simp [BitWriter.writeBit, BitWriter.frame, BitWriter.flush, h]
  · simp [BitWriter.writeBit, BitWriter.frame, BitWriter.flush, h]

theorem writeBits_frame (pre : List Byte) (bs : List Bool) : ∀ w : BitWriter,
    writeBits (w.frame pre) bs = (writeBits w bs).frame pre := by
  induction bs with
  | nil => intro w; rfl
  | cons b bs ih =>
    intro w
    show writeBits ((w.frame pre).writeBit _) bs = (writeBits (w.writeBit _) bs).frame pre
    rw [writeBit_frame, ih]

theorem mem_allBitLists : ∀ bs : List Bool, bs ∈ allBitLists bs.length := by
  intro bs
  induction bs with
  | nil => simp [allBitLists]
  | cons b bs ih =>
    simp only [List.length_cons, allBitLists, List.mem_flatMap]
    exact ⟨bs, ih, by cases b <;> simp⟩

theorem short_lists {P : List Bool → Prop}
    (h : ∀ k ∈ List.range 9, ∀ bs ∈ allBitLists k, P bs) (bs : List Bool) (hlen : bs.length ≤ 8) :
    P bs :=
  h bs.length (List.mem_range.mpr (by omega)) bs (mem_allBitLists bs)

theorem topBits_packByte (bs : List Bool) (hlen : bs.length ≤ 8) :
    topBits 8 (packByte bs).val = bs ++ List.replicate (8 - bs.length) false := by
  revert bs
  apply short_lists
  decide

theorem writeBits_chunk_nil (bs : List Bool) (hlen : bs.length ≤ 8) :
    (bs ≠ [] → (writeBits { out := [], buffer := 0, bitCount := 0 } bs).flush
        = { out := [packByte bs], buffer := 0, bitCount := 0 }) ∧
      (bs.length = 8 → writeBits { out := [], buffer := 0, bitCount := 0 } bs
        = { out := [packByte bs], buffer := 0, bitCount := 0 }) := by
  revert bs
  apply short_lists
  decide

theorem writeBits_chunk (out : List Byte) (bs : List Bool) (hlen : bs.length ≤ 8) :
    (bs ≠ [] → (writeBits { out := out, buffer := 0, bitCount := 0 } bs).flush
        = { out := out ++ [packByte bs], buffer := 0, bitCount := 0 }) ∧
      (bs.length = 8 → writeBits { out := out, buffer := 0, bitCount := 0 } bs
        = { out := out ++ [packByte bs], buffer := 0, bitCount := 0 }) := by
  have e : ({ out := out, buffer := 0, bitCount := 0 } : BitWriter)
      = BitWriter.frame out { out := [], buffer := 0, bitCount := 0 } := by
    simp [BitWriter.frame]
  obtain ⟨h1, h2⟩ := writeBits_chunk_nil bs hlen
  rw [e, writeBits_frame]
  constructor
  · intro hne
    rw [flush_frame, h1 hne]
    rfl
  · intro h8
    rw [h2 h8]
    rfl

theorem packChunks_nil (n : Nat) : packChunks n [] = [] := by
  cases n <;> rfl

/-- The writer emits the packed bits: after `flush` the output is the old
output followed by `packChunks`. -/
theorem writeBits_flush : ∀ (n : Nat) (bs : List Bool) (out : List Byte), bs.length ≤ n →
    (writeBits { out := out, buffer := 0, bitCount := 0 } bs).flush
      = { out := out ++ packChunks n bs, buffer := 0, bitCount := 0 } := by
  intro n
  induction n with
  | zero =>
    intro bs out h
    have : bs = [] := List.length_eq_zero.mp (by omega)
    subst this
    simp [writeBits, BitWriter.flush, packChunks]
  | succ n ih =>
    intro bs out h
    by_cases hne : bs = []
    · subst hne
      simp [writeBits, BitWriter.flush, packChunks]
    · have hpos : 0 < bs.length := List.length_pos.mpr hne
      have e : packChunks (n + 1) bs = packByte (bs.take 8) :: packChunks n (bs.drop 8) := by
        simp [packChunks, hne]
      rw [e]
      by_cases h8 : bs.length ≤ 8
      · rw [List.take_of_length_le h8, List.drop_of_length_le h8, packChunks_nil]
        exact (writeBits_chunk out bs h8).1 hne
      · have ht : (bs.take 8).length = 8 := by
          rw [List.length_take]
          omega
        have hd : (bs.drop 8).length ≤ n := by
          rw [List.length_drop]
          omega
        conv_lhs => rw [← List.take_append_drop 8 bs]
        rw [writeBits_append, (writeBits_chunk out (bs.take 8) (by omega)).2 ht, ih _ _ hd]
        simp

theorem packChunks_length : ∀ (n : Nat) (bs : List Bool), bs.length ≤ n →
    (packChunks n bs).length = (bs.length + 7) / 8 := by
  intro n
  induction n with
  | zero =>
    intro bs h
    have : bs = [] := List.length_eq_zero.mp (by omega)
    subst this
    rfl
  | succ n ih =>
    intro bs h
    by_cases hne : bs = []
    · subst hne
      rfl
    · have hpos : 0 < bs.length := List.length_pos.mpr hne
      have e : packChunks (n + 1) bs = packByte (bs.take 8) :: packChunks n (bs.drop 8) := by
        simp [packChunks, hne]
      have hd : (bs.drop 8).length ≤ n := by
        rw [List.length_drop]
        omega
      rw [e, List.length_cons, ih _ hd, List.length_drop]
      omega

/-- Reading back the packed bits gives the bits followed by the zero padding. -/
theorem unpackBits_packChunks : ∀ (n : Nat) (bs : List Bool), bs.length ≤ n →
    unpackBits (packChunks n bs)
      = bs ++ List.replicate (8 * ((bs.length + 7) / 8) - bs.length) false := by
  intro n
  induction n with
  | zero =>
    intro bs h
    have : bs = [] := List.length_eq_zero.mp (by omega)
    subst this
    rfl
  | succ n ih =>
    intro bs h
    by_cases hne : bs = []
    · subst hne
      rfl
    · have hpos : 0 < bs.length := List.length_pos.mpr hne
      have e : packChunks (n + 1) bs = packByte (bs.take 8) :: packChunks n (bs.drop 8) := by
        simp [packChunks, hne]
      have hd : (bs.drop 8).length ≤ n := by
        rw [List.length_drop]
        omega
      have e2 : unpackBits (packByte (bs.take 8) :: packChunks n (bs.drop 8))
          = topBits 8 (packByte (bs.take 8)).val ++ unpackBits (packChunks n (bs.drop 8)) := by
        simp [unpackBits]
      rw [e, e2, ih _ hd, topBits_packByte _ (by rw [List.length_take]; omega)]
      by_cases h8 : bs.length ≤ 8
      · rw [List.take_of_length_le h8, List.drop_of_length_le h8]
        have : 8 * ((bs.length + 7) / 8) - bs.length = 8 - bs.length := by omega
        simp [this]
      · have ht : (bs.take 8).length = 8 := by
          rw [List.length_take]
          omega
        have : 8 * (((bs.drop 8).length + 7) / 8) - (bs.drop 8).length
            = 8 * ((bs.length + 7) / 8) - bs.length := by
          rw [List.length_drop]
          omega
        rw [ht, this, ← List.append_assoc]
        simp

/-! ## Header -/

theorem leBytes_length : ∀ (w n : Nat), (leBytes w n).length = w := by
  intro w
  induction w with
  | zero => intro n; rfl
  | succ w ih => intro n; simp [leBytes, ih]

theorem leValue_leBytes : ∀ (w n : Nat), leValue (leBytes w n) = n % 256 ^ w := by
  intro w
  induction w with
  | zero => intro n; simp [leBytes, leValue, Nat.mod_one]
  | succ w ih =>
    intro n
    simp only [leBytes, leValue, ih, toByte]
    rw [pow_succ, Nat.mul_comm (256 ^ w) 256, Nat.mod_mul]

theorem readBytes_append (a rest : List Byte) :
    readBytes a.length (a ++ rest) = some (a, rest) := by
  simp [readBytes]

theorem readEntries_spec (freq : Byte → Nat) (hf : ∀ i, freq i < W64) (body : List Byte) :
    ∀ (is : List Byte) (f0 : Byte → Nat),
      readEntries is.length (is.flatMap (fun i => i :: leBytes 8 (freq i)) ++ body) f0
        = some (is.foldl (fun f i => Function.update f i (freq i)) f0, body) := by
  intro is
  induction is with
  | nil => intro f0; rfl
  | cons i is ih =>
    intro f0
    have e : (i :: is).flatMap (fun i => i :: leBytes 8 (freq i)) ++ body
        = i :: (leBytes 8 (freq i)
            ++ (is.flatMap (fun i => i :: leBytes 8 (freq i)) ++ body)) := by
      simp
    have hr := readBytes_append (leBytes 8 (freq i))
      (is.flatMap (fun i => i :: leBytes 8 (freq i)) ++ body)
    rw [leBytes_length] at hr
    have hv : leValue (leBytes 8 (freq i)) = freq i := by
      rw [leValue_leBytes]
      exact Nat.mod_eq_of_lt (hf i)
    rw [e]
    simp only [List.length_cons, readEntries, hr, hv, List.foldl_cons]
    exact ih _

theorem foldl_update_apply (freq : Byte → Nat) (b : Byte) :
    ∀ (is : List Byte) (f0 : Byte → Nat),
      (is.foldl (fun f i => Function.update f i (freq i)) f0) b
        = if b ∈ is then freq b else f0 b := by
  intro is
  induction is with
  | nil => intro f0; simp
  | cons i is ih =>
    intro f0
    rw [List.foldl_cons, ih]
    by_cases hb : b ∈ is
    · simp [hb]
    · by_cases hbi : b = i
      · subst hbi
        simp [hb]
      · simp [hb, hbi, Function.update_noteq hbi]

/-- The frequency table read back from the header records is the table written. -/
theorem readEntries_header (freq : Byte → Nat) (hf : ∀ i, freq i < W64) (body : List Byte) :
    readEntries (uniqueCount freq) (headerEntries freq ++ body) (fun _ => 0) = some (freq, body) := by
  unfold uniqueCount headerEntries
  rw [readEntries_spec freq hf body]
  congr 2
  funext b
  rw [foldl_update_apply]
  by_cases hb : 0 < freq b
  · simp [hb, mem_allBytes]
  · have : freq b = 0 := by omega
    simp [this]

theorem uniqueCount_le (freq : Byte → Nat) : uniqueCount freq ≤ 256 := by
  unfold uniqueCount
  calc (allBytes.filter _).length ≤ allBytes.length := List.length_filter_le _ _
    _ = 256 := allBytes_length

/-! ## Trees of one and two leaves -/

/-- The tree of a table with exactly two non-zero counts: the node taken first
has the smaller or equal frequency and becomes the left child. -/
theorem buildTree_two {H : HeapAlgo} (hH : H.Lawful) (freq : Byte → Nat) (n1 n2 : Node)
    (hl : leafList freq allBytes = [n1, n2]) :
    ∃ p q, buildTree H freq = some (Node.internal ((p.freq + q.freq) % W64) p q) ∧
      List.Perm [p, q] [n1, n2] ∧ p.freq ≤ q.freq := by
  obtain ⟨hheap, hperm⟩ := initialQueue_spec hH freq
  rw [hl] at hperm
  have hlen := hperm.length_eq
  match hq : initialQueue H freq, hlen with
  | [p, q], _ =>
    rw [hq] at hheap hperm
    refine ⟨p, q, ?_, hperm, ?_⟩
    · obtain ⟨hp1, hh1⟩ := pqPop_spec hH hheap
      have e1 : pqPop H [p, q] = [q] := List.Perm.eq_singleton (by simpa using hp1)
      rw [e1] at hh1
      obtain ⟨hp2, hh2⟩ := pqPop_spec hH hh1
      have e2 : pqPop H [q] = [] := List.Perm.eq_nil hp2
      have e3 : pqPush H [] (Node.internal ((p.freq + q.freq) % W64) p q)
          = [Node.internal ((p.freq + q.freq) % W64) p q] :=
        List.Perm.eq_singleton (by simpa using pqPush_perm hH (isHeap_nil _) _)
      unfold buildTree
      rw [hq]
      simp [combineLoop, pqTop, e1, e2, e3]
    · have := hheap 1 (by omega) (by simp)
      simpa [compareNode] using this

theorem buildTree_two_lt {H : HeapAlgo} (hH : H.Lawful) (freq : Byte → Nat) (n1 n2 : Node)
    (hl : leafList freq allBytes = [n1, n2]) (hlt : n2.freq < n1.freq) :
    buildTree H freq = some (Node.internal ((n2.freq + n1.freq) % W64) n2 n1) := by
  obtain ⟨p, q, hb, hperm, hle⟩ := buildTree_two hH freq n1 n2 hl
  have hp : p ∈ [n1, n2] := hperm.mem_iff.mp (by simp)
  have hq : q ∈ [n1, n2] := hperm.mem_iff.mp (by simp)
  have hn1 : n1 ∈ [p, q] := hperm.mem_iff.mpr (by simp)
  have hn2 : n2 ∈ [p, q] := hperm.mem_iff.mpr (by simp)
  simp only [List.mem_cons, List.mem_singleton, List.not_mem_nil, or_false] at hp hq hn1 hn2
  rcases hp with hp | hp <;> rcases hq with hq | hq
  · rw [hp, hq] at hn2
    have : n2 = n1 := by tauto
    rw [this] at hlt
    omega
  · rw [hp, hq] at hle
    omega
  · rw [hp, hq] at hb
    exact hb
  · rw [hp, hq] at hn1
    have : n1 = n2 := by tauto
    rw [this] at hlt
    omega

/-! ## The two top-level operations -/

/-- On a file that starts with a header written by `compress`, `decompress`
recovers the size and the frequency table of that header. -/
theorem decompress_header (H : HeapAlgo) (s : Counts) (hf : ∀ i, s.freq i < W64)
    (ht : s.totalBytes < W64) (body : List Byte) :
    decompress H (header s ++ body) = decodeBody H s.freq s.totalBytes body := by
  have e : header s ++ body
      = leBytes 8 s.totalBytes ++ (leBytes 4 (uniqueCount s.freq) ++ (headerEntries s.freq ++ body)) := by
    simp [header]
  have h8 := readBytes_append (leBytes 8 s.totalBytes)
    (leBytes 4 (uniqueCount s.freq) ++ (headerEntries s.freq ++ body))
  have h4 := readBytes_append (leBytes 4 (uniqueCount s.freq)) (headerEntries s.freq ++ body)
  rw [leBytes_length] at h8 h4
  have hv8 : leValue (leBytes 8 s.totalBytes) = s.totalBytes := by
    rw [leValue_leBytes]
    exact Nat.mod_eq_of_lt ht
  have hu := uniqueCount_le s.freq
  have hv4 : leValue (leBytes 4 (uniqueCount s.freq)) = uniqueCount s.freq := by
    rw [leValue_leBytes]
    exact Nat.mod_eq_of_lt (by norm_num; omega)
  have hi : (toInt32 (uniqueCount s.freq)).toNat = uniqueCount s.freq := by
    unfold toInt32
    rw [if_pos (by norm_num; omega)]
    simp
  unfold decompress
  rw [e, h8]
  simp only [h4, hv8, hv4, hi, readEntries_header s.freq hf body]
  rfl

theorem initialQueue_length {H : HeapAlgo} (hH : H.Lawful) (freq : Byte → Nat) :
    (initialQueue H freq).length = uniqueCount freq := by
  rw [(initialQueue_spec hH freq).2.length_eq, leafList_length]

/-- On a non-empty input `compress` returns `true` and writes the header
followed by the packed code bits. -/
theorem compress_eq {H : HeapAlgo} (hH : H.Lawful) (X : List Byte)
    (hu : 0 < uniqueCount (countFrequencies X).freq) :
    ∃ root, buildTree H (countFrequencies X).freq = some root ∧
      compress H X = Outcome.returned true
        (some (header (countFrequencies X) ++ packBits (codeBits (codeTable root) X))) := by
  obtain ⟨root, hroot, _⟩ := buildTree_spec hH (countFrequencies X).freq hu
  refine ⟨root, hroot, ?_⟩
  have hq : (initialQueue H (countFrequencies X).freq).isEmpty = false := by
    have := initialQueue_length hH (countFrequencies X).freq
    cases hc : initialQueue H (countFrequencies X).freq with
    | nil =>
      rw [hc] at this
      simp at this
      omega
    | cons a l => rfl
  unfold compress
  simp only [hq, hroot, encodeAll_eq, BitWriter.new]
  rw [writeBits_flush _ _ _ (Nat.le_refl _)]
  rfl

theorem countFrequencies_lt (X : List Byte) (hX : X.length < W64) (i : Byte) :
    (countFrequencies X).freq i < W64 := by
  rw [(countFrequencies_spec X hX).1 i]
  exact Nat.lt_of_le_of_lt (List.count_le_length i X) hX

theorem new_bits (body : List Byte) : (BitReader.new body).bits = unpackBits body := by
  simp [BitReader.new, BitReader.bits, topBits, unpackBits]

theorem isLeaf_false {t : Node} (h : t.isLeaf = false) : ∃ f l r, t = Node.internal f l r := by
  cases t with
  | leaf s f => simp [Node.isLeaf] at h
  | internal f l r => exact ⟨f, l, r, rfl⟩

/-- Round trip on an input with at least two distinct byte values. -/
theorem roundtrip_general {H : HeapAlgo} (hH : H.Lawful) (X : List Byte) (hX : X.length < W64)
    (h2 : 2 ≤ uniqueCount (countFrequencies X).freq) :
    ∃ root, buildTree H (countFrequencies X).freq = some root ∧
      compress H X = Outcome.returned true
        (some (header (countFrequencies X) ++ packBits (codeBits (codeTable root) X))) ∧
      decompress H (header (countFrequencies X) ++ packBits (codeBits (codeTable root) X))
        = Outcome.returned true (some X) := by
  obtain ⟨root, hroot, hc⟩ := compress_eq hH X (by omega)
  refine ⟨root, hroot, hc, ?_⟩
  obtain ⟨hcount, htotal⟩ := countFrequencies_spec X hX
  rw [decompress_header H _ (countFrequencies_lt X hX) (by rw [htotal]; exact hX)]
  obtain ⟨t, ht, _, _, hleaf, _⟩ := buildTree_spec hH (countFrequencies X).freq (by omega)
  rw [hroot] at ht
  cases ht
  obtain ⟨f, l, r, hr⟩ := isLeaf_false (hleaf h2)
  have hsym : ∀ x ∈ X, x ∈ root.symbols := by
    intro x hx
    rw [buildTree_symbols hH _ root hroot (by omega), hcount]
    exact List.count_pos_iff.mpr hx
  have hbits : (BitReader.new (packBits (codeBits (codeTable root) X))).bits
      = codeBits (codeTable root) X ++ List.replicate
          (8 * (((codeBits (codeTable root) X).length + 7) / 8)
            - (codeBits (codeTable root) X).length) false := by
    rw [new_bits]
    exact unpackBits_packChunks _ _ (Nat.le_refl _)
  subst hr
  have := decodeLoop_spec f l r X _ [] _ hsym hbits
  unfold decodeBody
  rw [hroot, htotal]
  simp only [this]
  rfl

theorem buildTree_one {H : HeapAlgo} (hH : H.Lawful) (freq : Byte → Nat) (n : Node)
    (hl : leafList freq allBytes = [n]) : buildTree H freq = some n := by
  obtain ⟨_, hperm⟩ := initialQueue_spec hH freq
  rw [hl] at hperm
  have hq : initialQueue H freq = [n] := List.Perm.eq_singleton hperm
  unfold buildTree
  rw [hq]
  simp [combineLoop, pqTop]

theorem filter_single (p : Byte → Bool) (b : Byte) (h : ∀ i, p i = true ↔ i = b) :
    allBytes.filter p = [b] := by
  have hnd : (allBytes.filter p).Nodup := allBytes_nodup.filter _
  have hperm : List.Perm (allBytes.filter p) [b] := by
    rw [List.perm_ext_iff_of_nodup hnd (List.nodup_singleton b)]
    intro i
    simp [List.mem_filter, mem_allBytes, h]
  exact List.Perm.eq_singleton hperm

theorem leafList_replicate (b : Byte) (n : Nat) (hn : 0 < n) (hlt : n < W64) :
    leafList (countFrequencies (List.replicate n b)).freq allBytes = [Node.leaf b n] := by
  have hc := (countFrequencies_spec (List.replicate n b) (by simpa using hlt)).1
  unfold leafList
  rw [filter_single _ b]
  · simp [hc]
  · intro i
    rw [hc, decide_eq_true_eq, List.count_replicate]
    by_cases h : b = i
    · subst h; simp [hn]
    · simp [h, Ne.symm h]

theorem decodeLoop_leaf (s : Byte) (f n : Nat) (br : BitReader) (out : List Byte) :
    decodeLoop (Node.leaf s f) (n + 1) br out = none := rfl

/-- Single byte value: tree, code, container, and the decoder's fate. -/
theorem single_value {H : HeapAlgo} (hH : H.Lawful) (b : Byte) (n : Nat) (hn : 0 < n) (hlt : n < W64) :
    buildTree H (countFrequencies (List.replicate n b)).freq = some (Node.leaf b n) ∧
    codeTable (Node.leaf b n) b = ['0'] ∧
    compress H (List.replicate n b) = Outcome.returned true
      (some (header (countFrequencies (List.replicate n b)) ++ packBits (List.replicate n false))) ∧
    decompress H (header (countFrequencies (List.replicate n b)) ++ packBits (List.replicate n false))
      = Outcome.undefined := by
  have hX : (List.replicate n b).length < W64 := by simpa using hlt
  have hroot := buildTree_one hH _ _ (leafList_replicate b n hn hlt)
  have hu : 0 < uniqueCount (countFrequencies (List.replicate n b)).freq := by
    rw [← leafList_length, leafList_replicate b n hn hlt]
    simp
  obtain ⟨root, hr, hc⟩ := compress_eq hH (List.replicate n b) hu
  rw [hroot] at hr
  cases hr
  have hbits : codeBits (codeTable (Node.leaf b n)) (List.replicate n b) = List.replicate n false := by
    simp [codeBits, codeTable_leaf, bitOfChar, List.flatMap_replicate]
  rw [hbits] at hc
  refine ⟨hroot, codeTable_leaf b n, hc, ?_⟩
  rw [decompress_header H _ (countFrequencies_lt _ hX)
    (by rw [(countFrequencies_spec _ hX).2]; exact hX)]
  unfold decodeBody
  rw [hroot, (countFrequencies_spec _ hX).2]
  obtain ⟨k, hk⟩ : ∃ k, (List.replicate n b).length = k + 1 := ⟨n - 1, by simp; omega⟩
  rw [hk]
  simp only [decodeLoop_leaf]

theorem path_prefix_eq (t : Node) : ∀ (s u : Byte), s ∈ t.symbols → u ∈ t.symbols →
    t.path s <+: t.path u → s = u := by
  induction t with
  | leaf s1 f =>
    intro s u hs hu _
    simp only [Node.symbols, List.mem_singleton] at hs hu
    rw [hs, hu]
  | internal f l r ihl ihr =>
    intro s u hs hu hp
    simp only [Node.symbols, List.mem_append] at hs hu
    by_cases hsr : s ∈ r.symbols <;> by_cases hur : u ∈ r.symbols
    · simp only [Node.path, if_pos hsr, if_pos hur] at hp
      exact ihr s u hsr hur (List.prefix_cons_inj _ |>.mp hp)
    · simp only [Node.path, if_pos hsr, if_neg hur] at hp
      have := List.cons_prefix_cons.mp hp
      simp at this
    · simp only [Node.path, if_neg hsr, if_pos hur] at hp
      have := List.cons_prefix_cons.mp hp
      simp at this
    · simp only [Node.path, if_neg hsr, if_neg hur] at hp
      exact ihl s u (hs.resolve_right hsr) (hu.resolve_right hur)
        (List.prefix_cons_inj _ |>.mp hp)

theorem uniqueCount_two (freq : Byte → Nat) (s t : Byte) (hs : 0 < freq s) (ht : 0 < freq t)
    (hne : s ≠ t) : 2 ≤ uniqueCount freq := by
  unfold uniqueCount
  have hsub : List.Subperm [s, t] (allBytes.filter (fun i => decide (freq i > 0))) := by
    apply List.subperm_of_subset (by simp [hne])
    intro x hx
    simp only [List.mem_cons, List.mem_singleton, List.not_mem_nil, or_false] at hx
    rcases hx with rfl | rfl <;> simp [mem_allBytes, hs, ht]
  exact hsub.length_le

theorem leBytes_eq_littleEndian : ∀ (w n : Nat), leBytes w n = littleEndian w n := by
  intro w
  induction w with
  | zero => intro n; rfl
  | succ w ih =>
    intro n
    simp only [leBytes, ih, littleEndian, List.range_succ_eq_map, List.map_cons, List.map_map,
      pow_zero, Nat.div_one]
    congr 1
    apply List.map_congr_left
    intro k _
    simp only [Function.comp, pow_succ, Nat.div_div_eq_div_mul]
    rw [Nat.mul_comm]

theorem uniqueCount_eq_dedup (X : List Byte) (freq : Byte → Nat) (h : ∀ b, freq b = X.count b) :
    uniqueCount freq = X.dedup.length := by
  unfold uniqueCount
  apply List.Perm.length_eq
  rw [List.perm_ext_iff_of_nodup (allBytes_nodup.filter _) (List.nodup_dedup X)]
  intro b
  simp [mem_allBytes, h, List.count_pos_iff]

theorem decompress_never_false (H : HeapAlgo) (file : List Byte) (sink : Option (List Byte)) :
    decompress H file ≠ Outcome.returned false sink := by
  unfold decompress
  split
  · simp
  · split
    · simp
    · simp only []
      split
      · simp
      · split
        · simp
        · split <;> simp

theorem aab_tree {H : HeapAlgo} (hH : H.Lawful) :
    buildTree H (countFrequencies aab).freq
      = some (Node.internal 3 (Node.leaf 98 1) (Node.leaf 97 2)) :=
  buildTree_two_lt hH _ (Node.leaf 97 2) (Node.leaf 98 1) (by decide) (by decide)

theorem aaab_tree {H : HeapAlgo} (hH : H.Lawful) :
    buildTree H (countFrequencies aaab).freq
      = some (Node.internal 4 (Node.leaf 98 1) (Node.leaf 97 3)) :=
  buildTree_two_lt hH _ (Node.leaf 97 3) (Node.leaf 98 1) (by decide) (by decide)

theorem uniqueCount_pos_of_ne_nil (X : List Byte) (hne : X ≠ []) (hX : X.length < W64) :
    0 < uniqueCount (countFrequencies X).freq := by
  rw [uniqueCount_pos_iff]
  obtain ⟨x, hx⟩ := List.exists_mem_of_ne_nil X hne
  exact ⟨x, by rw [(countFrequencies_spec X hX).1]; exact List.count_pos_iff.mpr hx⟩

theorem header_eq_spec (X : List Byte) (hX : X.length < W64) :
    header (countFrequencies X) = littleEndian 8 X.length ++ littleEndian 4 X.dedup.length
      ++ (allBytes.filter (fun s => decide (0 < X.count s))).flatMap
          (fun s => s :: littleEndian 8 (X.count s)) := by
  obtain ⟨hc, ht⟩ := countFrequencies_spec X hX
  have hf : (countFrequencies X).freq = fun b => X.count b := funext hc
  unfold header headerEntries
  rw [ht, uniqueCount_eq_dedup X _ hc, hf]
  simp only [leBytes_eq_littleEndian]

theorem codeBits_length (codes : Byte → Code) (X : List Byte) :
    (codeBits codes X).length = Finset.univ.sum (fun s : Byte => X.count s * (codes s).length) := by
  have h1 : (codeBits codes X).length = (X.map (fun x => (codes x).length)).sum := by
    induction X with
    | nil => rfl
    | cons x X ih =>
      have e : codeBits codes (x :: X) = (codes x).map bitOfChar ++ codeBits codes X := by
        simp [codeBits]
      rw [e, List.length_append, ih]
      simp
  rw [h1, Finset.sum_list_map_count]
  simp only [smul_eq_mul]
  apply Finset.sum_subset (Finset.subset_univ _)
  intro s _ hs
  rw [List.mem_toFinset] at hs
  simp [List.count_eq_zero_of_not_mem hs]

theorem headerEntries_length (freq : Byte → Nat) :
    (headerEntries freq).length = 9 * uniqueCount freq := by
  unfold headerEntries uniqueCount
  induction allBytes.filter (fun i => decide (freq i > 0)) with
  | nil => rfl
  | cons i is ih =>
    simp only [List.flatMap_cons, List.length_append, List.length_cons, leBytes_length, ih]
    omega

theorem header_length (s : Counts) : (header s).length = 12 + 9 * uniqueCount s.freq := by
  simp only [header, List.length_append, leBytes_length, headerEntries_length]

/-! ## Allocation addresses do not matter -/

theorem push_node {H : HeapAlgo} (hH : H.Lawful) (l : List NodePtr) :
    (H.push_heap comparePtr l).map NodePtr.node = H.push_heap compareNode (l.map NodePtr.node) :=
  (hH.push_natural NodePtr.node comparePtr compareNode l (fun _ _ => rfl)).symm

theorem pop_node {H : HeapAlgo} (hH : H.Lawful) (l : List NodePtr) :
    (H.pop_heap comparePtr l).map NodePtr.node = H.pop_heap compareNode (l.map NodePtr.node) :=
  (hH.pop_natural NodePtr.node comparePtr compareNode l (fun _ _ => rfl)).symm

theorem pushLeavesAt_node {H : HeapAlgo} (hH : H.Lawful) (alloc : Nat → Nat) (freq : Byte → Nat)
    (is : List Byte) : ∀ st : List NodePtr × Nat,
      (pushLeavesAt H alloc freq is st).1.map NodePtr.node
        = pushLeaves H freq is (st.1.map NodePtr.node) := by
  induction is with
  | nil => intro st; rfl
  | cons i is ih =>
    intro st
    by_cases hi : freq i > 0
    · have e1 : pushLeavesAt H alloc freq (i :: is) st = pushLeavesAt H alloc freq is
          (H.push_heap comparePtr (st.1 ++ [NodePtr.mk (alloc st.2) (Node.leaf i (freq i))]),
            st.2 + 1) := by
        simp [pushLeavesAt, hi]
      have e2 : pushLeaves H freq (i :: is) (st.1.map NodePtr.node)
          = pushLeaves H freq is (pqPush H (st.1.map NodePtr.node) (Node.leaf i (freq i))) := by
        simp [pushLeaves, hi]
      rw [e1, e2, ih, push_node hH]
      simp [pqPush]
    · have e1 : pushLeavesAt H alloc freq (i :: is) st = pushLeavesAt H alloc freq is st := by
        simp [pushLeavesAt, hi]
      have e2 : pushLeaves H freq (i :: is) (st.1.map NodePtr.node)
          = pushLeaves H freq is (st.1.map NodePtr.node) := by
        simp [pushLeaves, hi]
      rw [e1, e2, ih]

theorem combineLoopAt_node {H : HeapAlgo} (hH : H.Lawful) (alloc : Nat → Nat) :
    ∀ (fuel : Nat) (st : List NodePtr × Nat),
      (combineLoopAt H alloc fuel st).map (List.map NodePtr.node)
        = combineLoop H fuel (st.1.map NodePtr.node) := by
  intro fuel
  induction fuel with
  | zero =>
    intro st
    simp only [combineLoopAt, combineLoop, List.length_map]
    split <;> rfl
  | succ fuel ih =>
    intro st
    simp only [combineLoopAt, combineLoop, List.length_map, pqTop, pqPop, pqPush, List.head?_map]
    split
    · cases h1 : st.1.head? with
      | none => rfl
      | some a =>
        simp only [Option.map_some']
        rw [← pop_node hH, ← List.map_dropLast, List.head?_map]
        cases h2 : ((H.pop_heap comparePtr st.1).dropLast).head? with
        | none => rfl
        | some b =>
          simp only [Option.map_some']
          rw [ih, ← pop_node hH, ← List.map_dropLast, push_node hH]
          simp
    · rfl

theorem buildTreeAt_eq {H : HeapAlgo} (hH : H.Lawful) (alloc : Nat → Nat) (freq : Byte → Nat) :
    buildTreeAt H alloc freq = buildTree H freq := by
  have h1 := pushLeavesAt_node hH alloc freq allBytes ([], 0)
  have h2 := combineLoopAt_node hH alloc (pushLeavesAt H alloc freq allBytes ([], 0)).1.length
    (pushLeavesAt H alloc freq allBytes ([], 0))
  simp only [List.map_nil] at h1
  rw [h1] at h2
  have hlen : (pushLeaves H freq allBytes []).length
      = (pushLeavesAt H alloc freq allBytes ([], 0)).1.length := by
    rw [← h1, List.length_map]
  unfold buildTreeAt buildTree initialQueue
  rw [hlen, ← h2]
  cases combineLoopAt H alloc (pushLeavesAt H alloc freq allBytes ([], 0)).1.length
      (pushLeavesAt H alloc freq allBytes ([], 0)) with
  | none => rfl
  | some c => simp [pqTop]

/-- The addresses that `new` returns have no influence on the output of `compress`. -/
theorem compressAt_eq {H : HeapAlgo} (hH : H.Lawful) (alloc : Nat → Nat) (X : List Byte) :
    compressAt H alloc X = compress H X := by
  have h1 := pushLeavesAt_node hH alloc (countFrequencies X).freq allBytes ([], 0)
  simp only [List.map_nil] at h1
  have h3 : (pushLeavesAt H alloc (countFrequencies X).freq allBytes ([], 0)).1.isEmpty
      = (initialQueue H (countFrequencies X).freq).isEmpty := by
    unfold initialQueue
    rw [← h1]
    cases (pushLeavesAt H alloc (countFrequencies X).freq allBytes ([], 0)).1 <;> rfl
  unfold compressAt compress
  simp only []
  rw [h3, buildTreeAt_eq hH]

/-! ## Parsing the header -/

theorem decompress_eq_parseHeader (H : HeapAlgo) (file : List Byte) :
    decompress H file =
      match parseHeader file with
      | none => Outcome.undefined
      | some (sz, freq, body) => decodeBody H freq sz body := by
  unfold decompress parseHeader
  cases readBytes 8 file with
  | none => rfl
  | some p1 =>
    obtain ⟨szBytes, inp1⟩ := p1
    simp only []
    cases readBytes 4 inp1 with
    | none => rfl
    | some p2 =>
      obtain ⟨uBytes, inp2⟩ := p2
      simp only []
      cases readEntries (toInt32 (leValue uBytes)).toNat inp2 (fun _ => 0) with
      | none => rfl
      | some p3 =>
        obtain ⟨freq, body⟩ := p3
        rfl

theorem parseHeader_header (s : Counts) (hf : ∀ i, s.freq i < W64) (ht : s.totalBytes < W64)
    (body : List Byte) : parseHeader (header s ++ body) = some (s.totalBytes, s.freq, body) := by
  have e : header s ++ body
      = leBytes 8 s.totalBytes ++ (leBytes 4 (uniqueCount s.freq) ++ (headerEntries s.freq ++ body)) := by
    simp [header]
  have h8 := readBytes_append (leBytes 8 s.totalBytes)
    (leBytes 4 (uniqueCount s.freq) ++ (headerEntries s.freq ++ body))
  have h4 := readBytes_append (leBytes 4 (uniqueCount s.freq)) (headerEntries s.freq ++ body)
  rw [leBytes_length] at h8 h4
  have hv8 : leValue (leBytes 8 s.totalBytes) = s.totalBytes := by
    rw [leValue_leBytes]
    exact Nat.mod_eq_of_lt ht
  have hu := uniqueCount_le s.freq
  have hv4 : leValue (leBytes 4 (uniqueCount s.freq)) = uniqueCount s.freq := by
    rw [leValue_leBytes]
    exact Nat.mod_eq_of_lt (by norm_num; omega)
  have hi : (toInt32 (uniqueCount s.freq)).toNat = uniqueCount s.freq := by
    unfold toInt32
    rw [if_pos (by norm_num; omega)]
    simp
  unfold parseHeader
  rw [e, h8]
  simp only [h4, hv8, hv4, hi, readEntries_header s.freq hf body]

/-! ## Paths to leaves -/

theorem leadsTo_mem (t : Node) : ∀ (p : Code) (s : Byte), t.leadsTo p s = true → s ∈ t.symbols := by
  induction t with
  | leaf s1 f =>
    intro p s h
    cases p with
    | nil => simpa [Node.leadsTo, Node.symbols] using h
    | cons c p => simp [Node.leadsTo] at h
  | internal f l r ihl ihr =>
    intro p s h
    cases p with
    | nil => simp [Node.leadsTo] at h
    | cons c p =>
      simp only [Node.leadsTo] at h
      simp only [Node.symbols, List.mem_append]
      by_cases h0 : c = '0'
      · rw [if_pos h0] at h
        exact Or.inl (ihl p s h)
      · rw [if_neg h0] at h
        by_cases h1 : c = '1'
        · rw [if_pos h1] at h
          exact Or.inr (ihr p s h)
        · rw [if_neg h1] at h
          cases h

theorem leadsTo_path (t : Node) : ∀ (s : Byte), s ∈ t.symbols → t.leadsTo (t.path s) s = true := by
  induction t with
  | leaf s1 f =>
    intro s hs
    simpa [Node.leadsTo, Node.path, Node.symbols] using hs
  | internal f l r ihl ihr =>
    intro s hs
    simp only [Node.symbols, List.mem_append] at hs
    by_cases hr : s ∈ r.symbols
    · simp [Node.path, hr, Node.leadsTo, ihr s hr]
    · simp [Node.path, hr, Node.leadsTo, ihl s (hs.resolve_right hr)]

theorem leadsTo_unique (t : Node) : t.symbols.Nodup → ∀ (p : Code) (s : Byte),
    t.leadsTo p s = true → p = t.path s := by
  induction t with
  | leaf s1 f =>
    intro _ p s h
    cases p with
    | nil => rfl
    | cons c p => simp [Node.leadsTo] at h
  | internal f l r ihl ihr =>
    intro hnd p s h
    simp only [Node.symbols] at hnd
    have hl := (List.nodup_append.mp hnd).1
    have hr := (List.nodup_append.mp hnd).2.1
    have hd := (List.nodup_append.mp hnd).2.2
    cases p with
    | nil => simp [Node.leadsTo] at h
    | cons c p =>
      simp only [Node.leadsTo] at h
      by_cases h0 : c = '0'
      · rw [if_pos h0] at h
        have hsl := leadsTo_mem l p s h
        have hsr : s ∉ r.symbols := fun hx => hd hsl hx
        simp [Node.path, hsr, h0, ihl hl p s h]
      · rw [if_neg h0] at h
        by_cases h1 : c = '1'
        · rw [if_pos h1] at h
          have hsr := leadsTo_mem r p s h
          simp [Node.path, hsr, h1, ihr hr p s h]
        · rw [if_neg h1] at h
          cases h

theorem buildTree_symbols_nodup {H : HeapAlgo} (hH : H.Lawful) (freq : Byte → Nat) (t : Node)
    (ht : buildTree H freq = some t) (hu : 0 < uniqueCount freq) : t.symbols.Nodup := by
  obtain ⟨t2, ht2, hleaves, _⟩ := buildTree_spec hH freq hu
  rw [ht] at ht2
  cases ht2
  rw [symbols_eq_leaves, (hleaves.map Prod.fst).nodup_iff]
  simp only [List.map_map]
  have : (Prod.fst ∘ fun i : Byte => (i, freq i)) = id := rfl
  rw [this, List.map_id]
  exact allBytes_nodup.filter _

theorem path_ne_nil_iff (t : Node) (s : Byte) : t.path s = [] ↔ t.isLeaf = true := by
  cases t with
  | leaf s1 f => simp [Node.path, Node.isLeaf]
  | internal f l r =>
    simp only [Node.path, Node.isLeaf]
    split <;> simp

theorem codeTable_mem (t : Node) (s : Byte) (hs : s ∈ t.symbols) :
    codeTable t s = if t.path s = [] then ['0'] else t.path s := by
  unfold codeTable
  rw [buildCodes_spec, if_pos hs]
  simp [List.isEmpty_iff]

/-! ## Sums of counts -/

theorem sum_count_eq_length (X : List Byte) :
    Finset.univ.sum (fun b : Byte => X.count b) = X.length := by
  rw [← List.sum_toFinset_count_eq_length X]
  symm
  apply Finset.sum_subset (Finset.subset_univ _)
  intro b _ hb
  rw [List.mem_toFinset] at hb
  exact List.count_eq_zero_of_not_mem hb

/-! ## Decoding a body with arbitrary trailing bits -/

theorem two_values_uniqueCount (X : List Byte) (hX : X.length < W64)
    (h2 : ∃ a ∈ X, ∃ b ∈ X, a ≠ b) : 2 ≤ uniqueCount (countFrequencies X).freq := by
  obtain ⟨a, ha, b, hb, hab⟩ := h2
  have hc := (countFrequencies_spec X hX).1
  exact uniqueCount_two _ a b (by rw [hc]; exact List.count_pos_iff.mpr ha)
    (by rw [hc]; exact List.count_pos_iff.mpr hb) hab

/-- The decoding loop gives the input back from every body whose bits start
with the code bits of the input, whatever follows them. -/
theorem decodeLoop_of_bits {H : HeapAlgo} (hH : H.Lawful) (X : List Byte) (hX : X.length < W64)
    (h2 : 2 ≤ uniqueCount (countFrequencies X).freq) (root : Node)
    (hroot : buildTree H (countFrequencies X).freq = some root) (body : List Byte)
    (rest : List Bool) (hb : unpackBits body = codeBits (codeTable root) X ++ rest) :
    decodeLoop root X.length (BitReader.new body) [] = some X := by
  obtain ⟨hcount, _⟩ := countFrequencies_spec X hX
  obtain ⟨t, ht, _, _, hleaf, _⟩ := buildTree_spec hH (countFrequencies X).freq (by omega)
  rw [hroot] at ht
  cases ht
  obtain ⟨f, l, r, hr⟩ := isLeaf_false (hleaf h2)
  have hsym : ∀ x ∈ X, x ∈ root.symbols := by
    intro x hx
    rw [buildTree_symbols hH _ root hroot (by omega), hcount]
    exact List.count_pos_iff.mpr hx
  subst hr
  have := decodeLoop_spec f l r X (BitReader.new body) [] rest hsym (by rw [new_bits, hb])
  simpa using this

theorem decompress_of_bits {H : HeapAlgo} (hH : H.Lawful) (X : List Byte) (hX : X.length < W64)
    (h2 : 2 ≤ uniqueCount (countFrequencies X).freq) (root : Node)
    (hroot : buildTree H (countFrequencies X).freq = some root) (body : List Byte)
    (rest : List Bool) (hb : unpackBits body = codeBits (codeTable root) X ++ rest) :
    decompress H (header (countFrequencies X) ++ body) = Outcome.returned true (some X) := by
  obtain ⟨_, htotal⟩ := countFrequencies_spec X hX
  rw [decompress_header H _ (countFrequencies_lt X hX) (by rw [htotal]; exact hX)]
  unfold decodeBody
  rw [hroot, htotal]
  simp only [decodeLoop_of_bits hH X hX h2 root hroot body rest hb]

theorem decompress_single_value {H : HeapAlgo} (hH : H.Lawful) (b : Byte) (n : Nat) (hn : 0 < n)
    (hlt : n < W64) (body : List Byte) :
    decompress H (header (countFrequencies (List.replicate n b)) ++ body) = Outcome.undefined := by
  have hX : (List.replicate n b).length < W64 := by simpa using hlt
  have hroot := buildTree_one hH _ _ (leafList_replicate b n hn hlt)
  rw [decompress_header H _ (countFrequencies_lt _ hX)
    (by rw [(countFrequencies_spec _ hX).2]; exact hX)]
  unfold decodeBody
  rw [hroot, (countFrequencies_spec _ hX).2]
  obtain ⟨k, hk⟩ : ∃ k, (List.replicate n b).length = k + 1 := ⟨n - 1, by simp; omega⟩
  rw [hk]
  simp only [decodeLoop_leaf]

/-! ## Bit positions in packed bytes -/

theorem packChunks_getD : ∀ (n : Nat) (bs : List Bool) (k : Nat), bs.length ≤ n →
    k < (packChunks n bs).length →
    (packChunks n bs).getD k 0 = packByte ((bs.drop (8 * k)).take 8) := by
  intro n
  induction n with
  | zero =>
    intro bs k _ hk
    simp [packChunks] at hk
  | succ n ih =>
    intro bs k h hk
    by_cases hne : bs = []
    · subst hne
      simp [packChunks] at hk
    · have hpos : 0 < bs.length := List.length_pos.mpr hne
      have e : packChunks (n + 1) bs = packByte (bs.take 8) :: packChunks n (bs.drop 8) := by
        simp [packChunks, hne]
      rw [e] at hk ⊢
      cases k with
      | zero => simp
      | succ k =>
        have hd : (bs.drop 8).length ≤ n := by
          rw [List.length_drop]
          omega
        simp only [List.length_cons, Nat.add_lt_add_iff_right] at hk
        rw [List.getD_cons_succ, ih _ k hd hk, List.drop_drop,
          show 8 * (k + 1) = 8 + 8 * k by omega]

theorem testBit_packByte (bs : List Bool) (hlen : bs.length ≤ 8) :
    ∀ j ∈ List.range 8, (packByte bs).val.testBit (7 - j) = bs.getD j false := by
  revert bs
  apply short_lists
  decide

/-- A whole number of bytes leaves the buffer of the writer empty. -/
theorem writeBits_aligned : ∀ (n : Nat) (bs : List Bool) (out : List Byte), bs.length ≤ n →
    bs.length % 8 = 0 →
    writeBits { out := out, buffer := 0, bitCount := 0 } bs
      = { out := out ++ packChunks n bs, buffer := 0, bitCount := 0 } := by
  intro n
  induction n with
  | zero =>
    intro bs out h _
    have : bs = [] := List.length_eq_zero.mp (by omega)
    subst this
    simp [writeBits, packChunks]
  | succ n ih =>
    intro bs out h hm
    by_cases hne : bs = []
    · subst hne
      simp [writeBits, packChunks]
    · have hpos : 0 < bs.length := List.length_pos.mpr hne
      have e : packChunks (n + 1) bs = packByte (bs.take 8) :: packChunks n (bs.drop 8) := by
        simp [packChunks, hne]
      have ht : (bs.take 8).length = 8 := by
        rw [List.length_take]
        omega
      have hd : (bs.drop 8).length ≤ n := by
        rw [List.length_drop]
        omega
      have hdm : (bs.drop 8).length % 8 = 0 := by
        rw [List.length_drop]
        omega
      rw [e]
      conv_lhs => rw [← List.take_append_drop 8 bs]
      rw [writeBits_append, (writeBits_chunk out (bs.take 8) (by omega)).2 ht, ih _ _ hd hdm]
      simp

theorem flush_clean (out : List Byte) :
    ({ out := out, buffer := 0, bitCount := 0 } : BitWriter).flush
      = { out := out, buffer := 0, bitCount := 0 } := by
  simp [BitWriter.flush]

/-! ## Successive calls of `readBit` -/

theorem readBit_nil (r : BitReader) (h : r.bits = []) : r.readBit = (-1, r) := by
  obtain ⟨inp, buffer, bitCount⟩ := r
  cases bitCount with
  | zero =>
    cases inp with
    | nil => rfl
    | cons c rest =>
      have h0 : topBits 8 c.val ++ rest.flatMap (fun c => topBits 8 c.val) = [] := by
        simpa only [BitReader.bits, topBits, List.flatMap_cons, List.nil_append] using h
      rw [topBits_succ] at h0
      simp at h0
  | succ k =>
    have h0 : topBits (k + 1) buffer ++ inp.flatMap (fun c => topBits 8 c.val) = [] := h
    rw [topBits_succ] at h0
    simp at h0

theorem nthReadBit_bits : ∀ (i : Nat) (r : BitReader),
    nthReadBit r i = match r.bits.get? i with
      | some b => if b then 1 else 0
      | none => -1 := by
  intro i
  induction i with
  | zero =>
    intro r
    cases hb : r.bits with
    | nil => simp [nthReadBit, readBit_nil r hb]
    | cons b bs => simp [nthReadBit, (readBit_bits r b bs hb).1]
  | succ i ih =>
    intro r
    cases hb : r.bits with
    | nil =>
      have := ih r
      rw [hb] at this
      simp only [nthReadBit, readBit_nil r hb]
      simpa using this
    | cons b bs =>
      have := ih (r.readBit).2
      rw [(readBit_bits r b bs hb).2] at this
      simpa [nthReadBit] using this

theorem topBits_byte : ∀ c : Byte, topBits 8 c.val
    = [c.val.testBit 7, c.val.testBit 6, c.val.testBit 5, c.val.testBit 4,
       c.val.testBit 3, c.val.testBit 2, c.val.testBit 1, c.val.testBit 0] := by
  decide

theorem topBits_get (c : Byte) : ∀ j ∈ List.range 8,
    (topBits 8 c.val).get? j = some (c.val.testBit (7 - j)) := by
  intro j hj
  rw [topBits_byte]
  simp only [List.mem_range] at hj
  interval_cases j <;> rfl

theorem unpackBits_get : ∀ (bs : List Byte) (i : Nat),
    (unpackBits bs).get? i =
      if i < 8 * bs.length then some ((bs.getD (i / 8) 0).val.testBit (7 - i % 8)) else none := by
  intro bs
  induction bs with
  | nil => intro i; simp [unpackBits]
  | cons c bs ih =>
    intro i
    have e : unpackBits (c :: bs) = topBits 8 c.val ++ unpackBits bs := by simp [unpackBits]
    have hl : (topBits 8 c.val).length = 8 := by rw [topBits_byte]; rfl
    rw [e]
    by_cases hi : i < 8
    · rw [List.get?_eq_getElem?, List.getElem?_append_left (by omega), ← List.get?_eq_getElem?,
        topBits_get c i (List.mem_range.mpr hi)]
      have h0 : i / 8 = 0 := by omega
      have h1 : i % 8 = i := by omega
      simp [h0, h1]
      omega
    · rw [List.get?_eq_getElem?, List.getElem?_append_right (by omega), ← List.get?_eq_getElem?,
        hl, ih]
      obtain ⟨k, rfl⟩ : ∃ k, i = k + 8 := ⟨i - 8, by omega⟩
      have h0 : (k + 8) / 8 = k / 8 + 1 := by omega
      have h1 : (k + 8) % 8 = k % 8 := by omega
      simp only [Nat.add_sub_cancel, h0, h1, List.length_cons, List.getD_cons_succ]
      by_cases hk : k < 8 * bs.length
      · rw [if_pos hk, if_pos (by omega)]
      · rw [if_neg hk, if_neg (by omega)]

/-! ## The top of the heap has the least frequency -/

theorem heap_head_min {α : Type} {comp : α → α → Bool} (sw : StrictWeak comp) {x : α}
    {l : List α} (hh : IsHeap comp (x :: l)) : ∀ y ∈ l, comp x y = false := by
  have key : ∀ (i : Nat) (h : i < (x :: l).length), comp x ((x :: l).get ⟨i, h⟩) = false := by
    intro i
    induction i using Nat.strong_induction_on with
    | _ i ih =>
      intro h
      by_cases hi : i = 0
      · subst hi
        exact sw.irrefl x
      · have h1 := ih ((i - 1) / 2) (by omega) (by omega)
        have h2 := hh i (by omega) h
        exact sw.negTrans _ _ _ h1 h2
  intro y hy
  obtain ⟨n, hn⟩ := List.mem_iff_get.mp hy
  have := key (n.val + 1) (by simp)
  rw [← hn]
  simpa using this

theorem pq_head_min {a : Node} {l : List Node} (hh : IsHeap compareNode (a :: l)) :
    ∀ y ∈ l, a.freq ≤ y.freq := by
  intro y hy
  have := heap_head_min compareNode_strictWeak hh y hy
  simpa [compareNode] using this

/-- One iteration of the combine loop takes out a node of least frequency and
then a node of least frequency among the rest. -/
theorem combine_step_min {H : HeapAlgo} (hH : H.Lawful) {a : Node} {l : List Node}
    (hc : IsHeap compareNode (a :: l)) (hl : l ≠ []) :
    ∃ b c2, pqTop (pqPop H (a :: l)) = some b ∧
      List.Perm l (b :: c2) ∧
      c2 = pqPop H (pqPop H (a :: l)) ∧
      IsHeap compareNode (pqPush H c2 (Node.internal ((a.freq + b.freq) % W64) a b)) ∧
      List.Perm (pqPush H c2 (Node.internal ((a.freq + b.freq) % W64) a b))
        (c2 ++ [Node.internal ((a.freq + b.freq) % W64) a b]) ∧
      (∀ y ∈ b :: c2, a.freq ≤ y.freq) ∧ (∀ y ∈ c2, b.freq ≤ y.freq) := by
  obtain ⟨p1, h1⟩ := pqPop_spec hH hc
  cases hc1 : pqPop H (a :: l) with
  | nil =>
    rw [hc1] at p1
    exact absurd (List.Perm.eq_nil (p1.symm)) hl
  | cons b l2 =>
    rw [hc1] at p1 h1
    obtain ⟨p2, h2⟩ := pqPop_spec hH h1
    have hp : List.Perm l (b :: pqPop H (b :: l2)) := p1.symm.trans (List.Perm.cons b p2.symm)
    refine ⟨b, pqPop H (b :: l2), rfl, hp, rfl, pqPush_isHeap hH h2 _, pqPush_perm hH h2 _, ?_, ?_⟩
    · intro y hy
      exact pq_head_min hc y (hp.mem_iff.mpr hy)
    · intro y hy
      exact pq_head_min h1 y (p2.mem_iff.mp hy)

/-- Induction principle for the combine loop on a lawful heap: a property of
the queue that is stable under permutation and under the replacement of two
nodes of least frequency by their parent holds of the final one-node queue. -/
theorem combineLoop_invariant {H : HeapAlgo} (hH : H.Lawful) (Inv : List Node → Prop)
    (hperm : ∀ c c1, List.Perm c c1 → Inv c → Inv c1)
    (hstep : ∀ a b rest, Inv (a :: b :: rest) → (∀ y ∈ b :: rest, a.freq ≤ y.freq) →
      (∀ y ∈ rest, b.freq ≤ y.freq) →
      Inv (rest ++ [Node.internal ((a.freq + b.freq) % W64) a b])) :
    ∀ (fuel : Nat) (c : List Node), IsHeap compareNode c → c ≠ [] → c.length ≤ fuel + 1 →
      Inv c → ∃ t, combineLoop H fuel c = some [t] ∧ Inv [t] := by
  intro fuel
  induction fuel with
  | zero =>
    intro c hc hne hlen hinv
    match c, hne, hlen with
    | [t], _, _ => exact ⟨t, by simp [combineLoop], hinv⟩
    | _ :: _ :: _, _, hlen => simp at hlen
  | succ fuel ih =>
    intro c hc hne hlen hinv
    match c, hc, hne, hlen, hinv with
    | [t], _, _, _, hinv => exact ⟨t, by simp [combineLoop], hinv⟩
    | a :: x :: l, hc, _, hlen, hinv =>
      obtain ⟨b, c2, hb, hp, hc2, hheap, hperm2, hmin1, hmin2⟩ := combine_step_min hH hc (by simp)
      have hlen2 : c2.length = l.length := by
        have := hp.length_eq
        simp at this
        omega
      have hqlen : (pqPush H c2 (Node.internal ((a.freq + b.freq) % W64) a b)).length
          = l.length + 1 := by
        rw [hperm2.length_eq]
        simp [hlen2]
      have hqne : pqPush H c2 (Node.internal ((a.freq + b.freq) % W64) a b) ≠ [] := by
        intro h
        rw [h] at hqlen
        simp at hqlen
      have hinv2 : Inv (pqPush H c2 (Node.internal ((a.freq + b.freq) % W64) a b)) := by
        apply hperm _ _ hperm2.symm
        apply hstep a b c2 _ hmin1 hmin2
        exact hperm _ _ (List.Perm.cons a hp) hinv
      obtain ⟨t, ht, hit⟩ := ih _ hheap hqne (by
        rw [hqlen]
        simp at hlen
        omega) hinv2
      refine ⟨t, ?_, hit⟩
      have e : combineLoop H (fuel + 1) (a :: x :: l)
          = combineLoop H fuel (pqPush H (pqPop H (pqPop H (a :: x :: l)))
              (Node.internal ((a.freq + b.freq) % W64) a b)) := by
        have hb2 : (pqPop H (a :: x :: l)).head? = some b := hb
        simp [combineLoop, pqTop, hb2]
      rw [e, ← hc2]
      exact ht

/-- The combine loop has not ended while more iterations are needed than allowed. -/
theorem combineLoop_none {H : HeapAlgo} (hH : H.Lawful) :
    ∀ (fuel : Nat) (c : List Node), IsHeap compareNode c → fuel + 1 < c.length →
      combineLoop H fuel c = none := by
  intro fuel
  induction fuel with
  | zero =>
    intro c _ hlen
    simp [combineLoop, hlen]
  | succ fuel ih =>
    intro c hc hlen
    match c, hc, hlen with
    | [], _, hlen => simp at hlen
    | [t], _, hlen => simp at hlen
    | a :: x :: l, hc, hlen =>
      obtain ⟨b, c2, hb, hp, hc2, hheap, hperm2, _, _⟩ := combine_step_min hH hc (by simp)
      have hlen2 : c2.length = l.length := by
        have := hp.length_eq
        simp at this
        omega
      have hqlen : (pqPush H c2 (Node.internal ((a.freq + b.freq) % W64) a b)).length
          = l.length + 1 := by
        rw [hperm2.length_eq]
        simp [hlen2]
      have e : combineLoop H (fuel + 1) (a :: x :: l)
          = combineLoop H fuel (pqPush H (pqPop H (pqPop H (a :: x :: l)))
              (Node.internal ((a.freq + b.freq) % W64) a b)) := by
        have hb2 : (pqPop H (a :: x :: l)).head? = some b := hb
        simp [combineLoop, pqTop, hb2]
      rw [e, ← hc2]
      apply ih _ hheap
      rw [hqlen]
      simp at hlen
      omega

/-! ## Frequencies of internal nodes -/

theorem combineLoop_mono (H : HeapAlgo) : ∀ (fuel : Nat) (c r : List Node),
    combineLoop H fuel c = some r → combineLoop H (fuel + 1) c = some r := by
  intro fuel
  induction fuel with
  | zero =>
    intro c r h
    by_cases hl : c.length > 1
    · simp [combineLoop, hl] at h
    · simp only [combineLoop, hl, if_false] at h ⊢
      exact h
  | succ fuel ih =>
    intro c r h
    by_cases hl : c.length > 1
    · rw [combineLoop, if_pos hl] at h ⊢
      cases ha : pqTop c with
      | none => rw [ha] at h; cases h
      | some a =>
        rw [ha] at h
        simp only [] at h ⊢
        cases hb : pqTop (pqPop H c) with
        | none => rw [hb] at h; cases h
        | some b =>
          rw [hb] at h
          simp only [] at h ⊢
          exact ih _ _ h
    · rw [combineLoop, if_neg hl] at h ⊢
      exact h

theorem weight_eq_leaves (t : Node) : t.weight = (t.leaves.map Prod.snd).sum := by
  induction t with
  | leaf s f => simp [Node.weight, Node.leaves]
  | internal f l r ihl ihr => simp [Node.weight, Node.leaves, ihl, ihr]

theorem sum_filter_pos (f : Byte → Nat) (l : List Byte) :
    ((l.filter (fun i => decide (f i > 0))).map f).sum = (l.map f).sum := by
  induction l with
  | nil => rfl
  | cons i l ih =>
    by_cases h : f i > 0
    · simp [List.filter_cons, h, ih]
    · have h0 : f i = 0 := by omega
      simp [List.filter_cons, h, ih, h0]

theorem sum_allBytes (f : Byte → Nat) : (allBytes.map f).sum = Finset.univ.sum f := by
  have h : allBytes.toFinset = Finset.univ := by
    ext b
    simp [mem_allBytes]
  rw [← List.sum_toFinset f allBytes_nodup, h]

theorem leafList_weight (freq : Byte → Nat) :
    ((leafList freq allBytes).map Node.weight).sum = Finset.univ.sum freq := by
  rw [← sum_allBytes, ← sum_filter_pos]
  simp [leafList, Function.comp_def, Node.weight]

/-- The combine loop keeps every node frequency equal to the sum of the leaf
frequencies below it as long as the total stays below `2 ^ 64`. -/
theorem combineLoop_sums {H : HeapAlgo} (hH : H.Lawful) (total : Nat) (htotal : total < W64)
    (fuel : Nat) (c : List Node) (hc : IsHeap compareNode c) (hne : c ≠ [])
    (hlen : c.length ≤ fuel + 1)
    (hgood : ∀ t ∈ c, t.sumsOk = true ∧ t.freq = t.weight)
    (hsum : (c.map Node.weight).sum = total) :
    ∃ t, combineLoop H fuel c = some [t] ∧ t.sumsOk = true ∧ t.freq = t.weight ∧ t.weight = total := by
  have := combineLoop_invariant hH
    (fun q => (∀ t ∈ q, t.sumsOk = true ∧ t.freq = t.weight) ∧ (q.map Node.weight).sum = total)
    (by
      intro q q1 hp ⟨h1, h2⟩
      exact ⟨fun t ht => h1 t (hp.mem_iff.mpr ht), by rw [← (hp.map Node.weight).sum_eq]; exact h2⟩)
    (by
      intro a b rest ⟨h1, h2⟩ _ _
      have ha := h1 a (by simp)
      have hb := h1 b (by simp)
      simp only [List.map_cons, List.sum_cons] at h2
      have hmod : (a.freq + b.freq) % W64 = a.freq + b.freq := by
        apply Nat.mod_eq_of_lt
        rw [ha.2, hb.2]
        omega
      constructor
      · intro t ht
        rcases List.mem_append.mp ht with ht | ht
        · exact h1 t (by simp [ht])
        · simp only [List.mem_singleton] at ht
          subst ht
          refine ⟨?_, ?_⟩
          · show (decide ((a.freq + b.freq) % W64 = a.freq + b.freq) && a.sumsOk && b.sumsOk)
              = true
            rw [hmod, ha.1, hb.1]
            simp
          · show (a.freq + b.freq) % W64 = a.weight + b.weight
            rw [hmod, ha.2, hb.2]
      · simp only [List.map_append, List.sum_append, List.map_cons, List.map_nil, List.sum_cons,
          List.sum_nil, Node.weight]
        omega)
    fuel c hc hne hlen ⟨hgood, hsum⟩
  obtain ⟨t, ht, hg, hs⟩ := this
  have := hg t (by simp)
  refine ⟨t, ht, this.1, this.2, ?_⟩
  simpa using hs

/-! ## Kraft's inequality and the exchange argument -/

theorem kraftSum_perm (D : Nat) {l1 l2 : List Nat} (h : List.Perm l1 l2) :
    kraftSum D l1 = kraftSum D l2 := (h.map _).sum_eq

theorem KraftL_perm (D : Nat) {l1 l2 : List Nat} (h : List.Perm l1 l2) (hk : KraftL D l1) :
    KraftL D l2 :=
  ⟨fun l hl => hk.1 l (h.mem_iff.mpr hl), by rw [← kraftSum_perm D h]; exact hk.2⟩

theorem pairCost_perm {P Q : List (Nat × Nat)} (h : List.Perm P Q) : pairCost P = pairCost Q :=
  (h.map _).sum_eq

theorem kraftSum_cons (D l : Nat) (ls : List Nat) :
    kraftSum D (l :: ls) = 2 ^ (D - l) + kraftSum D ls := by
  simp [kraftSum]

theorem pairCost_cons (p : Nat × Nat) (P : List (Nat × Nat)) :
    pairCost (p :: P) = p.1 * p.2 + pairCost P := by
  simp [pairCost]

/-- With at least two code words no length is zero. -/
theorem KraftL_pos (D : Nat) (l : Nat) (ls : List Nat) (hne : ls ≠ [])
    (hk : KraftL D (l :: ls)) : 1 ≤ l := by
  by_contra h0
  have hl : l = 0 := by omega
  subst hl
  obtain ⟨x, xs, rfl⟩ := List.exists_cons_of_ne_nil hne
  have h2 := hk.2
  rw [kraftSum_cons, kraftSum_cons, Nat.sub_zero] at h2
  have : 0 < 2 ^ (D - x) := Nat.two_pow_pos _
  omega

/-- A list of lengths has a largest element. -/
theorem exists_max_length (P : List (Nat × Nat)) (hne : P ≠ []) :
    ∃ u L P0, List.Perm P ((u, L) :: P0) ∧ ∀ p ∈ P0, p.2 ≤ L := by
  induction P with
  | nil => exact absurd rfl hne
  | cons p P ih =>
    by_cases hP : P = []
    · subst hP
      exact ⟨p.1, p.2, [], List.Perm.refl _, by simp⟩
    · obtain ⟨u, L, P0, hp, hmax⟩ := ih hP
      by_cases hpl : p.2 ≤ L
      · refine ⟨u, L, p :: P0, ?_, ?_⟩
        · exact (List.Perm.cons p hp).trans (List.Perm.swap _ _ _)
        · intro q hq
          rcases List.mem_cons.mp hq with rfl | hq
          · exact hpl
          · exact hmax q hq
      · refine ⟨p.1, p.2, (u, L) :: P0, List.Perm.cons p hp, ?_⟩
        intro q hq
        rcases List.mem_cons.mp hq with rfl | hq
        · show L ≤ p.2
          omega
        · have := hmax q hq
          omega

/-- Every term of the Kraft sum of lengths below `L` is a multiple of `2 ^ (D - L + 1)`. -/
theorem kraftSum_dvd (D L : Nat) (hL : L ≤ D) (ls : List Nat) (h : ∀ l ∈ ls, l < L) :
    2 ^ (D - L + 1) ∣ kraftSum D ls := by
  induction ls with
  | nil => simp [kraftSum]
  | cons l ls ih =>
    rw [kraftSum_cons]
    apply Dvd.dvd.add
    · apply pow_dvd_pow
      have := h l (by simp)
      omega
    · exact ih (fun x hx => h x (by simp [hx]))

/-- A single longest code word can be shortened by one bit. -/
theorem kraft_shorten (D L : Nat) (ls : List Nat) (hne : ls ≠ []) (h : ∀ l ∈ ls, l < L)
    (hk : KraftL D (L :: ls)) : KraftL D ((L - 1) :: ls) := by
  have hLD : L ≤ D := hk.1 L (by simp)
  have hL1 : 1 ≤ L := KraftL_pos D L ls hne hk
  refine ⟨?_, ?_⟩
  · intro l hl
    rcases List.mem_cons.mp hl with rfl | hl
    · omega
    · exact hk.1 l (by simp [hl])
  · have h2 := hk.2
    rw [kraftSum_cons] at h2 ⊢
    obtain ⟨m, hm⟩ := kraftSum_dvd D L hLD ls h
    have e1 : D - (L - 1) = D - L + 1 := by omega
    have e2 : (2 : Nat) ^ D = 2 ^ (D - L + 1) * 2 ^ (L - 1) := by
      rw [← pow_add]
      congr 1
      omega
    have e3 : (2 : Nat) ^ (D - L + 1) = 2 * 2 ^ (D - L) := by
      rw [pow_succ]
      ring
    rw [e1, hm]
    rw [hm, e2, e3] at h2
    rw [e2, e3]
    have hpos : 0 < 2 ^ (D - L) := Nat.two_pow_pos _
    -- 2^(D-L) + 2 * 2^(D-L) * m ≤ 2 * 2^(D-L) * 2^(L-1)
    have h3 : 1 + 2 * m ≤ 2 * 2 ^ (L - 1) := by
      by_contra hc
      have hc2 : 2 * 2 ^ (L - 1) + 1 ≤ 1 + 2 * m := by omega
      have := Nat.mul_le_mul_left (2 ^ (D - L)) hc2
      nlinarith
    have h4 : 1 + m ≤ 2 ^ (L - 1) := by omega
    have := Nat.mul_le_mul_left (2 * 2 ^ (D - L)) h4
    nlinarith

theorem perm_cons_of_mem {α : Type} {a : α} {l : List α} (h : a ∈ l) :
    ∃ l1, List.Perm l (a :: l1) ∧ ∀ x ∈ l1, x ∈ l := by
  obtain ⟨s, t, rfl⟩ := List.append_of_mem h
  refine ⟨s ++ t, List.perm_middle, ?_⟩
  intro x hx
  rcases List.mem_append.mp hx with hx | hx
  · exact List.mem_append_left _ hx
  · exact List.mem_append_right _ (List.mem_cons_of_mem _ hx)

/-- An assignment of lengths to at least two weights is no better than one in
which two weights have the greatest length. -/
theorem kraft_two_longest (D : Nat) : ∀ (n : Nat) (P : List (Nat × Nat)),
    (P.map Prod.snd).sum = n → 2 ≤ P.length → KraftL D (P.map Prod.snd) →
    ∃ P1 L u1 u2 R, List.Perm (P1.map Prod.fst) (P.map Prod.fst) ∧ KraftL D (P1.map Prod.snd) ∧
      pairCost P1 ≤ pairCost P ∧ List.Perm P1 ((u1, L) :: (u2, L) :: R) ∧
      (∀ p ∈ R, p.2 ≤ L) := by
  intro n
  induction n using Nat.strong_induction_on with
  | _ n ih =>
    intro P hn hlen hk
    have hne : P ≠ [] := by
      intro h
      rw [h] at hlen
      simp at hlen
    obtain ⟨u, L, P0, hp, hmax⟩ := exists_max_length P hne
    have hlen0 : 1 ≤ P0.length := by
      have := hp.length_eq
      simp at this
      omega
    have hne0 : P0 ≠ [] := by
      intro h
      rw [h] at hlen0
      simp at hlen0
    by_cases hex : ∃ q ∈ P0, q.2 = L
    · obtain ⟨q, hq, hqL⟩ := hex
      obtain ⟨P00, hp0, hsub⟩ := perm_cons_of_mem hq
      refine ⟨P, L, u, q.1, P00, List.Perm.refl _, hk, le_refl _, ?_, ?_⟩
      · have : q = (q.1, L) := by rw [← hqL]
        rw [← this]
        exact hp.trans (List.Perm.cons _ hp0)
      · intro p hpm
        exact hmax p (hsub p hpm)
    · have hlt : ∀ l ∈ P0.map Prod.snd, l < L := by
        intro l hl
        obtain ⟨q, hq, rfl⟩ := List.mem_map.mp hl
        have h1 := hmax q hq
        have h2 : q.2 ≠ L := fun h => hex ⟨q, hq, h⟩
        omega
      have hk1 : KraftL D (L :: P0.map Prod.snd) :=
        KraftL_perm D (hp.map Prod.snd) hk
      have hL1 : 1 ≤ L := KraftL_pos D L _ (by simpa using hne0) hk1
      have hk2 := kraft_shorten D L _ (by simpa using hne0) hlt hk1
      have hsum : (P.map Prod.snd).sum = L + (P0.map Prod.snd).sum := by
        rw [(hp.map Prod.snd).sum_eq]
        simp
      obtain ⟨P1, L1, u1, u2, R, h1, h2, h3, h4, h5⟩ :=
        ih (L - 1 + (P0.map Prod.snd).sum) (by omega) ((u, L - 1) :: P0) (by simp)
          (by simp; omega) (by simpa using hk2)
      refine ⟨P1, L1, u1, u2, R, ?_, h2, ?_, h4, h5⟩
      · exact h1.trans (hp.map Prod.fst).symm
      · have hc : pairCost ((u, L - 1) :: P0) ≤ pairCost P := by
          rw [pairCost_perm hp, pairCost_cons, pairCost_cons]
          simp only
          have : u * (L - 1) ≤ u * L := Nat.mul_le_mul_left u (by omega)
          omega
        omega

/-- The greatest length can be given to a least weight without increasing the cost. -/
theorem kraft_swap_longest (w l L : Nat) (P0 : List (Nat × Nat))
    (hmin : ∀ q ∈ P0, w ≤ q.1) (hlL : l ≤ L) (hex : l = L ∨ ∃ q ∈ P0, q.2 = L) :
    ∃ R, List.Perm (R.map Prod.fst) (P0.map Prod.fst) ∧
      List.Perm (L :: R.map Prod.snd) (l :: P0.map Prod.snd) ∧
      pairCost ((w, L) :: R) ≤ pairCost ((w, l) :: P0) := by
  by_cases hl : l = L
  · subst hl
    exact ⟨P0, List.Perm.refl _, List.Perm.refl _, le_refl _⟩
  · obtain ⟨q, hq, hqL⟩ := hex.resolve_left hl
    obtain ⟨P00, hp0, _⟩ := perm_cons_of_mem hq
    refine ⟨(q.1, l) :: P00, ?_, ?_, ?_⟩
    · simpa using (hp0.map Prod.fst).symm
    · have := (hp0.map Prod.snd).symm
      simp only [List.map_cons, hqL] at this ⊢
      exact (List.Perm.swap _ _ _).trans (List.Perm.cons l this)
    · rw [pairCost_cons, pairCost_cons, pairCost_cons, pairCost_perm hp0, pairCost_cons]
      simp only [hqL]
      have hwq := hmin q hq
      have : w * L + q.1 * l ≤ w * l + q.1 * L := by
        obtain ⟨d, rfl⟩ : ∃ d, L = l + d := ⟨L - l, by omega⟩
        obtain ⟨e, he⟩ : ∃ e, q.1 = w + e := ⟨q.1 - w, by omega⟩
        rw [he]
        nlinarith
      omega

theorem exists_pair_of_mem_fst {P : List (Nat × Nat)} {w : Nat} (h : w ∈ P.map Prod.fst) :
    ∃ l P0, List.Perm P ((w, l) :: P0) := by
  obtain ⟨p, hp, rfl⟩ := List.mem_map.mp h
  obtain ⟨P0, hperm, _⟩ := perm_cons_of_mem hp
  exact ⟨p.2, P0, hperm⟩

/-- The step of Huffman's argument on lengths: an assignment of lengths to the
weights `wa, wb, rest`, where `wa` and `wb` are least, yields an assignment to
`wa + wb, rest` whose cost is smaller by at least `wa + wb`. -/
theorem kraft_merge (D wa wb : Nat) (rest : List Nat) (P : List (Nat × Nat))
    (hP : List.Perm (P.map Prod.fst) (wa :: wb :: rest)) (hk : KraftL D (P.map Prod.snd))
    (hmin1 : ∀ y ∈ wb :: rest, wa ≤ y) (hmin2 : ∀ y ∈ rest, wb ≤ y) :
    ∃ Q, List.Perm (Q.map Prod.fst) ((wa + wb) :: rest) ∧ KraftL D (Q.map Prod.snd) ∧
      pairCost Q + (wa + wb) ≤ pairCost P := by
  have hlen : 2 ≤ P.length := by
    have := hP.length_eq
    simp at this
    omega
  obtain ⟨P1, L, u1, u2, R0, h1, h2, h3, h4, h5⟩ := kraft_two_longest D _ P rfl hlen hk
  have hmaxP1 : ∀ p ∈ P1, p.2 ≤ L := by
    intro p hp
    have := h4.mem_iff.mp hp
    simp only [List.mem_cons] at this
    rcases this with rfl | rfl | hp
    · exact le_refl _
    · exact le_refl _
    · exact h5 p hp
  -- the entry of weight `wa`
  have hwa : wa ∈ P1.map Prod.fst := (h1.trans hP).mem_iff.mpr (by simp)
  obtain ⟨la, P0, hpa⟩ := exists_pair_of_mem_fst hwa
  have hP0 : List.Perm (P0.map Prod.fst) (wb :: rest) := by
    have := ((hpa.map Prod.fst).symm.trans (h1.trans hP))
    simpa using this.cons_inv
  have hminP0 : ∀ q ∈ P0, wa ≤ q.1 := by
    intro q hq
    exact hmin1 q.1 (hP0.mem_iff.mp (List.mem_map_of_mem _ hq))
  have hla : la ≤ L := hmaxP1 (wa, la) (hpa.mem_iff.mpr (by simp))
  have hexa : la = L ∨ ∃ q ∈ P0, q.2 = L := by
    have : (u1, L) ∈ (wa, la) :: P0 := hpa.mem_iff.mp (h4.mem_iff.mpr (by simp))
    rcases List.mem_cons.mp this with h | h
    · left
      exact (congrArg Prod.snd h).symm
    · right
      exact ⟨(u1, L), h, rfl⟩
  obtain ⟨R, hR1, hR2, hR3⟩ := kraft_swap_longest wa la L P0 hminP0 hla hexa
  -- lengths of `P1` are `L :: lengths of R`
  have hsndP1 : List.Perm (P1.map Prod.snd) (L :: R.map Prod.snd) := by
    have := hpa.map Prod.snd
    simp only [List.map_cons] at this
    exact this.trans hR2.symm
  have hLR : L ∈ R.map Prod.snd := by
    have h6 : List.Perm (L :: L :: R0.map Prod.snd) (L :: R.map Prod.snd) := by
      have := (h4.map Prod.snd).symm.trans hsndP1
      simpa using this
    exact h6.cons_inv.mem_iff.mp (by simp)
  have hmaxR : ∀ q ∈ R, q.2 ≤ L := by
    intro q hq
    have : q.2 ∈ P1.map Prod.snd :=
      hsndP1.mem_iff.mpr (List.mem_cons_of_mem _ (List.mem_map_of_mem _ hq))
    obtain ⟨p, hp, hpe⟩ := List.mem_map.mp this
    rw [← hpe]
    exact hmaxP1 p hp
  -- the entry of weight `wb`
  have hwb : wb ∈ R.map Prod.fst := (hR1.trans hP0).mem_iff.mpr (by simp)
  obtain ⟨lb, R1, hpb⟩ := exists_pair_of_mem_fst hwb
  have hR1fst : List.Perm (R1.map Prod.fst) rest := by
    have := ((hpb.map Prod.fst).symm.trans (hR1.trans hP0))
    simpa using this.cons_inv
  have hminR1 : ∀ q ∈ R1, wb ≤ q.1 := by
    intro q hq
    exact hmin2 q.1 (hR1fst.mem_iff.mp (List.mem_map_of_mem _ hq))
  have hlb : lb ≤ L := hmaxR (wb, lb) (hpb.mem_iff.mpr (by simp))
  have hexb : lb = L ∨ ∃ q ∈ R1, q.2 = L := by
    obtain ⟨q, hq, hqL⟩ := List.mem_map.mp hLR
    have : q ∈ (wb, lb) :: R1 := hpb.mem_iff.mp hq
    rcases List.mem_cons.mp this with h | h
    · left
      rw [← hqL, h]
    · right
      exact ⟨q, h, hqL⟩
  obtain ⟨R2, hS1, hS2, hS3⟩ := kraft_swap_longest wb lb L R1 hminR1 hlb hexb
  -- the merged assignment
  have hsnd : List.Perm (P1.map Prod.snd) (L :: L :: R2.map Prod.snd) := by
    refine hsndP1.trans (List.Perm.cons L ?_)
    have := hpb.map Prod.snd
    simp only [List.map_cons] at this
    exact this.trans hS2.symm
  have hk2 : KraftL D (L :: L :: R2.map Prod.snd) := KraftL_perm D hsnd h2
  have hL1 : 1 ≤ L := KraftL_pos D L _ (by simp) hk2
  have hLD : L ≤ D := hk2.1 L (by simp)
  refine ⟨(wa + wb, L - 1) :: R2, ?_, ?_, ?_⟩
  · simpa using hS1.trans hR1fst
  · refine ⟨?_, ?_⟩
    · intro l hl
      simp only [List.map_cons, List.mem_cons] at hl
      rcases hl with rfl | hl
      · omega
      · exact hk2.1 l (by simp [hl])
    · have := hk2.2
      simp only [List.map_cons, kraftSum_cons] at this ⊢
      have e : (2 : Nat) ^ (D - (L - 1)) = 2 ^ (D - L) + 2 ^ (D - L) := by
        have : D - (L - 1) = (D - L) + 1 := by omega
        rw [this, pow_succ]
        ring
      omega
  · have c1 : pairCost ((wa, L) :: R) = wa * L + pairCost R := by rw [pairCost_cons]
    have c2 : pairCost R = wb * lb + pairCost R1 := by rw [pairCost_perm hpb, pairCost_cons]
    have c3 : pairCost ((wb, L) :: R2) = wb * L + pairCost R2 := by rw [pairCost_cons]
    have c4 : pairCost ((wb, lb) :: R1) = wb * lb + pairCost R1 := by rw [pairCost_cons]
    have c5 : pairCost ((wa, la) :: P0) = pairCost P1 := (pairCost_perm hpa).symm
    have c6 : pairCost ((wa + wb, L - 1) :: R2) = (wa + wb) * (L - 1) + pairCost R2 := by
      rw [pairCost_cons]
    have c7 : (wa + wb) * (L - 1) + (wa + wb) = wa * L + wb * L := by
      obtain ⟨k, rfl⟩ : ∃ k, L = k + 1 := ⟨L - 1, by omega⟩
      simp only [Nat.add_sub_cancel]
      ring
    omega

/-! ## Kraft's inequality for prefix-free words -/

theorem mem_tailsOf (b : Bool) (ws : List (List Bool)) (t : List Bool) :
    t ∈ tailsOf b ws ↔ (b :: t) ∈ ws := by
  unfold tailsOf
  rw [List.mem_filterMap]
  constructor
  · rintro ⟨w, hw, h⟩
    cases w with
    | nil => simp at h
    | cons c t1 =>
      by_cases hc : c = b
      · simp only [hc, if_true, Option.some.injEq] at h
        rw [← h, ← hc]
        exact hw
      · simp [hc] at h
  · intro h
    exact ⟨b :: t, h, by simp⟩

theorem tailsOf_pairwise (b : Bool) (ws : List (List Bool)) (h : ws.Pairwise Incomparable) :
    (tailsOf b ws).Pairwise Incomparable := by
  unfold tailsOf
  refine List.Pairwise.filterMap _ ?_ h
  intro w1 w2 hR t1 ht1 t2 ht2
  cases w1 with
  | nil => simp at ht1
  | cons c1 s1 =>
    cases w2 with
    | nil => simp at ht2
    | cons c2 s2 =>
      by_cases hc1 : c1 = b
      · by_cases hc2 : c2 = b
        · simp only [hc1, hc2, if_true, Option.mem_def, Option.some.injEq] at ht1 ht2
          subst ht1 ht2 hc1 hc2
          exact ⟨fun hp => hR.1 ((List.prefix_cons_inj _).mpr hp),
            fun hp => hR.2 ((List.prefix_cons_inj _).mpr hp)⟩
        · simp [hc2] at ht2
      · simp [hc1] at ht1

theorem kraftSum_split (D : Nat) (ws : List (List Bool)) (hne : [] ∉ ws) :
    kraftSum (D + 1) (ws.map List.length)
      = kraftSum D ((tailsOf false ws).map List.length)
        + kraftSum D ((tailsOf true ws).map List.length) := by
  induction ws with
  | nil => rfl
  | cons w ws ih =>
    have hne2 : [] ∉ ws := fun h => hne (List.mem_cons_of_mem _ h)
    have ih2 := ih hne2
    cases w with
    | nil => exact absurd (List.mem_cons_self _ _) hne
    | cons c t =>
      cases c with
      | false =>
        have e0 : tailsOf false ((false :: t) :: ws) = t :: tailsOf false ws := by
          simp [tailsOf]
        have e1 : tailsOf true ((false :: t) :: ws) = tailsOf true ws := by
          simp [tailsOf]
        rw [e0, e1, List.map_cons, List.map_cons, kraftSum_cons, kraftSum_cons, ih2,
          List.length_cons, Nat.add_sub_add_right]
        omega
      | true =>
        have e0 : tailsOf false ((true :: t) :: ws) = tailsOf false ws := by
          simp [tailsOf]
        have e1 : tailsOf true ((true :: t) :: ws) = t :: tailsOf true ws := by
          simp [tailsOf]
        rw [e0, e1, List.map_cons, List.map_cons, kraftSum_cons, kraftSum_cons, ih2,
          List.length_cons, Nat.add_sub_add_right]
        omega

theorem pairwise_nil_mem (ws : List (List Bool)) (h : ws.Pairwise Incomparable)
    (hmem : [] ∈ ws) : ws = [[]] := by
  cases ws with
  | nil => simp at hmem
  | cons w ws1 =>
    rw [List.pairwise_cons] at h
    cases w with
    | nil =>
      cases ws1 with
      | nil => rfl
      | cons v vs => exact absurd (List.nil_prefix) (h.1 v (by simp)).1
    | cons c t =>
      have h2 : [] ∈ ws1 := by simpa using hmem
      exact absurd (List.nil_prefix) (h.1 [] h2).2

/-- Kraft's inequality: the lengths of words none of which is a prefix of
another satisfy `Σ 2 ^ (D - length) ≤ 2 ^ D`. -/
theorem kraft_of_prefix_free : ∀ (D : Nat) (ws : List (List Bool)),
    ws.Pairwise Incomparable → (∀ w ∈ ws, w.length ≤ D) →
      kraftSum D (ws.map List.length) ≤ 2 ^ D := by
  intro D
  induction D with
  | zero =>
    intro ws hp hlen
    cases ws with
    | nil => simp [kraftSum]
    | cons w ws1 =>
      have hw : w = [] := List.length_eq_zero.mp (Nat.le_zero.mp (hlen w (by simp)))
      subst hw
      have := pairwise_nil_mem _ hp (by simp)
      rw [this]
      simp [kraftSum]
  | succ D ih =>
    intro ws hp hlen
    by_cases hmem : [] ∈ ws
    · rw [pairwise_nil_mem ws hp hmem]
      simp [kraftSum]
    · rw [kraftSum_split D ws hmem]
      have h0 := ih (tailsOf false ws) (tailsOf_pairwise false ws hp) (by
        intro t ht
        have := hlen _ ((mem_tailsOf false ws t).mp ht)
        simp at this
        omega)
      have h1 := ih (tailsOf true ws) (tailsOf_pairwise true ws hp) (by
        intro t ht
        have := hlen _ ((mem_tailsOf true ws t).mp ht)
        simp at this
        omega)
      rw [pow_succ]
      omega

/-! ## Optimality of the built tree -/

theorem sum_mul_succ {α : Type} (L : List α) (w g : α → Nat) :
    (L.map (fun p => w p * (g p + 1))).sum = (L.map (fun p => w p * g p)).sum + (L.map w).sum := by
  induction L with
  | nil => rfl
  | cons a L ih =>
    simp only [List.map_cons, List.sum_cons, ih]
    ring

theorem mem_symbols_of_mem_leaves {t : Node} {p : Byte × Nat} (h : p ∈ t.leaves) :
    p.1 ∈ t.symbols := by
  rw [symbols_eq_leaves]
  exact List.mem_map_of_mem _ h

/-- The cost of a tree with distinct leaf symbols is the sum over the leaves of
frequency times path length. -/
theorem cost_eq_paths (t : Node) : t.symbols.Nodup →
    t.cost = (t.leaves.map (fun p => p.2 * (t.path p.1).length)).sum := by
  induction t with
  | leaf s f => intro _; simp [Node.cost, Node.leaves, Node.path]
  | internal f l r ihl ihr =>
    intro hnd
    simp only [Node.symbols] at hnd
    have hl := (List.nodup_append.mp hnd).1
    have hr := (List.nodup_append.mp hnd).2.1
    have hd := (List.nodup_append.mp hnd).2.2
    have el : l.leaves.map (fun p => p.2 * ((Node.internal f l r).path p.1).length)
        = l.leaves.map (fun p => p.2 * ((l.path p.1).length + 1)) := by
      apply List.map_congr_left
      intro p hp
      have h1 := mem_symbols_of_mem_leaves hp
      have h2 : p.1 ∉ r.symbols := fun hx => hd h1 hx
      simp [Node.path, h2]
    have er : r.leaves.map (fun p => p.2 * ((Node.internal f l r).path p.1).length)
        = r.leaves.map (fun p => p.2 * ((r.path p.1).length + 1)) := by
      apply List.map_congr_left
      intro p hp
      have h1 := mem_symbols_of_mem_leaves hp
      simp [Node.path, h1]
    simp only [Node.cost, Node.leaves, List.map_append, List.sum_append, el, er, sum_mul_succ,
      ← ihl hl, ← ihr hr, weight_eq_leaves]
    omega

/-- The combine loop on a lawful heap builds a tree whose cost is at most the
cost of any assignment of lengths, subject to Kraft's inequality, to the nodes
of the queue, added to the cost of those nodes. -/
theorem combineLoop_cost {H : HeapAlgo} (hH : H.Lawful) (total : Nat) (htotal : total < W64)
    (D K0 : Nat) (fuel : Nat) (c : List Node) (hc : IsHeap compareNode c) (hne : c ≠ [])
    (hlen : c.length ≤ fuel + 1)
    (hgood : ∀ t ∈ c, t.freq = t.weight)
    (hsum : (c.map Node.weight).sum = total)
    (P0 : List (Nat × Nat)) (hP0 : List.Perm (P0.map Prod.fst) (c.map Node.freq))
    (hk : KraftL D (P0.map Prod.snd))
    (hK0 : (c.map Node.cost).sum + pairCost P0 ≤ K0) :
    ∃ t, combineLoop H fuel c = some [t] ∧ t.cost ≤ K0 := by
  have := combineLoop_invariant hH
    (fun q => (∀ t ∈ q, t.freq = t.weight) ∧ (q.map Node.weight).sum = total ∧
      ∃ P, List.Perm (P.map Prod.fst) (q.map Node.freq) ∧ KraftL D (P.map Prod.snd) ∧
        (q.map Node.cost).sum + pairCost P ≤ K0)
    (by
      rintro q q1 hp ⟨h1, h2, P, h3, h4, h5⟩
      refine ⟨fun t ht => h1 t (hp.mem_iff.mpr ht), ?_, P, h3.trans (hp.map _), h4, ?_⟩
      · rw [← (hp.map Node.weight).sum_eq]
        exact h2
      · rw [← (hp.map Node.cost).sum_eq]
        exact h5)
    (by
      rintro a b rest ⟨h1, h2, P, h3, h4, h5⟩ hmin1 hmin2
      have ha := h1 a (by simp)
      have hb := h1 b (by simp)
      simp only [List.map_cons, List.sum_cons] at h2 h3 h5
      have hmod : (a.freq + b.freq) % W64 = a.freq + b.freq := by
        apply Nat.mod_eq_of_lt
        rw [ha, hb]
        omega
      obtain ⟨Q, hQ1, hQ2, hQ3⟩ := kraft_merge D a.freq b.freq (rest.map Node.freq) P h3 h4
        (by
          intro y hy
          rcases List.mem_cons.mp hy with rfl | hy
          · exact hmin1 b (by simp)
          · obtain ⟨z, hz, rfl⟩ := List.mem_map.mp hy
            exact hmin1 z (by simp [hz]))
        (by
          intro y hy
          obtain ⟨z, hz, rfl⟩ := List.mem_map.mp hy
          exact hmin2 z hz)
      refine ⟨?_, ?_, Q, ?_, hQ2, ?_⟩
      · intro t ht
        rcases List.mem_append.mp ht with ht | ht
        · exact h1 t (by simp [ht])
        · simp only [List.mem_singleton] at ht
          subst ht
          show (a.freq + b.freq) % W64 = a.weight + b.weight
          rw [hmod, ha, hb]
      · simp only [List.map_append, List.sum_append, List.map_cons, List.map_nil, List.sum_cons,
          List.sum_nil, Node.weight]
        omega
      · simp only [List.map_append, List.map_cons, List.map_nil]
        have e : (Node.internal ((a.freq + b.freq) % W64) a b).freq = a.freq + b.freq := hmod
        rw [e]
        exact hQ1.trans (List.perm_append_singleton _ _).symm
      · simp only [List.map_append, List.sum_append, List.map_cons, List.map_nil, List.sum_cons,
          List.sum_nil, Node.cost]
        rw [← ha, ← hb]
        omega)
    fuel c hc hne hlen ⟨hgood, hsum, P0, hP0, hk, hK0⟩
  obtain ⟨t, ht, _, _, P, _, _, h5⟩ := this
  refine ⟨t, ht, ?_⟩
  simp only [List.map_cons, List.map_nil, List.sum_cons, List.sum_nil] at h5
  omega

theorem sum_filter_mul (freq : Byte → Nat) (h : Byte → Nat) :
    ((allBytes.filter (fun i => decide (freq i > 0))).map (fun i => freq i * h i)).sum
      = Finset.univ.sum (fun i => freq i * h i) := by
  rw [← sum_allBytes]
  induction allBytes with
  | nil => rfl
  | cons i l ih =>
    by_cases hi : freq i > 0
    · simp [List.filter_cons, hi, ih]
    · have h0 : freq i = 0 := by omega
      simp [List.filter_cons, hi, ih, h0]

theorem le_sum_of_mem_nat {l : List Nat} {x : Nat} (h : x ∈ l) : x ≤ l.sum := by
  induction l with
  | nil => simp at h
  | cons a l ih =>
    rcases List.mem_cons.mp h with rfl | h
    · simp
    · have := ih h
      simp only [List.sum_cons]
      omega

/-- The cost of the tree built from a frequency table is at most the cost of
any assignment of bit-strings to the byte values with a non-zero count in
which no bit-string is a prefix of another. -/
theorem buildTree_cost_le {H : HeapAlgo} (hH : H.Lawful) (freq : Byte → Nat)
    (hk : 1 ≤ uniqueCount freq) (hsum : Finset.univ.sum freq < W64) (root : Node)
    (hroot : buildTree H freq = some root) (code1 : Byte → List Bool)
    (hpf : ∀ s t, 0 < freq s → 0 < freq t → s ≠ t → ¬ code1 s <+: code1 t) :
    root.cost ≤ Finset.univ.sum (fun s => freq s * (code1 s).length) := by
  obtain ⟨hheap, hperm⟩ := initialQueue_spec hH freq
  have hlen := initialQueue_length hH freq
  have hne : initialQueue H freq ≠ [] := by
    intro h
    rw [h] at hlen
    simp at hlen
    omega
  have hgood : ∀ t ∈ initialQueue H freq, t.freq = t.weight ∧ t.cost = 0 := by
    intro t ht
    have := hperm.mem_iff.mp ht
    simp only [leafList, List.mem_map] at this
    obtain ⟨i, _, hi⟩ := this
    rw [← hi]
    exact ⟨rfl, rfl⟩
  have hw : ((initialQueue H freq).map Node.weight).sum = Finset.univ.sum freq := by
    rw [(hperm.map Node.weight).sum_eq, leafList_weight]
  have hcost0 : ((initialQueue H freq).map Node.cost).sum = 0 := by
    apply List.sum_eq_zero
    intro x hx
    obtain ⟨t, ht, rfl⟩ := List.mem_map.mp hx
    exact (hgood t ht).2
  -- the competing assignment as a list of (weight, length) pairs
  have hP0fst : ((allBytes.filter (fun i => decide (freq i > 0))).map
      (fun i => (freq i, (code1 i).length))).map Prod.fst
        = (leafList freq allBytes).map Node.freq := by
    simp [leafList, Function.comp_def, Node.freq]
  have hws : ((allBytes.filter (fun i => decide (freq i > 0))).map code1).Pairwise
      Incomparable := by
    rw [List.pairwise_map]
    have hnd : (allBytes.filter (fun i => decide (freq i > 0))).Pairwise (fun a b => a ≠ b) :=
      allBytes_nodup.filter _
    refine List.Pairwise.imp_of_mem ?_ hnd
    intro a b ha hb hab
    have ha2 : 0 < freq a := by simpa using (List.mem_filter.mp ha).2
    have hb2 : 0 < freq b := by simpa using (List.mem_filter.mp hb).2
    exact ⟨hpf a b ha2 hb2 hab, hpf b a hb2 ha2 (Ne.symm hab)⟩
  have hkraft := kraft_of_prefix_free
    ((((allBytes.filter (fun i => decide (freq i > 0))).map code1).map List.length).sum)
    _ hws (by
      intro w hw
      exact le_sum_of_mem_nat (List.mem_map_of_mem _ hw))
  have hK : KraftL ((((allBytes.filter (fun i => decide (freq i > 0))).map code1).map
        List.length).sum)
      (((allBytes.filter (fun i => decide (freq i > 0))).map
        (fun i => (freq i, (code1 i).length))).map Prod.snd) := by
    have e : ((allBytes.filter (fun i => decide (freq i > 0))).map
        (fun i => (freq i, (code1 i).length))).map Prod.snd
        = ((allBytes.filter (fun i => decide (freq i > 0))).map code1).map List.length := by
      simp [Function.comp_def]
    rw [e]
    exact ⟨fun l hl => le_sum_of_mem_nat hl, hkraft⟩
  obtain ⟨t, ht, hcost⟩ := combineLoop_cost hH _ hsum _
    (pairCost ((allBytes.filter (fun i => decide (freq i > 0))).map
      (fun i => (freq i, (code1 i).length))))
    (initialQueue H freq).length (initialQueue H freq) hheap hne (by omega)
    (fun t ht => (hgood t ht).1) hw _
    (by rw [hP0fst]; exact (hperm.map Node.freq).symm) hK (by rw [hcost0]; omega)
  have hrt : root = t := by
    unfold buildTree at hroot
    rw [ht] at hroot
    simpa [pqTop] using hroot.symm
  rw [hrt]
  refine le_trans hcost (le_of_eq ?_)
  rw [← sum_filter_mul]
  simp [pairCost, Function.comp_def]

theorem countFrequencies_sum (X : List Byte) (hX : X.length < W64) :
    Finset.univ.sum (countFrequencies X).freq = X.length := by
  rw [← sum_count_eq_length X]
  exact Finset.sum_congr rfl (fun b _ => (countFrequencies_spec X hX).1 b)

/-! ## The order among equal frequencies depends on the heap algorithms -/

theorem insertFront_perm {α : Type} (comp : α → α → Bool) (x : α) (l : List α) :
    List.Perm (insertFront comp x l) (x :: l) := by
  induction l with
  | nil => exact List.Perm.refl _
  | cons y ys ih =>
    unfold insertFront
    split
    · exact (List.Perm.cons y ih).trans (List.Perm.swap x y ys)
    · exact List.Perm.refl _

theorem sortFront_perm {α : Type} (comp : α → α → Bool) (l : List α) :
    List.Perm (sortFront comp l) l := by
  induction l with
  | nil => exact List.Perm.refl _
  | cons x xs ih =>
    exact (insertFront_perm comp x (sortFront comp xs)).trans (List.Perm.cons x ih)

theorem insertFront_sorted {α : Type} {comp : α → α → Bool} (sw : StrictWeak comp) (x : α)
    (l : List α) (hl : l.Pairwise (fun a b => comp a b = false)) :
    (insertFront comp x l).Pairwise (fun a b => comp a b = false) := by
  induction l with
  | nil => simp [insertFront]
  | cons y ys ih =>
    rw [List.pairwise_cons] at hl
    unfold insertFront
    split
    · rename_i hxy
      refine List.pairwise_cons.mpr ⟨?_, ih hl.2⟩
      intro z hz
      rcases List.mem_cons.mp ((insertFront_perm comp x ys).mem_iff.mp hz) with rfl | hz
      · exact sw.asymm _ _ hxy
      · exact hl.1 z hz
    · rename_i hxy
      have hxy2 : comp x y = false := by simpa using hxy
      refine List.pairwise_cons.mpr ⟨?_, List.pairwise_cons.mpr hl⟩
      intro z hz
      rcases List.mem_cons.mp hz with rfl | hz
      · exact hxy2
      · exact sw.negTrans x y z hxy2 (hl.1 z hz)

theorem sortFront_sorted {α : Type} {comp : α → α → Bool} (sw : StrictWeak comp) (l : List α) :
    (sortFront comp l).Pairwise (fun a b => comp a b = false) := by
  induction l with
  | nil => simp [sortFront]
  | cons x xs ih => exact insertFront_sorted sw x _ ih

theorem insertFront_map {α β : Type} (f : α → β) (ca : α → α → Bool) (cb : β → β → Bool)
    (h : ∀ a b, cb (f a) (f b) = ca a b) (x : α) (l : List α) :
    insertFront cb (f x) (l.map f) = (insertFront ca x l).map f := by
  induction l with
  | nil => rfl
  | cons y ys ih =>
    simp only [List.map_cons, insertFront, h]
    split
    · simp [ih]
    · rfl

theorem sortFront_map {α β : Type} (f : α → β) (ca : α → α → Bool) (cb : β → β → Bool)
    (h : ∀ a b, cb (f a) (f b) = ca a b) (l : List α) :
    sortFront cb (l.map f) = (sortFront ca l).map f := by
  induction l with
  | nil => rfl
  | cons x xs ih =>
    simp only [List.map_cons, sortFront, ih]
    exact insertFront_map f ca cb h x _

theorem frontHeap_lawful : frontHeap.Lawful where
  push_perm := fun comp l x _ _ => sortFront_perm comp (l ++ [x])
  push_heap := fun comp l x sw _ => isHeap_of_sorted (sortFront_sorted sw (l ++ [x]))
  pop_spec := fun comp x l sw _ =>
    ⟨sortFront comp l, rfl, sortFront_perm comp l, isHeap_of_sorted (sortFront_sorted sw l)⟩
  push_natural := fun f ca cb l h => sortFront_map f ca cb h l
  pop_natural := fun f ca cb l h => by
    cases l with
    | nil => rfl
    | cons x xs =>
      show sortFront cb (xs.map f) ++ [f x] = (sortFront ca xs ++ [x]).map f
      rw [sortFront_map f ca cb h xs]
      simp

/-- Two heap implementations that both meet the contract of the standard build
different trees for the input `"ab"`, whose two byte values have equal
frequency, and `compress` writes different containers: the order among nodes
of equal frequency is fixed by the heap algorithms, not by `CompareNode`. -/
theorem tie_break_depends_on_heap :
    sortingHeap.Lawful ∧ frontHeap.Lawful ∧
    buildTree sortingHeap (countFrequencies [97, 98]).freq
      = some (Node.internal 2 (Node.leaf 98 1) (Node.leaf 97 1)) ∧
    buildTree frontHeap (countFrequencies [97, 98]).freq
      = some (Node.internal 2 (Node.leaf 97 1) (Node.leaf 98 1)) ∧
    compress sortingHeap [97, 98] ≠ compress frontHeap [97, 98] := by
  refine ⟨sortingHeap_lawful, frontHeap_lawful, by decide, by decide, by decide⟩

/-! # The claims of the specification -/

/-- C1 (round trip for every non-empty input) fails on the one-byte input
`"a"`: on every lawful heap `compress` returns `true` with a 22-byte container,
and `decompress` on that container reaches undefined behaviour (the root of the
tree is a leaf, the first step of the decoding loop makes `cur` null and
dereferences it) instead of returning the input. -/
theorem roundtrip_single_byte_undefined (H : HeapAlgo) (hH : H.Lawful) :
    compress H [97] = Outcome.returned true
      (some [1, 0, 0, 0, 0, 0, 0, 0, 1, 0, 0, 0, 97, 1, 0, 0, 0, 0, 0, 0, 0, 0]) ∧
    decompress H [1, 0, 0, 0, 0, 0, 0, 0, 1, 0, 0, 0, 97, 1, 0, 0, 0, 0, 0, 0, 0, 0]
      = Outcome.undefined := by
  have h := single_value hH 97 1 (by decide) (by decide)
  have e : header (countFrequencies (List.replicate 1 (97 : Byte))) ++ packBits (List.replicate 1 false)
      = [1, 0, 0, 0, 0, 0, 0, 0, 1, 0, 0, 0, 97, 1, 0, 0, 0, 0, 0, 0, 0, 0] := by decide
  rw [e] at h
  exact ⟨h.2.2.1, h.2.2.2⟩

theorem roundtrip_single_byte_undefined_witness :
    sortingHeap.Lawful ∧
    compress sortingHeap [97] = Outcome.returned true
      (some [1, 0, 0, 0, 0, 0, 0, 0, 1, 0, 0, 0, 97, 1, 0, 0, 0, 0, 0, 0, 0, 0]) ∧
    decompress sortingHeap [1, 0, 0, 0, 0, 0, 0, 0, 1, 0, 0, 0, 97, 1, 0, 0, 0, 0, 0, 0, 0, 0]
      = Outcome.undefined :=
  ⟨sortingHeap_lawful, roundtrip_single_byte_undefined sortingHeap sortingHeap_lawful⟩

/-- C2 (degenerate alphabet): for every byte value `b` and every `n ≥ 1` (below
`2 ^ 64`), the input of `n` copies of `b` is compressed with the single-leaf tree
and the code `"0"` for `b`, the body being `n` zero bits; but `decompress` on
that container does not output the `n` copies of `b`: it steps from the leaf
root to a missing child and reaches undefined behaviour. -/
theorem degenerate_alphabet_decode_undefined (H : HeapAlgo) (hH : H.Lawful) (b : Byte) (n : Nat)
    (hn : 1 ≤ n) (hlt : n < 2 ^ 64) :
    buildTree H (countFrequencies (List.replicate n b)).freq = some (Node.leaf b n) ∧
    codeTable (Node.leaf b n) b = ['0'] ∧
    compress H (List.replicate n b) = Outcome.returned true
      (some (header (countFrequencies (List.replicate n b)) ++ packBits (List.replicate n false))) ∧
    decompress H (header (countFrequencies (List.replicate n b)) ++ packBits (List.replicate n false))
      = Outcome.undefined :=
  single_value hH b n hn hlt

theorem degenerate_alphabet_decode_undefined_witness :
    sortingHeap.Lawful ∧ 1 ≤ 3 ∧ 3 < 2 ^ 64 ∧
    buildTree sortingHeap (countFrequencies (List.replicate 3 (97 : Byte))).freq
      = some (Node.leaf 97 3) ∧
    codeTable (Node.leaf 97 3) 97 = ['0'] ∧
    compress sortingHeap (List.replicate 3 97) = Outcome.returned true
      (some (header (countFrequencies (List.replicate 3 (97 : Byte)))
        ++ packBits (List.replicate 3 false))) ∧
    decompress sortingHeap (header (countFrequencies (List.replicate 3 (97 : Byte)))
        ++ packBits (List.replicate 3 false))
      = Outcome.undefined :=
  ⟨sortingHeap_lawful, by decide, by decide,
    degenerate_alphabet_decode_undefined sortingHeap sortingHeap_lawful 97 3 (by decide) (by decide)⟩

/-- C3 (truncated stream) fails: `compress` turns `"aab"` into the 30-byte header
`aabHeader` followed by one body byte; on the header alone the very first
`readBit` returns the end-of-data value `-1`, yet `decompress` returns `true`,
having written `"aaa"` (the value `-1` is taken for a one bit).  More generally
`decompress` returns `false` on no readable file at all. -/
theorem truncated_stream_reports_success (H : HeapAlgo) (hH : H.Lawful) :
    compress H aab = Outcome.returned true (some (aabHeader ++ [192])) ∧
    ((BitReader.new []).readBit).1 = -1 ∧
    decompress H aabHeader = Outcome.returned true (some [97, 97, 97]) ∧
    (∀ file sink, decompress H file ≠ Outcome.returned false sink) := by
  have hroot := aab_tree hH
  have hh : header (countFrequencies aab) = aabHeader := by decide
  refine ⟨?_, by decide, ?_, decompress_never_false H⟩
  · obtain ⟨root, hr, hc⟩ := compress_eq hH aab (by decide)
    rw [hroot] at hr
    cases hr
    rw [hc, hh]
    have : packBits (codeBits (codeTable (Node.internal 3 (Node.leaf 98 1) (Node.leaf 97 2))) aab)
        = [192] := by decide
    rw [this]
  · have := decompress_header H (countFrequencies aab)
      (countFrequencies_lt aab (by decide)) (by decide) []
    rw [hh, List.append_nil] at this
    rw [this]
    unfold decodeBody
    rw [hroot]
    have : decodeLoop (Node.internal 3 (Node.leaf 98 1) (Node.leaf 97 2))
        (countFrequencies aab).totalBytes (BitReader.new []) [] = some [97, 97, 97] := by decide
    simp only [this]

theorem truncated_stream_reports_success_witness :
    sortingHeap.Lawful ∧
    compress sortingHeap aab = Outcome.returned true (some (aabHeader ++ [192])) ∧
    ((BitReader.new []).readBit).1 = -1 ∧
    decompress sortingHeap aabHeader = Outcome.returned true (some [97, 97, 97]) ∧
    (∀ file sink, decompress sortingHeap file ≠ Outcome.returned false sink) :=
  ⟨sortingHeap_lawful, truncated_stream_reports_success sortingHeap sortingHeap_lawful⟩

/-- C4 (empty input): on the zero-length input `compress` returns `false` and
the output stream is never constructed, whatever the heap algorithms are. -/
theorem compress_empty_fails (H : HeapAlgo) : compress H [] = Outcome.returned false none := by
  have h : ∀ (is : List Byte) (c : List Node),
      pushLeaves H (countFrequencies []).freq is c = c := by
    intro is
    induction is with
    | nil => intro c; rfl
    | cons i is ih =>
      intro c
      show pushLeaves H (countFrequencies []).freq is
        (if (countFrequencies []).freq i > 0 then _ else c) = c
      rw [if_neg (by simp [countFrequencies]), ih]
  unfold compress
  simp [initialQueue, h]

/-- C5 (full alphabet): for every input of length 256 that holds each of the 256
byte values exactly once, the tree has exactly 255 internal nodes, `compress`
returns `true` with a container `C`, and `decompress` on `C` returns `true`
with exactly the input. -/
theorem full_alphabet_roundtrip (H : HeapAlgo) (hH : H.Lawful) (X : List Byte)
    (hlen : X.length = 256) (hX : ∀ b : Byte, X.count b = 1) :
    ∃ root C, buildTree H (countFrequencies X).freq = some root ∧ root.internalCount = 255 ∧
      compress H X = Outcome.returned true (some C) ∧
      decompress H C = Outcome.returned true (some X) := by
  have hlt : X.length < W64 := by rw [hlen]; decide
  have hc := (countFrequencies_spec X hlt).1
  have hu : uniqueCount (countFrequencies X).freq = 256 := by
    unfold uniqueCount
    rw [List.filter_eq_self.mpr (by intro b _; simp [hc, hX])]
    exact allBytes_length
  obtain ⟨root, hroot, hcomp, hdec⟩ := roundtrip_general hH X hlt (by omega)
  obtain ⟨t, ht, _, hcount, _, _⟩ := buildTree_spec hH (countFrequencies X).freq (by omega)
  rw [hroot] at ht
  cases ht
  exact ⟨root, _, hroot, by omega, hcomp, hdec⟩

theorem full_alphabet_roundtrip_witness :
    sortingHeap.Lawful ∧ allBytes.length = 256 ∧ (∀ b : Byte, allBytes.count b = 1) ∧
    ∃ root C, buildTree sortingHeap (countFrequencies allBytes).freq = some root ∧
      root.internalCount = 255 ∧
      compress sortingHeap allBytes = Outcome.returned true (some C) ∧
      decompress sortingHeap C = Outcome.returned true (some allBytes) :=
  ⟨sortingHeap_lawful, allBytes_length,
    fun b => List.count_eq_one_of_mem allBytes_nodup (mem_allBytes b),
    full_alphabet_roundtrip sortingHeap sortingHeap_lawful allBytes (allBytes_length)
      (fun b => List.count_eq_one_of_mem allBytes_nodup (mem_allBytes b))⟩

/-- C6 (prefix-free code table): for every non-empty input (shorter than `2 ^ 64`
bytes) and every two distinct byte values `s ≠ t` that both occur in it, the
code that `buildCodes` assigns to `s` on the built tree is not a prefix of the
code assigned to `t`. -/
theorem codeTable_prefix_free (H : HeapAlgo) (hH : H.Lawful) (X : List Byte) (hne : X ≠ [])
    (hX : X.length < 2 ^ 64) :
    ∃ root, buildTree H (countFrequencies X).freq = some root ∧
      ∀ s t, s ∈ X → t ∈ X → s ≠ t → ¬ (codeTable root s <+: codeTable root t) := by
  have hu := uniqueCount_pos_of_ne_nil X hne hX
  obtain ⟨root, hroot, _, _, hleaf, _⟩ := buildTree_spec hH (countFrequencies X).freq hu
  refine ⟨root, hroot, ?_⟩
  intro s t hs ht hst hp
  have hc := (countFrequencies_spec X hX).1
  have hfs : 0 < (countFrequencies X).freq s := by rw [hc]; exact List.count_pos_iff.mpr hs
  have hft : 0 < (countFrequencies X).freq t := by rw [hc]; exact List.count_pos_iff.mpr ht
  have hss := (buildTree_symbols hH _ root hroot hu s).mpr hfs
  have hts := (buildTree_symbols hH _ root hroot hu t).mpr hft
  obtain ⟨f, l, r, hr⟩ := isLeaf_false (hleaf (uniqueCount_two _ s t hfs hft hst))
  subst hr
  rw [codeTable_internal f l r s hss, codeTable_internal f l r t hts] at hp
  exact hst (path_prefix_eq _ s t hss hts hp)

theorem codeTable_prefix_free_witness :
    sortingHeap.Lawful ∧ aab ≠ [] ∧ aab.length < 2 ^ 64 ∧
    ∃ root, buildTree sortingHeap (countFrequencies aab).freq = some root ∧
      ∀ s t, s ∈ aab → t ∈ aab → s ≠ t → ¬ (codeTable root s <+: codeTable root t) :=
  ⟨sortingHeap_lawful, by decide, by decide,
    codeTable_prefix_free sortingHeap sortingHeap_lawful aab (by decide) (by decide)⟩

/-- C7 (container layout): for every non-empty input `X` (shorter than `2 ^ 64`
bytes) `compress` returns `true` and the container is exactly `specContainer`:
`|X|` in 8 little-endian bytes, the number of distinct byte values in 4
little-endian bytes, for each byte value that occurs, in the order of `allBytes`
(which is ascending), the byte and its count in 8 little-endian bytes, then the
codes of `X[0], X[1], ...` packed eight bits per byte, most significant bit
first, the last byte padded with zero bits on the low side. -/
theorem compress_container_layout (H : HeapAlgo) (hH : H.Lawful) (X : List Byte) (hne : X ≠ [])
    (hX : X.length < 2 ^ 64) :
    allBytes.Pairwise (fun a b => a < b) ∧
    ∃ root, buildTree H (countFrequencies X).freq = some root ∧
      compress H X = Outcome.returned true (some (specContainer X (codeTable root))) := by
  obtain ⟨root, hroot, hc⟩ := compress_eq hH X (uniqueCount_pos_of_ne_nil X hne hX)
  refine ⟨allBytes_ascending, root, hroot, ?_⟩
  rw [hc, header_eq_spec X hX]
  rfl

theorem compress_container_layout_witness :
    sortingHeap.Lawful ∧ aab ≠ [] ∧ aab.length < 2 ^ 64 ∧
    allBytes.Pairwise (fun a b => a < b) ∧
    ∃ root, buildTree sortingHeap (countFrequencies aab).freq = some root ∧
      compress sortingHeap aab = Outcome.returned true (some (specContainer aab (codeTable root))) :=
  ⟨sortingHeap_lawful, by decide, by decide,
    compress_container_layout sortingHeap sortingHeap_lawful aab (by decide) (by decide)⟩

/-- C8 as stated fails on the reference heap: for `"aaab"` the frequencies are
`a:3, b:1`, but the code of `'a'` is not strictly shorter than the code of `'b'`. -/
theorem aaab_code_not_shorter :
    ¬ ∃ root, buildTree sortingHeap (countFrequencies aaab).freq = some root ∧
      (countFrequencies aaab).freq 97 = 3 ∧ (countFrequencies aaab).freq 98 = 1 ∧
      (codeTable root 97).length < (codeTable root 98).length := by
  rintro ⟨root, hr, _, _, hlt⟩
  rw [aaab_tree sortingHeap_lawful] at hr
  cases hr
  revert hlt
  decide

/-- C8 amended: compressing `"aaab"` gives the frequencies `a:3, b:1` (every
other count is zero), the tree with `'b'` as left and `'a'` as right child of
the root, and a code table in which the code of `'a'` is `"1"` and the code of
`'b'` is `"0"`: both codes are one bit long. -/
theorem aaab_code_table (H : HeapAlgo) (hH : H.Lawful) :
    buildTree H (countFrequencies aaab).freq
      = some (Node.internal 4 (Node.leaf 98 1) (Node.leaf 97 3)) ∧
    (countFrequencies aaab).freq 97 = 3 ∧ (countFrequencies aaab).freq 98 = 1 ∧
    (∀ s, s ≠ 97 → s ≠ 98 → (countFrequencies aaab).freq s = 0) ∧
    codeTable (Node.internal 4 (Node.leaf 98 1) (Node.leaf 97 3)) 97 = ['1'] ∧
    codeTable (Node.internal 4 (Node.leaf 98 1) (Node.leaf 97 3)) 98 = ['0'] := by
  refine ⟨aaab_tree hH, by decide, by decide, ?_, by decide, by decide⟩
  intro s h1 h2
  rw [(countFrequencies_spec aaab (by decide)).1 s]
  simp [aaab, List.count_cons, Ne.symm h1, Ne.symm h2]

theorem aaab_code_table_witness :
    sortingHeap.Lawful ∧
    buildTree sortingHeap (countFrequencies aaab).freq
      = some (Node.internal 4 (Node.leaf 98 1) (Node.leaf 97 3)) ∧
    (countFrequencies aaab).freq 97 = 3 ∧ (countFrequencies aaab).freq 98 = 1 ∧
    (∀ s, s ≠ 97 → s ≠ 98 → (countFrequencies aaab).freq s = 0) ∧
    codeTable (Node.internal 4 (Node.leaf 98 1) (Node.leaf 97 3)) 97 = ['1'] ∧
    codeTable (Node.internal 4 (Node.leaf 98 1) (Node.leaf 97 3)) 98 = ['0'] :=
  ⟨sortingHeap_lawful, aaab_code_table sortingHeap sortingHeap_lawful⟩

/-- C9 (compressed size): for every non-empty input `X` (shorter than `2 ^ 64`
bytes) with `u` distinct byte values, the frequency table holds the number of
occurrences of each byte value, the encoding loop writes the bits `codeBits`,
whose number is `B = Σ_s count(s) * length(code(s))`; the body is `⌈B / 8⌉`
bytes long and the container `12 + 9 * u + ⌈B / 8⌉` bytes. -/
theorem compressed_size (H : HeapAlgo) (hH : H.Lawful) (X : List Byte) (hne : X ≠ [])
    (hX : X.length < 2 ^ 64) :
    (∀ s, (countFrequencies X).freq s = X.count s) ∧
    ∃ root body, buildTree H (countFrequencies X).freq = some root ∧
      compress H X = Outcome.returned true (some (header (countFrequencies X) ++ body)) ∧
      (encodeAll (codeTable root) X (BitWriter.new (header (countFrequencies X)))
        = writeBits (BitWriter.new (header (countFrequencies X))) (codeBits (codeTable root) X)) ∧
      (codeBits (codeTable root) X).length
        = Finset.univ.sum (fun s : Byte => X.count s * (codeTable root s).length) ∧
      body.length
        = (Finset.univ.sum (fun s : Byte => X.count s * (codeTable root s).length) + 7) / 8 ∧
      (header (countFrequencies X) ++ body).length
        = 12 + 9 * X.dedup.length
          + (Finset.univ.sum (fun s : Byte => X.count s * (codeTable root s).length) + 7) / 8 := by
  obtain ⟨root, hroot, hc⟩ := compress_eq hH X (uniqueCount_pos_of_ne_nil X hne hX)
  have hl : (packBits (codeBits (codeTable root) X)).length
      = (Finset.univ.sum (fun s : Byte => X.count s * (codeTable root s).length) + 7) / 8 := by
    unfold packBits
    rw [packChunks_length _ _ (Nat.le_refl _), codeBits_length]
  refine ⟨(countFrequencies_spec X hX).1, root, _, hroot, hc, encodeAll_eq _ _ _,
    codeBits_length _ _, hl, ?_⟩
  rw [List.length_append, header_length, hl,
    uniqueCount_eq_dedup X _ (countFrequencies_spec X hX).1]

theorem compressed_size_witness :
    sortingHeap.Lawful ∧ aaab ≠ [] ∧ aaab.length < 2 ^ 64 ∧
    (∀ s, (countFrequencies aaab).freq s = aaab.count s) ∧
    ∃ root body, buildTree sortingHeap (countFrequencies aaab).freq = some root ∧
      compress sortingHeap aaab
        = Outcome.returned true (some (header (countFrequencies aaab) ++ body)) ∧
      (encodeAll (codeTable root) aaab (BitWriter.new (header (countFrequencies aaab)))
        = writeBits (BitWriter.new (header (countFrequencies aaab)))
            (codeBits (codeTable root) aaab)) ∧
      (codeBits (codeTable root) aaab).length
        = Finset.univ.sum (fun s : Byte => aaab.count s * (codeTable root s).length) ∧
      body.length
        = (Finset.univ.sum (fun s : Byte => aaab.count s * (codeTable root s).length) + 7) / 8 ∧
      (header (countFrequencies aaab) ++ body).length
        = 12 + 9 * aaab.dedup.length
          + (Finset.univ.sum (fun s : Byte => aaab.count s * (codeTable root s).length) + 7) / 8 :=
  ⟨sortingHeap_lawful, by decide, by decide,
    compressed_size sortingHeap sortingHeap_lawful aaab (by decide) (by decide)⟩

/-- C10 (determinism): two runs of `compress` on the same input, in which `new`
returns arbitrary and possibly different addresses, have the same outcome and
write byte-identical containers: the result depends on the bytes of the input
alone. -/
theorem compress_deterministic (H : HeapAlgo) (hH : H.Lawful) (alloc1 alloc2 : Nat → Nat)
    (X : List Byte) : compressAt H alloc1 X = compressAt H alloc2 X := by
  rw [compressAt_eq hH, compressAt_eq hH]

theorem compress_deterministic_witness :
    sortingHeap.Lawful ∧
    compressAt sortingHeap (fun k => k) aab = compressAt sortingHeap (fun k => 4096 + 48 * k) aab :=
  ⟨sortingHeap_lawful,
    compress_deterministic sortingHeap sortingHeap_lawful (fun k => k) (fun k => 4096 + 48 * k) aab⟩

/-- C11 (tree reconstruction): for every non-empty input `X` (shorter than
`2 ^ 64` bytes), parsing the header of the container that `compress` wrote
yields `originalSize = |X|` and a frequency table equal entry for entry to the
one that `compress` counted, and the tree that `decompress` builds from it is
the tree that `compress` built, node for node, whatever addresses `new`
returns in the two runs. -/
theorem tree_reconstruction (H : HeapAlgo) (hH : H.Lawful) (X : List Byte) (hne : X ≠ [])
    (hX : X.length < 2 ^ 64) (alloc1 alloc2 : Nat → Nat) :
    ∃ root C freq body,
      compress H X = Outcome.returned true (some C) ∧
      parseHeader C = some (X.length, freq, body) ∧
      (∀ b, freq b = (countFrequencies X).freq b) ∧
      decompress H C = decodeBody H freq X.length body ∧
      buildTreeAt H alloc1 (countFrequencies X).freq = some root ∧
      buildTreeAt H alloc2 freq = some root := by
  obtain ⟨root, hroot, hc⟩ := compress_eq hH X (uniqueCount_pos_of_ne_nil X hne hX)
  have hp := parseHeader_header (countFrequencies X) (countFrequencies_lt X hX)
    (by rw [(countFrequencies_spec X hX).2]; exact hX)
    (packBits (codeBits (codeTable root) X))
  rw [(countFrequencies_spec X hX).2] at hp
  refine ⟨root, _, (countFrequencies X).freq, _, hc, hp, fun _ => rfl, ?_, ?_, ?_⟩
  · rw [decompress_eq_parseHeader, hp]
  · rw [buildTreeAt_eq hH, hroot]
  · rw [buildTreeAt_eq hH, hroot]

theorem tree_reconstruction_witness :
    sortingHeap.Lawful ∧ aab ≠ [] ∧ aab.length < 2 ^ 64 ∧
    ∃ root C freq body,
      compress sortingHeap aab = Outcome.returned true (some C) ∧
      parseHeader C = some (aab.length, freq, body) ∧
      (∀ b, freq b = (countFrequencies aab).freq b) ∧
      decompress sortingHeap C = decodeBody sortingHeap freq aab.length body ∧
      buildTreeAt sortingHeap (fun k => k) (countFrequencies aab).freq = some root ∧
      buildTreeAt sortingHeap (fun k => 4096 + 48 * k) freq = some root :=
  ⟨sortingHeap_lawful, by decide, by decide,
    tree_reconstruction sortingHeap sortingHeap_lawful aab (by decide) (by decide)
      (fun k => k) (fun k => 4096 + 48 * k)⟩

/-- C12 (padding is inert) holds on inputs with at least two distinct byte
values and fails on the others.  First part: if `X` has two distinct byte
values, every body whose bits are the code bits of `X` followed by arbitrary
padding bits decodes to exactly `X`, like the zero-padded body that `compress`
wrote.  Second part: if `X` is `n ≥ 1` copies of one byte value, `decompress`
on the header of `X` followed by any body reaches undefined behaviour instead
of stopping after `originalSize` bytes. -/
theorem padding_inert_except_single_value (H : HeapAlgo) (hH : H.Lawful) (X : List Byte)
    (hX : X.length < 2 ^ 64) :
    (∀ root, buildTree H (countFrequencies X).freq = some root →
      (∃ a ∈ X, ∃ b ∈ X, a ≠ b) →
      compress H X = Outcome.returned true
        (some (header (countFrequencies X) ++ packBits (codeBits (codeTable root) X))) ∧
      unpackBits (packBits (codeBits (codeTable root) X))
        = codeBits (codeTable root) X ++ List.replicate
            (8 * (((codeBits (codeTable root) X).length + 7) / 8)
              - (codeBits (codeTable root) X).length) false ∧
      ∀ (body1 : List Byte) (pad : List Bool),
        pad.length = 8 * (((codeBits (codeTable root) X).length + 7) / 8)
              - (codeBits (codeTable root) X).length →
        unpackBits body1 = codeBits (codeTable root) X ++ pad →
        decompress H (header (countFrequencies X) ++ body1) = Outcome.returned true (some X)) ∧
    (∀ (b : Byte) (n : Nat), 1 ≤ n → X = List.replicate n b →
      ∀ body1 : List Byte,
        decompress H (header (countFrequencies X) ++ body1) = Outcome.undefined) := by
  constructor
  · intro root hroot h2
    have hu := two_values_uniqueCount X hX h2
    obtain ⟨root2, hroot2, hcomp⟩ := compress_eq hH X (by omega)
    rw [hroot] at hroot2
    cases hroot2
    refine ⟨hcomp, unpackBits_packChunks _ _ (Nat.le_refl _), ?_⟩
    intro body1 pad _ hb
    exact decompress_of_bits hH X hX hu root hroot body1 pad hb
  · intro b n hn hXe body1
    subst hXe
    exact decompress_single_value hH b n hn (by simpa using hX) body1

theorem padding_inert_except_single_value_witness :
    sortingHeap.Lawful ∧ aab.length < 2 ^ 64 ∧ (∃ a ∈ aab, ∃ b ∈ aab, a ≠ b) ∧
    decompress sortingHeap (header (countFrequencies aab) ++ [223])
      = Outcome.returned true (some aab) ∧
    decompress sortingHeap (header (countFrequencies (List.replicate 3 (97 : Byte))) ++ [31])
      = Outcome.undefined :=
  ⟨sortingHeap_lawful, by decide, ⟨97, by decide, 98, by decide, by decide⟩,
    ((padding_inert_except_single_value sortingHeap sortingHeap_lawful aab (by decide)).1
      (Node.internal 3 (Node.leaf 98 1) (Node.leaf 97 2)) (aab_tree sortingHeap_lawful)
      ⟨97, by decide, 98, by decide, by decide⟩).2.2 [223] [true, true, true, true, true]
      (by decide) (by decide),
    (padding_inert_except_single_value sortingHeap sortingHeap_lawful
      (List.replicate 3 (97 : Byte)) (by decide)).2 97 3 (by decide) rfl [31]⟩

/-- C13 as stated fails: the leaves `('a', 1)` and `('b', 1)` have equal
frequency and different symbols, and `CompareNode` ranks neither of them
strictly before the other. -/
theorem compareNode_tie_unranked :
    ¬ ((compareNode (Node.leaf 97 1) (Node.leaf 98 1) = true ∧
          compareNode (Node.leaf 98 1) (Node.leaf 97 1) = false) ∨
       (compareNode (Node.leaf 97 1) (Node.leaf 98 1) = false ∧
          compareNode (Node.leaf 98 1) (Node.leaf 97 1) = true)) := by
  decide

/-- C13 amended: `CompareNode` compares frequencies only.  It is a strict weak
ordering, `CompareNode(a, b)` holds exactly when the frequency of `a` is
greater than that of `b`, and two nodes of equal frequency are ranked neither
way, whatever their symbols. -/
theorem compareNode_by_frequency (a b : Node) :
    StrictWeak compareNode ∧
    (compareNode a b = true ↔ b.freq < a.freq) ∧
    (a.freq = b.freq → compareNode a b = false ∧ compareNode b a = false) := by
  refine ⟨compareNode_strictWeak, by simp [compareNode], ?_⟩
  intro h
  simp [compareNode, h]

theorem compareNode_by_frequency_witness :
    (Node.leaf 97 1).freq = (Node.leaf 98 1).freq ∧
    compareNode (Node.leaf 97 1) (Node.leaf 98 1) = false ∧
    compareNode (Node.leaf 98 1) (Node.leaf 97 1) = false :=
  ⟨rfl, (compareNode_by_frequency (Node.leaf 97 1) (Node.leaf 98 1)).2.2 rfl⟩

/-- C14 (tree shape): for every frequency table with `k ≥ 1` non-zero entries
whose counts sum to less than `2 ^ 64`, the combine loop ends after exactly
`k - 1` iterations (it has not ended after fewer), and the tree has exactly
`k` leaves, one for each byte value with a non-zero count and carrying that
count, `k - 1` internal nodes (at most 256 leaves and 255 internal nodes);
every internal node (which has two children by construction) carries the sum
of its children's frequencies, and the frequency of the root is the sum of
all counts, that is the number of bytes of the input. -/
theorem tree_shape (H : HeapAlgo) (hH : H.Lawful) (freq : Byte → Nat)
    (hk : 1 ≤ uniqueCount freq) (hsum : Finset.univ.sum freq < 2 ^ 64) :
    ∃ t, combineLoop H (uniqueCount freq - 1) (initialQueue H freq) = some [t] ∧
      (∀ j, j < uniqueCount freq - 1 → combineLoop H j (initialQueue H freq) = none) ∧
      buildTree H freq = some t ∧
      List.Perm t.leaves
        ((allBytes.filter (fun i => decide (freq i > 0))).map (fun i => (i, freq i))) ∧
      t.leaves.length = uniqueCount freq ∧
      t.internalCount = uniqueCount freq - 1 ∧
      t.leaves.length ≤ 256 ∧ t.internalCount ≤ 255 ∧
      t.sumsOk = true ∧
      t.freq = Finset.univ.sum freq ∧
      (∀ X : List Byte, (∀ b, freq b = X.count b) → t.freq = X.length) := by
  obtain ⟨hheap, hperm⟩ := initialQueue_spec hH freq
  have hlen := initialQueue_length hH freq
  have hne : initialQueue H freq ≠ [] := by
    intro h
    rw [h] at hlen
    simp at hlen
    omega
  have hgood : ∀ t ∈ initialQueue H freq, t.sumsOk = true ∧ t.freq = t.weight := by
    intro t ht
    have := hperm.mem_iff.mp ht
    simp only [leafList, List.mem_map] at this
    obtain ⟨i, _, hi⟩ := this
    rw [← hi]
    exact ⟨rfl, rfl⟩
  have hw : ((initialQueue H freq).map Node.weight).sum = Finset.univ.sum freq := by
    rw [(hperm.map Node.weight).sum_eq, leafList_weight]
  obtain ⟨t, ht, hs1, hs2, hs3⟩ := combineLoop_sums hH _ hsum (uniqueCount freq - 1)
    (initialQueue H freq) hheap hne (by omega) hgood hw
  have hbuild : buildTree H freq = some t := by
    have hm : combineLoop H (initialQueue H freq).length (initialQueue H freq) = some [t] := by
      rw [hlen]
      have := combineLoop_mono H _ _ _ ht
      rwa [Nat.sub_add_cancel hk] at this
    unfold buildTree
    rw [hm]
    rfl
  obtain ⟨t2, ht2, hleaves, hcount, _, _⟩ := buildTree_spec hH freq hk
  rw [hbuild] at ht2
  cases ht2
  have hll : t.leaves.length = uniqueCount freq := by
    rw [hleaves.length_eq]
    simp [uniqueCount]
  have hu := uniqueCount_le freq
  refine ⟨t, ht, ?_, hbuild, hleaves, hll, by omega, by omega, by omega, hs1, ?_, ?_⟩
  · intro j hj
    exact combineLoop_none hH j _ hheap (by omega)
  · rw [hs2, hs3]
  · intro X hX
    rw [hs2, hs3, ← sum_count_eq_length X]
    exact Finset.sum_congr rfl (fun b _ => hX b)

theorem tree_shape_witness :
    sortingHeap.Lawful ∧ 1 ≤ uniqueCount (countFrequencies aab).freq ∧
    Finset.univ.sum (countFrequencies aab).freq < 2 ^ 64 ∧
    ∃ t, combineLoop sortingHeap (uniqueCount (countFrequencies aab).freq - 1)
        (initialQueue sortingHeap (countFrequencies aab).freq) = some [t] ∧
      (∀ j, j < uniqueCount (countFrequencies aab).freq - 1 →
        combineLoop sortingHeap j (initialQueue sortingHeap (countFrequencies aab).freq) = none) ∧
      buildTree sortingHeap (countFrequencies aab).freq = some t ∧
      List.Perm t.leaves
        ((allBytes.filter (fun i => decide ((countFrequencies aab).freq i > 0))).map
          (fun i => (i, (countFrequencies aab).freq i))) ∧
      t.leaves.length = uniqueCount (countFrequencies aab).freq ∧
      t.internalCount = uniqueCount (countFrequencies aab).freq - 1 ∧
      t.leaves.length ≤ 256 ∧ t.internalCount ≤ 255 ∧
      t.sumsOk = true ∧
      t.freq = Finset.univ.sum (countFrequencies aab).freq ∧
      (∀ X : List Byte, (∀ b, (countFrequencies aab).freq b = X.count b) → t.freq = X.length) :=
  ⟨sortingHeap_lawful, by decide,
    by rw [countFrequencies_sum aab (by decide)]; decide,
    tree_shape sortingHeap sortingHeap_lawful (countFrequencies aab).freq (by decide)
      (by rw [countFrequencies_sum aab (by decide)]; decide)⟩

/-- C15 (optimality): for every non-empty input (shorter than `2 ^ 64` bytes)
the code table built from the tree has the least total encoded length: the
sum over the byte values `s` of `count(s) * length(code(s))` is at most the
same sum for every assignment of non-empty bit-strings to the byte values of
the input in which no bit-string is a prefix of another. -/
theorem huffman_optimal (H : HeapAlgo) (hH : H.Lawful) (X : List Byte) (hne : X ≠ [])
    (hX : X.length < 2 ^ 64) :
    ∃ root, buildTree H (countFrequencies X).freq = some root ∧
      ∀ code1 : Byte → List Bool,
        (∀ s ∈ X, code1 s ≠ []) →
        (∀ s ∈ X, ∀ t ∈ X, s ≠ t → ¬ code1 s <+: code1 t) →
        Finset.univ.sum (fun s : Byte => X.count s * (codeTable root s).length)
          ≤ Finset.univ.sum (fun s : Byte => X.count s * (code1 s).length) := by
  have hu := uniqueCount_pos_of_ne_nil X hne hX
  have hc := (countFrequencies_spec X hX).1
  obtain ⟨root, hroot, hleaves, _, hleaf2, hleaf1⟩ := buildTree_spec hH (countFrequencies X).freq hu
  have hnd := buildTree_symbols_nodup hH _ root hroot hu
  have hsym := buildTree_symbols hH _ root hroot hu
  have hmem : ∀ s, 0 < (countFrequencies X).freq s ↔ s ∈ X := by
    intro s
    rw [hc, List.count_pos_iff]
  refine ⟨root, hroot, ?_⟩
  intro code1 hne1 hpf
  by_cases h2 : 2 ≤ uniqueCount (countFrequencies X).freq
  · obtain ⟨f, l, r, hr⟩ := isLeaf_false (hleaf2 h2)
    have hsumlt : Finset.univ.sum (countFrequencies X).freq < W64 := by
      have : Finset.univ.sum (countFrequencies X).freq = X.length := by
        rw [← sum_count_eq_length X]
        exact Finset.sum_congr rfl (fun b _ => hc b)
      rw [this]
      exact hX
    have hbound := buildTree_cost_le hH _ hu hsumlt root hroot code1
      (fun s t hs ht hst => hpf s ((hmem s).mp hs) t ((hmem t).mp ht) hst)
    have hcost : root.cost = Finset.univ.sum
        (fun s : Byte => (countFrequencies X).freq s * (root.path s).length) := by
      rw [cost_eq_paths root hnd, ← sum_filter_mul,
        (hleaves.map (fun p => p.2 * (root.path p.1).length)).sum_eq]
      simp [Function.comp_def]
    have hlhs : Finset.univ.sum (fun s : Byte => X.count s * (codeTable root s).length)
        = root.cost := by
      rw [hcost]
      apply Finset.sum_congr rfl
      intro s _
      rw [hc]
      by_cases hs : s ∈ root.symbols
      · subst hr
        rw [codeTable_internal f l r s hs]
      · have : X.count s = 0 := by
          have := (hsym s).not.mp hs
          rw [hc] at this
          omega
        simp [this]
    rw [hlhs]
    refine le_trans hbound (le_of_eq ?_)
    exact Finset.sum_congr rfl (fun s _ => by rw [hc])
  · have hl := hleaf1 (by omega)
    apply Finset.sum_le_sum
    intro s _
    by_cases hs : s ∈ X
    · have hss : s ∈ root.symbols := (hsym s).mpr ((hmem s).mpr hs)
      have hp : root.path s = [] := (path_ne_nil_iff root s).mpr hl
      rw [codeTable_mem root s hss, if_pos hp]
      have : 1 ≤ (code1 s).length := List.length_pos.mpr (hne1 s hs)
      simp only [List.length_singleton, Nat.mul_one]
      exact Nat.le_mul_of_pos_right _ this
    · simp [List.count_eq_zero_of_not_mem hs]

theorem huffman_optimal_witness :
    sortingHeap.Lawful ∧ aab ≠ [] ∧ aab.length < 2 ^ 64 ∧
    ∃ root, buildTree sortingHeap (countFrequencies aab).freq = some root ∧
      ∀ code1 : Byte → List Bool,
        (∀ s ∈ aab, code1 s ≠ []) →
        (∀ s ∈ aab, ∀ t ∈ aab, s ≠ t → ¬ code1 s <+: code1 t) →
        Finset.univ.sum (fun s : Byte => aab.count s * (codeTable root s).length)
          ≤ Finset.univ.sum (fun s : Byte => aab.count s * (code1 s).length) :=
  ⟨sortingHeap_lawful, by decide, by decide,
    huffman_optimal sortingHeap sortingHeap_lawful aab (by decide) (by decide)⟩

/-- C16 (code table is the leaf-path map): on the tree built from a non-empty
input (shorter than `2 ^ 64` bytes), for every byte value `s` of the input there
is exactly one path `p` from the root to a leaf holding `s`; the table entry
of `s` is `p`, or `"0"` when `p` is empty, which is the case exactly when the
root is a leaf; the entry is not empty.  For every byte value that does not
occur the entry is the empty string. -/
theorem codeTable_leaf_paths (H : HeapAlgo) (hH : H.Lawful) (X : List Byte) (hne : X ≠ [])
    (hX : X.length < 2 ^ 64) :
    ∃ root, buildTree H (countFrequencies X).freq = some root ∧
      (∀ s ∈ X, ∃ p, root.leadsTo p s = true ∧ (∀ q, root.leadsTo q s = true → q = p) ∧
        (p = [] ↔ root.isLeaf = true) ∧
        codeTable root s = (if p = [] then ['0'] else p) ∧ codeTable root s ≠ []) ∧
      (∀ s, s ∉ X → codeTable root s = []) := by
  have hu := uniqueCount_pos_of_ne_nil X hne hX
  obtain ⟨root, hroot, _⟩ := buildTree_spec hH (countFrequencies X).freq hu
  have hc := (countFrequencies_spec X hX).1
  have hnd := buildTree_symbols_nodup hH _ root hroot hu
  refine ⟨root, hroot, ?_, ?_⟩
  · intro s hs
    have hss : s ∈ root.symbols := by
      rw [buildTree_symbols hH _ root hroot hu, hc]
      exact List.count_pos_iff.mpr hs
    refine ⟨root.path s, leadsTo_path root s hss, fun q hq => leadsTo_unique root hnd q s hq,
      path_ne_nil_iff root s, codeTable_mem root s hss, ?_⟩
    rw [codeTable_mem root s hss]
    split
    · simp
    · assumption
  · intro s hs
    apply codeTable_not_mem
    rw [buildTree_symbols hH _ root hroot hu, hc]
    simp [List.count_eq_zero_of_not_mem hs]

theorem codeTable_leaf_paths_witness :
    sortingHeap.Lawful ∧ aab ≠ [] ∧ aab.length < 2 ^ 64 ∧
    ∃ root, buildTree sortingHeap (countFrequencies aab).freq = some root ∧
      (∀ s ∈ aab, ∃ p, root.leadsTo p s = true ∧ (∀ q, root.leadsTo q s = true → q = p) ∧
        (p = [] ↔ root.isLeaf = true) ∧
        codeTable root s = (if p = [] then ['0'] else p) ∧ codeTable root s ≠ []) ∧
      (∀ s, s ∉ aab → codeTable root s = []) :=
  ⟨sortingHeap_lawful, by decide, by decide,
    codeTable_leaf_paths sortingHeap sortingHeap_lawful aab (by decide) (by decide)⟩

/-- C17 (`BitWriter` packing): for every bit sequence `bs` of length `n` written
to a fresh writer and followed by `flush()`, the bytes emitted are `packBits bs`:
there are `⌈n / 8⌉` of them, bit `7 - j` of byte `k` is `bs[8k + j]` when
`8k + j < n` and `0` otherwise; `flush()` emits nothing (and leaves the writer
as it is) when `n` is a multiple of 8; `writeCode` is a sequence of `writeBit`. -/
theorem bitWriter_packing (out0 : List Byte) (bs : List Bool) :
    ((writeBits (BitWriter.new out0) bs).flush).out = out0 ++ packBits bs ∧
    (packBits bs).length = (bs.length + 7) / 8 ∧
    (∀ k j, k < (packBits bs).length → j < 8 →
      ((packBits bs).getD k 0).val.testBit (7 - j) = bs.getD (8 * k + j) false) ∧
    (bs.length % 8 = 0 →
      (writeBits (BitWriter.new out0) bs).flush = writeBits (BitWriter.new out0) bs) ∧
    (∀ (w : BitWriter) (code : Code), w.writeCode code = writeBits w (code.map bitOfChar)) := by
  refine ⟨?_, packChunks_length _ _ (Nat.le_refl _), ?_, ?_, writeCode_eq⟩
  · unfold BitWriter.new packBits
    rw [writeBits_flush _ _ _ (Nat.le_refl _)]
  · intro k j hk hj
    unfold packBits at hk ⊢
    rw [packChunks_getD _ _ k (Nat.le_refl _) hk,
      testBit_packByte _ (by rw [List.length_take]; omega) j (List.mem_range.mpr hj)]
    simp only [List.getD_eq_getElem?_getD, List.getElem?_take, List.getElem?_drop, hj, if_true]
  · intro hm
    unfold BitWriter.new
    rw [writeBits_aligned _ _ _ (Nat.le_refl _) hm, flush_clean]

theorem bitWriter_packing_witness :
    ((writeBits (BitWriter.new [7]) [true, true, false]).flush).out = [7, 192] ∧
    (writeBits (BitWriter.new [7]) [true, true, false, false, false, false, false, true]).flush
      = writeBits (BitWriter.new [7]) [true, true, false, false, false, false, false, true] :=
  ⟨(bitWriter_packing [7] [true, true, false]).1,
    (bitWriter_packing [7] [true, true, false, false, false, false, false, true]).2.2.2.1
      (by decide)⟩

/-- C18 (`BitReader` unpacking): on a fresh reader over the bytes `bs`, call
number `i` of `readBit` returns bit `7 - i mod 8` of `bs[i div 8]`, which is
`0` or `1`, for every `i < 8 * |bs|`, and returns `-1` for every `i ≥ 8 * |bs|`. -/
theorem bitReader_unpacking (bs : List Byte) (i : Nat) :
    (i < 8 * bs.length →
      nthReadBit (BitReader.new bs) i
        = (if (bs.getD (i / 8) 0).val.testBit (7 - i % 8) then 1 else 0) ∧
      (nthReadBit (BitReader.new bs) i = 0 ∨ nthReadBit (BitReader.new bs) i = 1)) ∧
    (8 * bs.length ≤ i → nthReadBit (BitReader.new bs) i = -1) := by
  rw [nthReadBit_bits, new_bits, unpackBits_get]
  constructor
  · intro h
    rw [if_pos h]
    constructor
    · rfl
    · simp only []
      split <;> simp
  · intro h
    rw [if_neg (by omega)]

theorem bitReader_unpacking_witness :
    1 < 8 * [(192 : Byte)].length ∧ nthReadBit (BitReader.new [192]) 1 = 1 ∧
    8 * [(192 : Byte)].length ≤ 8 ∧ nthReadBit (BitReader.new [192]) 8 = -1 :=
  ⟨by decide, ((bitReader_unpacking [192] 1).1 (by decide)).1, by decide,
    (bitReader_unpacking [192] 8).2 (by decide)⟩

/-- C19 (frequency table): for every input `X` (shorter than `2 ^ 64` bytes),
after the counting loop `freq[b]` is the number of positions of `X` that hold
`b`, `totalBytes` is `|X|` and is the sum of the 256 counts, and some count is
non-zero when `X` is not empty. -/
theorem frequency_table (X : List Byte) (hX : X.length < 2 ^ 64) :
    (∀ b : Byte, (countFrequencies X).freq b = X.count b) ∧
    (countFrequencies X).totalBytes = X.length ∧
    (countFrequencies X).totalBytes = Finset.univ.sum (fun b : Byte => (countFrequencies X).freq b) ∧
    (X ≠ [] → ∃ b : Byte, (countFrequencies X).freq b ≠ 0) := by
  obtain ⟨hc, ht⟩ := countFrequencies_spec X hX
  refine ⟨hc, ht, ?_, ?_⟩
  · rw [ht, ← sum_count_eq_length X]
    exact Finset.sum_congr rfl (fun b _ => (hc b).symm)
  · intro hne
    obtain ⟨x, hx⟩ := List.exists_mem_of_ne_nil X hne
    exact ⟨x, by rw [hc]; exact Nat.pos_iff_ne_zero.mp (List.count_pos_iff.mpr hx)⟩

theorem frequency_table_witness :
    aab.length < 2 ^ 64 ∧
    (∀ b : Byte, (countFrequencies aab).freq b = aab.count b) ∧
    (countFrequencies aab).totalBytes = aab.length ∧
    (countFrequencies aab).totalBytes
      = Finset.univ.sum (fun b : Byte => (countFrequencies aab).freq b) ∧
    (aab ≠ [] → ∃ b : Byte, (countFrequencies aab).freq b ≠ 0) :=
  ⟨by decide, frequency_table aab (by decide)⟩

/-- C20 (round trip with at least two distinct byte values): for every input
`X` (shorter than `2 ^ 64` bytes) that holds two different byte values,
`compress` returns `true` with a container `C`, `decompress` on `C` returns
`true` with exactly `X`, and the decoding loop, run iteration by iteration,
ends with the output `X` without ever dereferencing a null child. -/
theorem roundtrip_two_values (H : HeapAlgo) (hH : H.Lawful) (X : List Byte)
    (hX : X.length < 2 ^ 64) (h2 : ∃ a ∈ X, ∃ b ∈ X, a ≠ b) :
    ∃ root C body,
      buildTree H (countFrequencies X).freq = some root ∧
      compress H X = Outcome.returned true (some C) ∧
      C = header (countFrequencies X) ++ body ∧
      decompress H C = Outcome.returned true (some X) ∧
      ∃ N, ∀ fuel, N ≤ fuel →
        decodeIterate root X.length fuel
            { written := 0, cur := root, br := BitReader.new body, out := [] }
          = some (some X) := by
  have hu := two_values_uniqueCount X hX h2
  obtain ⟨root, hroot, hcomp, hdec⟩ := roundtrip_general hH X hX hu
  refine ⟨root, _, _, hroot, hcomp, rfl, hdec, ?_⟩
  obtain ⟨N, hN⟩ := decodeIterate_eq_decodeLoop root X.length 0
    (BitReader.new (packBits (codeBits (codeTable root) X))) []
  refine ⟨N, fun fuel hf => ?_⟩
  have := hN fuel hf
  rw [Nat.zero_add] at this
  have hd := decodeLoop_of_bits hH X hX hu root hroot (packBits (codeBits (codeTable root) X)) _
    (unpackBits_packChunks _ _ (Nat.le_refl _))
  rw [this, hd]

theorem roundtrip_two_values_witness :
    sortingHeap.Lawful ∧ aab.length < 2 ^ 64 ∧ (∃ a ∈ aab, ∃ b ∈ aab, a ≠ b) ∧
    ∃ root C body,
      buildTree sortingHeap (countFrequencies aab).freq = some root ∧
      compress sortingHeap aab = Outcome.returned true (some C) ∧
      C = header (countFrequencies aab) ++ body ∧
      decompress sortingHeap C = Outcome.returned true (some aab) ∧
      ∃ N, ∀ fuel, N ≤ fuel →
        decodeIterate root aab.length fuel
            { written := 0, cur := root, br := BitReader.new body, out := [] }
          = some (some aab) :=
  ⟨sortingHeap_lawful, by decide, ⟨97, by decide, 98, by decide, by decide⟩,
    roundtrip_two_values sortingHeap sortingHeap_lawful aab (by decide)
      ⟨97, by decide, 98, by decide, by decide⟩⟩

end FileZipper
